import Mathlib

/-!
# gdbc: the binary token container of `GDScriptTokenizerBuffer` and `BytecodeCompiler`

A shallow embedding of `src/engine/gdscript_tokenizer_buffer.cpp` and
`src/bytecode_compiler.cpp`.

* Byte arrays (`PackedByteArray`) are lists of `Fin 256`; every write stores a value reduced
  modulo 256, and 32-bit fields are written modulo `2 ^ 32`, little-endian.
* `HashMap` is the insertion-ordered map of the engine, kept as an association list in
  insertion order (iteration order is insertion order).
* The declarations that the three source files use but do not contain (the enumerators of
  `Token::Type`, `TOKENIZER_VERSION`, the text tokenizer, `var_to_bytes`, the compression
  transform, `Token::get_name`) are the fields of `Env`.
-/

namespace Gdbc

/-! ## Bytes -/

/-- One byte of a `PackedByteArray`. -/
abbrev Byte := Fin 256

/-- The engine's `PackedByteArray`. -/
abbrev PackedByteArray := List Byte

/-- The byte holding `v` reduced modulo 256 (the conversion to `uint8_t`). -/
def toByte (v : Nat) : Byte := ⟨v % 256, Nat.mod_lt _ (by decide)⟩

/-- The four little-endian bytes of `v` reduced modulo `2 ^ 32`. -/
def u32le (v : Nat) : List Byte :=
  [toByte v, toByte (v / 256), toByte (v / 65536), toByte (v / 16777216)]

/-- `PackedByteArray::resize`: truncates, or pads with zero bytes. -/
def resize (buf : PackedByteArray) (n : Nat) : PackedByteArray :=
  buf.take n ++ List.replicate (n - buf.length) 0

/-- `PackedByteArray::encode_u32`: overwrites four bytes at `pos`; an offset that does not
leave room for four bytes is an error and leaves the array unchanged. -/
def encode_u32 (buf : PackedByteArray) (pos v : Nat) : PackedByteArray :=
  if pos + 4 ≤ buf.length then buf.take pos ++ u32le v ++ buf.drop (pos + 4) else buf

/-- `PackedByteArray::set` and `operator[]` assignment: overwrites the byte at `pos`. -/
def setByte (buf : PackedByteArray) (pos v : Nat) : PackedByteArray :=
  buf.set pos (toByte v)

/-- `PackedByteArray::decode_u8`: the byte at `pos`, `0` when out of range. -/
def decode_u8 (buf : PackedByteArray) (pos : Nat) : Nat :=
  ((buf.get? pos).getD 0).val

/-- `PackedByteArray::decode_u32`: the little-endian 32-bit value at `pos`, `0` when fewer
than four bytes are left. -/
def decode_u32 (buf : PackedByteArray) (pos : Nat) : Nat :=
  if pos + 4 ≤ buf.length then
    decode_u8 buf pos + 256 * decode_u8 buf (pos + 1) + 65536 * decode_u8 buf (pos + 2)
      + 16777216 * decode_u8 buf (pos + 3)
  else 0

/-! ## Values and tokens -/

/-- Modelled from the spec: the host value type `Variant` is not among the sources ("an opaque
serializable value type"); it is the closed sum of the design notes (null, boolean, integer,
string) with the two cases the code tells apart, interned names and object references. -/
inductive Variant where
  | NIL
  | BOOL (b : Bool)
  | INT (i : Int)
  | STRING (s : String)
  | STRING_NAME (s : String)
  | OBJECT (id : Nat)
  deriving DecidableEq, Repr

/-- Modelled from the spec: `Token` of `gdscript_tokenizer.h` is not among the sources; the
fields are those of the spec's data model, `type` being the integer value of the enumerator.
A default-constructed token has zero lines and a null literal. -/
structure Token where
  type : Nat
  literal : Variant := Variant.NIL
  start_line : Nat := 0
  end_line : Nat := 0
  start_column : Nat := 0
  deriving DecidableEq, Repr

/-- Modelled from the spec: `Token::get_identifier` is not among the sources; it is the
literal converted to a name (the text of a name or of a string, the empty name otherwise). -/
def Token.get_identifier (t : Token) : String :=
  match t.literal with
  | Variant.STRING_NAME s => s
  | Variant.STRING s => s
  | _ => ""

/-- Modelled from the spec: the enum of `gdscript_tokenizer_buffer.h` is not among the
sources. The narrow cell is one byte and the index is packed above it. -/
def TOKEN_BITS : Nat := 8

/-- Modelled from the spec: the kind occupies the low bits of the narrow cell, below the
reserved high bit of the byte. -/
def TOKEN_MASK : Nat := 127

/-- Modelled from the spec: the reserved high bit of the first byte flags a wide cell. -/
def TOKEN_BYTE_MASK : Nat := 128

/-- Modelled from the spec: `HEADER_SIZE` of `environment.h` is not among the sources; the
header is magic, version and payload size, and the payload starts at offset 12. -/
def HEADER_SIZE : Nat := 12

/-- The two values of `GDScriptTokenizerBuffer::CompressMode`. -/
inductive CompressMode where
  | COMPRESS_NONE
  | COMPRESS_ZSTD
  deriving DecidableEq, Repr

/-- The two values of `BytecodeCompiler::CompressionMode`. -/
inductive CompressionMode where
  | UNCOMPRESSED
  | COMPRESSED
  deriving DecidableEq, Repr

/-- The declarations used by the sources and declared elsewhere: the integer values of the
enumerators of `Token::Type` that the code names, `TOKENIZER_VERSION`, `Token::get_name`,
the text tokenizer (the tokens it scans before `TK_EOF` in multiline mode, and its
continuation lines), `var_to_bytes`, and the ZSTD transform of `PackedByteArray::compress`. -/
structure Env where
  ANNOTATION : Nat
  IDENTIFIER : Nat
  LITERAL : Nat
  ERROR : Nat
  NEWLINE : Nat
  INDENT : Nat
  DEDENT : Nat
  CONST_NAN : Nat
  TK_EOF : Nat
  TOKENIZER_VERSION : Nat
  get_name : Nat → String
  scan_all : String → List Token
  get_continuation_lines : String → List Nat
  var_to_bytes : Variant → PackedByteArray
  compress_zstd : PackedByteArray → PackedByteArray

/-- The enumerators named by the code are pairwise different, as the enumerators of one C++
enumeration are, and the version constant is a `uint32_t`. -/
def Env.WellFormed (E : Env) : Prop :=
  [E.ANNOTATION, E.IDENTIFIER, E.LITERAL, E.ERROR, E.NEWLINE, E.INDENT, E.DEDENT,
    E.CONST_NAN, E.TK_EOF].Nodup ∧ E.TOKENIZER_VERSION < 2 ^ 32

instance (E : Env) : Decidable E.WellFormed := by
  unfold Env.WellFormed; infer_instance

/-! ## Insertion-ordered hash maps -/

/-- The engine's `HashMap<K, uint32_t>`: the entries in insertion order. -/
abbrev HashMap (K : Type) := List (K × Nat)

namespace HashMap

variable {K : Type} [DecidableEq K]

/-- `HashMap::has`. -/
def has (m : HashMap K) (k : K) : Bool := m.any (fun e => decide (e.1 = k))

/-- Reading `m[k]`: the value stored under `k`, the default `0` when there is none. -/
def get (m : HashMap K) (k : K) : Nat :=
  match m.find? (fun e => decide (e.1 = k)) with
  | some e => e.2
  | none => 0

/-- Assigning `m[k] = v`: replaces the value of an existing key in place, appends a new key. -/
def insert (m : HashMap K) (k : K) (v : Nat) : HashMap K :=
  if has m k then m.map (fun e => if e.1 = k then (k, v) else e) else m ++ [(k, v)]

/-- `HashMap::erase`. -/
def erase (m : HashMap K) (k : K) : HashMap K := m.filter (fun e => decide (e.1 ≠ k))

end HashMap

/-- A dedup table with contiguous indices: no key twice, and the indices are exactly
`0 .. size - 1`. -/
def HashMap.Contiguous {K : Type} (m : HashMap K) : Prop :=
  (m.map Prod.fst).Nodup ∧ (m.map Prod.snd).Perm (List.range m.length)

instance {K : Type} [DecidableEq K] (m : HashMap K) : Decidable (HashMap.Contiguous m) := by
  unfold HashMap.Contiguous; infer_instance

/-! ## Token codec -/

/-- The result of `_token_to_binary`: the returned length and the three mutated arguments. -/
structure Encoded where
  token_len : Nat
  r_buffer : PackedByteArray
  r_identifiers_map : HashMap String
  r_constants_map : HashMap Variant

/-- The table step of `_token_to_binary`: the position of `k`, and the map after the call
(`k` is appended with position `size()` when it is new). -/
def table_pos {K : Type} [DecidableEq K] (m : HashMap K) (k : K) : Nat × HashMap K :=
  if HashMap.has m k then (HashMap.get m k, m)
  else (m.length, HashMap.insert m k m.length)

/-- The packed `token_type` of `_token_to_binary` after the `switch`, with the two maps. -/
def pack_token (E : Env) (p_token : Token) (r_identifiers_map : HashMap String)
    (r_constants_map : HashMap Variant) : Nat × HashMap String × HashMap Variant :=
  let token_type := p_token.type &&& TOKEN_MASK
  if p_token.type = E.ANNOTATION ∨ p_token.type = E.IDENTIFIER then
    let r := table_pos r_identifiers_map p_token.get_identifier
    (token_type ||| (r.1 <<< TOKEN_BITS), r.2, r_constants_map)
  else if p_token.type = E.ERROR ∨ p_token.type = E.LITERAL then
    let r := table_pos r_constants_map p_token.literal
    (token_type ||| (r.1 <<< TOKEN_BITS), r_identifiers_map, r.2)
  else
    (token_type, r_identifiers_map, r_constants_map)

/-- `GDScriptTokenizerBuffer::_token_to_binary`. -/
def _token_to_binary (E : Env) (p_token : Token) (r_buffer : PackedByteArray) (p_start : Nat)
    (r_identifiers_map : HashMap String) (r_constants_map : HashMap Variant) : Encoded :=
  let pos := p_start
  let packed := pack_token E p_token r_identifiers_map r_constants_map
  let token_type := packed.1
  if token_type &&& TOKEN_MASK ≠ 0 then
    let token_len := 8
    let r_buffer := resize r_buffer (pos + token_len)
    let r_buffer := encode_u32 r_buffer pos (token_type ||| TOKEN_BYTE_MASK)
    let pos := pos + 4
    ⟨token_len, encode_u32 r_buffer pos p_token.start_line, packed.2.1, packed.2.2⟩
  else
    let token_len := 5
    let r_buffer := resize r_buffer (pos + token_len)
    let r_buffer := setByte r_buffer pos token_type
    let pos := pos + 1
    ⟨token_len, encode_u32 r_buffer pos p_token.start_line, packed.2.1, packed.2.2⟩

/-- `GDScriptTokenizerBuffer::_binary_to_token`, reading the members `identifiers` and
`constants`. The result is `none` exactly when the code would index one of the two vectors
at or past its size. -/
def _binary_to_token (E : Env) (p_buffer : PackedByteArray) (identifiers : List String)
    (constants : List Variant) : Option Token :=
  let token_type := decode_u32 p_buffer 0
  let type := token_type &&& TOKEN_MASK
  let ib := if token_type &&& TOKEN_BYTE_MASK ≠ 0 then 4 else 1
  let start_line := decode_u32 p_buffer ib
  let literal :=
    if type = E.CONST_NAN then Variant.STRING "NAN" else Variant.STRING (E.get_name type)
  let token : Token :=
    { type := type, literal := literal, start_line := start_line, end_line := start_line }
  if type = E.ANNOTATION ∨ type = E.IDENTIFIER then
    let identifier_pos := token_type >>> TOKEN_BITS
    if identifier_pos ≥ identifiers.length then
      some { type := E.ERROR, literal := Variant.STRING "Identifier index out of bounds." }
    else
      (identifiers.get? identifier_pos).map
        (fun name => { token with literal := Variant.STRING_NAME name })
  else if type = E.ERROR ∨ type = E.LITERAL then
    let constant_pos := token_type >>> TOKEN_BITS
    if constant_pos ≥ constants.length then
      some { type := E.ERROR, literal := Variant.STRING "Constant index out of bounds." }
    else
      (constants.get? constant_pos).map (fun value => { token with literal := value })
  else
    some token

/-! ## Encoding a token sequence: `parse_code_string` -/

/-- The local variables of `parse_code_string` that its `while` loop updates. -/
structure EncodeState where
  token_buffer : PackedByteArray := []
  identifier_map : HashMap String := []
  constant_map : HashMap Variant := []
  token_lines : HashMap Nat := []
  token_columns : HashMap Nat := []
  token_pos : Nat := 0
  last_token_line : Nat := 0
  token_counter : Nat := 0

/-- One iteration of the `while` loop of `parse_code_string` on the token `current`. -/
def encode_step (E : Env) (st : EncodeState) (current : Token) : EncodeState :=
  let r := _token_to_binary E current st.token_buffer st.token_pos st.identifier_map
    st.constant_map
  let record : Bool := decide (st.token_counter > 0 ∧ current.start_line > st.last_token_line)
  { token_buffer := r.r_buffer
    identifier_map := r.r_identifiers_map
    constant_map := r.r_constants_map
    token_lines :=
      if record then HashMap.insert st.token_lines st.token_counter current.start_line
      else st.token_lines
    token_columns :=
      if record then HashMap.insert st.token_columns st.token_counter current.start_column
      else st.token_columns
    token_pos := st.token_pos + r.token_len
    last_token_line := current.end_line
    token_counter := st.token_counter + 1 }

/-- The `while` loop of `parse_code_string` over the tokens scanned before `TK_EOF`. -/
def encode_tokens (E : Env) (tokens : List Token) : EncodeState :=
  tokens.foldl (encode_step E) {}

/-- The tokens the `while` loop sees: those the text tokenizer returns before the first
`TK_EOF` (the end of the list stands for `TK_EOF` too). -/
def scanned_tokens (E : Env) (p_code : String) : List Token :=
  (E.scan_all p_code).takeWhile (fun t => decide (t.type ≠ E.TK_EOF))

/-- The reverse vectors of `parse_code_string`: resized to the size of the map, then entry
`E.value` is overwritten with `E.key` for every entry in iteration order. -/
def reverse_map {K : Type} (dflt : K) (m : HashMap K) : List K :=
  m.foldl (fun rev e => rev.set e.2 e.1) (List.replicate m.length dflt)

/-- The map `rev_token_lines` of `parse_code_string`, from line to token ordinal. -/
def reverse_lines (token_lines : HashMap Nat) : HashMap Nat :=
  token_lines.foldl (fun rev e => HashMap.insert rev e.2 e.1) []

/-- The loop "Remove continuation lines from map" on the pair `(token_lines, token_columns)`. -/
def remove_continuation_lines (rev_token_lines : HashMap Nat) (continuation_lines : List Nat)
    (maps : HashMap Nat × HashMap Nat) : HashMap Nat × HashMap Nat :=
  continuation_lines.foldl
    (fun p line =>
      if HashMap.has rev_token_lines line then
        (HashMap.erase p.1 (HashMap.get rev_token_lines line),
          HashMap.erase p.2 (HashMap.get rev_token_lines line))
      else p)
    maps

/-- The maps `(token_lines, token_columns)` that `parse_code_string` serializes for the
scanned tokens and the continuation lines of the tokenizer. -/
def position_index (E : Env) (tokens : List Token) (continuation_lines : List Nat) :
    HashMap Nat × HashMap Nat :=
  let st := encode_tokens E tokens
  remove_continuation_lines (reverse_lines st.token_lines) continuation_lines
    (st.token_lines, st.token_columns)

/-- The body of the loop over the characters of an identifier: the code unit as four
little-endian bytes, each stored exclusive-or `0xb6`. -/
def save_char (st : PackedByteArray × Nat) (c : Char) : PackedByteArray × Nat :=
  let tmp := encode_u32 [0, 0, 0, 0] 0 c.toNat
  let contents := (List.range 4).foldl
    (fun buf b => setByte buf (st.2 + b) (decode_u8 tmp b ^^^ 0xb6)) st.1
  (contents, st.2 + 4)

/-- The body of the loop "Save identifiers" on `(contents, buf_pos)`. -/
def save_identifier (st : PackedByteArray × Nat) (id : String) : PackedByteArray × Nat :=
  let len := id.length
  let contents := resize st.1 (st.2 + (len + 1) * 4)
  let contents := encode_u32 contents st.2 len
  id.toList.foldl save_char (contents, st.2 + 4)

/-- The loop "Save constants"; `none` is the early return of `ERR_FAIL_COND_V_MSG` on a
constant that is an object. -/
def save_constants (E : Env) (contents : PackedByteArray) :
    List Variant → Option PackedByteArray
  | [] => some contents
  | Variant.OBJECT _ :: _ => none
  | v :: rest => save_constants E (contents ++ E.var_to_bytes v) rest

/-- The body of the two loops "Save lines and columns" on `(contents, buf_pos)`. -/
def save_pair (st : PackedByteArray × Nat) (e : Nat × Nat) : PackedByteArray × Nat :=
  let contents := encode_u32 st.1 st.2 e.1
  let contents := encode_u32 contents (st.2 + 4) e.2
  (contents, st.2 + 8)

/-- The array `contents` of `parse_code_string` before the header is written; `none` is the
early return on an object constant. -/
def payload (E : Env) (tokens : List Token) (continuation_lines : List Nat) :
    Option PackedByteArray :=
  let st := encode_tokens E tokens
  let rev_identifier_map := reverse_map "" st.identifier_map
  let rev_constant_map := reverse_map Variant.NIL st.constant_map
  let maps := remove_continuation_lines (reverse_lines st.token_lines) continuation_lines
    (st.token_lines, st.token_columns)
  let token_lines := maps.1
  let token_columns := maps.2
  let contents := resize [] 16
  let contents := encode_u32 contents 0 st.identifier_map.length
  let contents := encode_u32 contents 4 st.constant_map.length
  let contents := encode_u32 contents 8 token_lines.length
  let contents := encode_u32 contents 12 st.token_counter
  let saved := rev_identifier_map.foldl save_identifier (contents, 16)
  match save_constants E saved.1 rev_constant_map with
  | none => none
  | some contents =>
    let buf_pos := contents.length
    let contents := resize contents (buf_pos + token_lines.length * 16)
    let saved := token_lines.foldl save_pair (contents, buf_pos)
    let saved := token_columns.foldl save_pair saved
    some (saved.1 ++ st.token_buffer)

/-- The header of `parse_code_string` before the payload size is written. -/
def header (E : Env) : PackedByteArray :=
  let buf := resize [] 12
  let buf := setByte buf 0 71
  let buf := setByte buf 1 68
  let buf := setByte buf 2 83
  let buf := setByte buf 3 67
  encode_u32 buf 4 E.TOKENIZER_VERSION

/-- `GDScriptTokenizerBuffer::parse_code_string`. -/
def parse_code_string (E : Env) (p_code : String) (p_compress_mode : CompressMode) :
    PackedByteArray :=
  match payload E (scanned_tokens E p_code) (E.get_continuation_lines p_code) with
  | none => []
  | some contents =>
    let buf := header E
    match p_compress_mode with
    | CompressMode.COMPRESS_NONE =>
      let buf := encode_u32 buf 8 0
      buf ++ contents
    | CompressMode.COMPRESS_ZSTD =>
      let buf := encode_u32 buf 8 contents.length
      let contents := E.compress_zstd contents
      buf ++ contents

/-! ## `BytecodeCompiler` -/

/-- `BytecodeCompiler::compile_from_string`. The loop over `tokenizer.tokens` reads the
member `tokens` of the freshly constructed `GDScriptTokenizerBuffer`, which
`parse_code_string` never assigns: it is the empty vector. -/
def compile_from_string (E : Env) (source_code : String) (compression : CompressionMode) :
    PackedByteArray :=
  if source_code.isEmpty then []
  else
    let compress_mode :=
      if compression = CompressionMode.COMPRESSED then CompressMode.COMPRESS_ZSTD
      else CompressMode.COMPRESS_NONE
    let bytes := parse_code_string E source_code compress_mode
    let tokenizer_tokens : List Token := []
    if tokenizer_tokens.any (fun token => decide (token.type = E.ERROR)) then []
    else bytes

/-- `BytecodeCompiler::compress`. -/
def compress (E : Env) (bytecode : PackedByteArray) : PackedByteArray :=
  if bytecode.length < HEADER_SIZE then []
  else if decode_u8 bytecode 0 ≠ 71 ∨ decode_u8 bytecode 1 ≠ 68 ∨ decode_u8 bytecode 2 ≠ 83
      ∨ decode_u8 bytecode 3 ≠ 67 then []
  else if decode_u32 bytecode 4 ≠ E.TOKENIZER_VERSION then []
  else if decode_u32 bytecode 8 > 0 then bytecode
  else
    let contents := bytecode.drop HEADER_SIZE
    let content_size := contents.length
    let contents := E.compress_zstd contents
    let compressed_bytecode := resize [] HEADER_SIZE
    let compressed_bytecode := encode_u32 compressed_bytecode 0 (decode_u32 bytecode 0)
    let compressed_bytecode := encode_u32 compressed_bytecode 4 (decode_u32 bytecode 4)
    let compressed_bytecode := encode_u32 compressed_bytecode 8 content_size
    compressed_bytecode ++ contents

/-! ## The indent-reconstruction scanner -/

/-- The members of `GDScriptTokenizerBuffer` that `scan` reads and writes. The indent stack
is kept innermost first: the head of the list is `indent_stack.back()`. Its entries and the
columns are 32-bit patterns (`int` in the list, `uint32_t` in the comparisons). -/
structure Scanner where
  tokens : List Token
  token_lines : HashMap Nat
  token_columns : HashMap Nat
  current : Nat := 0
  current_line : Nat := 1
  pending_indents : Int := 0
  indent_stack : List Nat := []
  last_token_was_newline : Bool := false
  multiline_mode : Bool := false
  deriving DecidableEq, Repr

/-- Reading `m[k]` through the non-const `operator[]`: a missing key is inserted with the
default value `0`. -/
def HashMap.index {K : Type} [DecidableEq K] (m : HashMap K) (k : K) : Nat × HashMap K :=
  if HashMap.has m k then (HashMap.get m k, m) else (0, m ++ [(k, 0)])

/-- The value of `current_column - 1` in `uint32_t` arithmetic: column 0 wraps around to
`2 ^ 32 - 1`. -/
def column_minus_one (current_column : Nat) : Nat :=
  if current_column = 0 then 4294967295 else current_column - 1

/-- The `while` loop of `scan` that pops the indent stack: called with the value of
`previous_indent`, the counter `pending_indents` and the stack, it returns the counter and
the stack after the loop. `pop_back` on an empty list does nothing. -/
def dedent_loop (target : Nat) : Nat → Int → List Nat → Int × List Nat
  | previous_indent, pending_indents, [] =>
    if target < previous_indent then (pending_indents - 1, []) else (pending_indents, [])
  | previous_indent, pending_indents, top :: rest =>
    if target < previous_indent then
      match rest with
      | [] => (pending_indents - 1, [])
      | next :: _ => dedent_loop target next (pending_indents - 1) rest
    else (pending_indents, top :: rest)

/-- A synthesized token of kind `type` on the line `current_line`. -/
def line_token (type current_line : Nat) : Token :=
  { type := type, start_line := current_line, end_line := current_line }

/-- The last two statements of `scan`: return the raw token at the cursor and advance. -/
def scan_raw (s : Scanner) (h : s.current < s.tokens.length) : Token × Scanner :=
  (s.tokens.get ⟨s.current, h⟩,
    { s with last_token_was_newline := false, current := s.current + 1 })

/-- The body of `GDScriptTokenizerBuffer::scan`, the recursive call `return scan()` being
`recurse`. -/
def scan_body (E : Env) (recurse : Scanner → Token × Scanner) (s : Scanner) :
    Token × Scanner :=
  if s.tokens.length ≤ s.current ∧ s.last_token_was_newline = false then
    (line_token E.NEWLINE s.current_line, { s with last_token_was_newline := true })
  else if s.pending_indents > 0 then
    (line_token E.INDENT s.current_line, { s with pending_indents := s.pending_indents - 1 })
  else if s.pending_indents < 0 then
    (line_token E.DEDENT s.current_line, { s with pending_indents := s.pending_indents + 1 })
  else if h : s.tokens.length ≤ s.current then
    if s.indent_stack ≠ [] then
      recurse { s with
        pending_indents := s.pending_indents - s.indent_stack.length
        indent_stack := [] }
    else ({ type := E.TK_EOF }, s)
  else if s.last_token_was_newline = false ∧ HashMap.has s.token_lines s.current then
    let column := HashMap.index s.token_columns s.current
    let s1 : Scanner := { s with
      current_line := HashMap.get s.token_lines s.current
      token_columns := column.2 }
    let current_column := column.1
    if s1.multiline_mode = false then
      let previous_indent := s1.indent_stack.headD 0
      let r :=
        if column_minus_one current_column > previous_indent then
          (s1.pending_indents + 1, column_minus_one current_column :: s1.indent_stack)
        else
          dedent_loop (column_minus_one current_column) previous_indent s1.pending_indents
            s1.indent_stack
      (line_token E.NEWLINE s1.current_line,
        { s1 with pending_indents := r.1, indent_stack := r.2, last_token_was_newline := true })
    else scan_raw s1 (Nat.lt_of_not_le h)
  else scan_raw s (Nat.lt_of_not_le h)

/-- `GDScriptTokenizerBuffer::scan` with a bound on the nesting of the recursive call. -/
def scan_fuel (E : Env) : Nat → Scanner → Token × Scanner
  | 0, s => ({ type := E.TK_EOF }, s)
  | fuel + 1, s => scan_body E (scan_fuel E fuel) s

/-- `GDScriptTokenizerBuffer::scan`: the recursive call is made with an empty indent stack,
where it cannot recurse again, so two levels are all the function uses (`scan_eq` below is
the defining equation of the source). -/
def scan (E : Env) (s : Scanner) : Token × Scanner := scan_fuel E 2 s

/-- The tokens returned by `n` successive calls of `scan`, and the state after them. -/
def run (E : Env) : Nat → Scanner → List Token × Scanner
  | 0, s => ([], s)
  | n + 1, s =>
    let r := scan E s
    let rest := run E n r.2
    (r.1 :: rest.1, rest.2)

/-- The scanner before the first call of `scan`. -/
def Scanner.initial (tokens : List Token) (token_lines token_columns : HashMap Nat)
    (multiline_mode : Bool) (current_line : Nat) : Scanner :=
  { tokens := tokens, token_lines := token_lines, token_columns := token_columns,
    multiline_mode := multiline_mode, current_line := current_line }

/-- The token IDENTIFIER `x` of the sample line `x = 1` (line 7, column 1). -/
def tokX : Token :=
  { type := 2, literal := Variant.STRING_NAME "x", start_line := 7, end_line := 7,
    start_column := 1 }

/-- The operator token `=` of the sample line `x = 1`, a kind without table reference. -/
def tokEq : Token := { type := 30, start_line := 7, end_line := 7, start_column := 3 }

/-- The token LITERAL `1` of the sample line `x = 1`. -/
def tokOne : Token :=
  { type := 3, literal := Variant.INT 1, start_line := 7, end_line := 7, start_column := 5 }

/-- The identifier names carried by the IDENTIFIER/ANNOTATION tokens of a sequence, in
order of occurrence. -/
def identifier_names (E : Env) (tokens : List Token) : List String :=
  (tokens.filter (fun t => decide (t.type = E.ANNOTATION ∨ t.type = E.IDENTIFIER))).map
    Token.get_identifier

/-- The literal values carried by the LITERAL/ERROR tokens of a sequence, in order of
occurrence. -/
def literal_values (E : Env) (tokens : List Token) : List Variant :=
  (tokens.filter (fun t => decide (t.type = E.ERROR ∨ t.type = E.LITERAL))).map
    Token.literal

/-- The rank of the first occurrence of `x` among the distinct elements of `keys`: the number
of distinct elements that occur before it. -/
def first_seen_rank {K : Type} [DecidableEq K] (keys : List K) (x : K) : Nat :=
  ((keys.take (keys.indexOf x)).toFinset).card

/-- The table `m` is the first-seen-order bijection of the sequence `keys`: no key twice,
the indices are `0 .. size - 1` in table order, the size is the number of distinct keys,
every key of the sequence is mapped to the rank of its first occurrence, every entry comes
from the sequence, and two keys of the sequence have the same index only if they are equal. -/
def FirstSeenTable {K : Type} [DecidableEq K] (keys : List K) (m : HashMap K) : Prop :=
  (m.map Prod.fst).Nodup ∧
  m.map Prod.snd = List.range m.length ∧
  m.length = keys.toFinset.card ∧
  (∀ x ∈ keys, HashMap.has m x = true ∧ HashMap.get m x = first_seen_rank keys x) ∧
  (∀ e ∈ m, e.1 ∈ keys) ∧
  (∀ x ∈ keys, ∀ y ∈ keys, HashMap.get m x = HashMap.get m y ↔ x = y)

/-- The table after successive table steps of `_token_to_binary` for the keys of a list. -/
def table_build {K : Type} [DecidableEq K] (keys : List K) (m : HashMap K) : HashMap K :=
  keys.foldl (fun m x => (table_pos m x).2) m

/-- A token IDENTIFIER `y` on the next line (line 8, column 5). -/
def tokY : Token :=
  { type := 2, literal := Variant.STRING_NAME "y", start_line := 8, end_line := 8,
    start_column := 5 }

/-- The ERROR token that the sample tokenizer returns for the source `$`. -/
def tokErr : Token :=
  { type := 90, literal := Variant.STRING "Unexpected character.", start_line := 1,
    end_line := 1, start_column := 1 }

/-- A sample environment: nine different enumerator values, a tokenizer that knows the
source line `x = 1` and fails on the source `$`, and simple stand-ins for the other
external functions. -/
def sampleEnv : Env where
  ANNOTATION := 1
  IDENTIFIER := 2
  LITERAL := 3
  ERROR := 90
  NEWLINE := 80
  INDENT := 81
  DEDENT := 82
  CONST_NAN := 86
  TK_EOF := 91
  TOKENIZER_VERSION := 100
  get_name := fun n => "T".append (toString n)
  scan_all := fun source =>
    if source = "x = 1" then [tokX, tokEq, tokOne]
    else if source = "$" then [tokErr] else []
  get_continuation_lines := fun _ => []
  var_to_bytes := fun v =>
    match v with
    | Variant.INT i => [2, 0, 0, 0] ++ u32le i.toNat
    | _ => [0, 0, 0, 0]
  compress_zstd := fun b => b.reverse

/-- A raw token whose kind is INDENT in the sample environment. -/
def tokRawIndent : Token := { type := 81, start_line := 7, end_line := 7, start_column := 1 }

/-- A raw token whose kind is NEWLINE in the sample environment. -/
def tokRawNewline : Token := { type := 80, start_line := 7, end_line := 7, start_column := 1 }

/-- A raw token whose kind is end-of-stream in the sample environment. -/
def tokRawEof : Token := { type := 91, start_line := 8, end_line := 8, start_column := 5 }

/-- The invariant of the position maps along the `while` loop, `b` being a bound between
the recorded lines and `last_token_line`. -/
def PositionInv (st : EncodeState) (b : Nat) : Prop :=
  (∀ e ∈ st.token_lines, e.1 < st.token_counter ∧ e.2 ≤ b) ∧
  b ≤ st.last_token_line ∧
  (st.token_lines.map Prod.snd).Pairwise (· < ·) ∧
  (st.token_lines.map Prod.fst).Pairwise (· < ·) ∧
  st.token_columns.map Prod.fst = st.token_lines.map Prod.fst

/-- The scanner after the lookup of step 6: `current_line` is the line of the entry, and the
column lookup has gone through `operator[]`. -/
def lookup_state (s : Scanner) : Scanner :=
  { s with
    current_line := HashMap.get s.token_lines s.current
    token_columns := (HashMap.index s.token_columns s.current).2 }

/-- The counter `pending_indents` and the indent stack after the comparison of step 6 with
the column `current_column`. -/
def reindent (current_column : Nat) (pending_indents : Int) (indent_stack : List Nat) :
    Int × List Nat :=
  if column_minus_one current_column > indent_stack.headD 0 then
    (pending_indents + 1, column_minus_one current_column :: indent_stack)
  else
    dedent_loop (column_minus_one current_column) (indent_stack.headD 0) pending_indents
      indent_stack

/-- The scanner after step 6 in structural mode. -/
def newline_state (s : Scanner) : Scanner :=
  { lookup_state s with
    pending_indents :=
      (reindent (HashMap.index s.token_columns s.current).1 s.pending_indents s.indent_stack).1
    indent_stack :=
      (reindent (HashMap.index s.token_columns s.current).1 s.pending_indents s.indent_stack).2
    last_token_was_newline := true }

/-- The number of tokens of kind `k` in a sequence of returned tokens. -/
def count_kind (k : Nat) (out : List Token) : Nat :=
  out.countP (fun t => decide (t.type = k))

/-- The contribution of one returned token to "INDENTs minus DEDENTs". -/
def token_delta (E : Env) (t : Token) : Int :=
  (if t.type = E.INDENT then 1 else 0) - (if t.type = E.DEDENT then 1 else 0)

/-- A measure of the work left to the scanner: it goes down with every call that does not
return the end-of-stream token of step 5. -/
def work_left (s : Scanner) : Nat :=
  4 * (s.tokens.length - s.current) + s.pending_indents.natAbs + s.indent_stack.length
    + (if s.last_token_was_newline then 0 else 3)

/-- The payload of the sample line `x = 1` in the sample environment: the four counts, the
identifier `x`, the constant `1`, no position entries, three wide cells. -/
def samplePayload : PackedByteArray :=
  [1, 0, 0, 0, 1, 0, 0, 0, 0, 0, 0, 0, 3, 0, 0, 0,
    1, 0, 0, 0, 206, 182, 182, 182,
    2, 0, 0, 0, 1, 0, 0, 0,
    130, 0, 0, 0, 7, 0, 0, 0, 158, 0, 0, 0, 7, 0, 0, 0, 131, 0, 0, 0, 7, 0, 0, 0]

/-- The four bytes stored for one code unit of an identifier: its little-endian bytes,
each exclusive-or `0xb6`. -/
def char_bytes (c : Char) : List Byte :=
  [toByte ((toByte c.toNat).val ^^^ 0xb6), toByte ((toByte (c.toNat / 256)).val ^^^ 0xb6),
    toByte ((toByte (c.toNat / 65536)).val ^^^ 0xb6),
    toByte ((toByte (c.toNat / 16777216)).val ^^^ 0xb6)]

/-- The serialized form of one identifier: its length, then its code units. -/
def identifier_bytes (id : String) : List Byte :=
  u32le id.length ++ id.toList.flatMap char_bytes

/-- The serialized form of one entry of the line map or of the column map. -/
def pair_bytes (e : Nat × Nat) : List Byte := u32le e.1 ++ u32le e.2

/-- The condition under which the `while` loop of `parse_code_string` stores `v` under the
ordinal `k`: the ordinal is not the first, the token at `k` starts on a line after the end
line of the token before it, and `v` is the field `f` of the token at `k`. -/
def Recorded (tokens : List Token) (f : Token → Nat) (k v : Nat) : Prop :=
  1 ≤ k ∧ ∃ t p, tokens[k]? = some t ∧ tokens[k - 1]? = some p ∧
    t.start_line > p.end_line ∧ v = f t

/-- The value of `last_token_line` after the loop has passed `tokens`. -/
def last_line (tokens : List Token) : Nat :=
  match tokens[tokens.length - 1]? with
  | some p => p.end_line
  | none => 0

/-- The entries of the line map that can still take step 6: those at or after the cursor,
and after it once the NEWLINE of the cursor has been returned. -/
def indexed_left (s : Scanner) : Nat :=
  s.token_lines.countP
    (fun e => decide (s.current + (if s.last_token_was_newline then 1 else 0) ≤ e.1))

/-- A bound on the calls of `scan` before the call of step 5: the raw tokens left, three
calls (NEWLINE, INDENT, DEDENT) for each entry that can still take step 6, the pending
tokens, one DEDENT for each entry of the stack, and the final NEWLINE. -/
def calls_left (s : Scanner) : Nat :=
  (s.tokens.length - s.current) + 3 * indexed_left s + s.pending_indents.natAbs
    + s.indent_stack.length
    + (if s.tokens.length ≤ s.current ∧ s.last_token_was_newline = true then 0 else 1)

theorem land_TOKEN_MASK (x : Nat) : x &&& TOKEN_MASK = x % 128 := by
  have h := Nat.and_pow_two_sub_one_eq_mod x 7
  simpa [TOKEN_MASK] using h

theorem land_TOKEN_BYTE_MASK (x : Nat) : x &&& TOKEN_BYTE_MASK = x / 128 % 2 * 128 := by
  have h := Nat.and_two_pow x 7
  rw [Nat.testBit_to_div_mod] at h
  have h2 : (2 : Nat) ^ 7 = 128 := by norm_num
  rw [h2] at h
  rw [TOKEN_BYTE_MASK, h]
  rcases Nat.mod_two_eq_zero_or_one (x / 128) with h0 | h1
  · simp [h0]
  · simp [h1]

theorem shiftRight_TOKEN_BITS (x : Nat) : x >>> TOKEN_BITS = x / 256 := by
  rw [TOKEN_BITS, Nat.shiftRight_eq_div_pow]

theorem lor_shiftLeft_TOKEN_BITS (k i : Nat) (hk : k < 256) :
    k ||| (i <<< TOKEN_BITS) = 256 * i + k := by
  have h := Nat.mul_add_lt_is_or (show k < 2 ^ 8 by simpa using hk) i
  rw [TOKEN_BITS, Nat.shiftLeft_eq, Nat.or_comm, Nat.mul_comm i]
  simpa using h.symm

theorem lor_TOKEN_BYTE_MASK (k i : Nat) (hk : k < 128) :
    (256 * i + k) ||| TOKEN_BYTE_MASK = 256 * i + 128 + k := by
  have h1 : k ||| 128 = 128 + k := by
    have h := Nat.mul_add_lt_is_or (show k < 2 ^ 7 by simpa using hk) 1
    rw [Nat.or_comm]
    simpa using h.symm
  have h2 := Nat.mul_add_lt_is_or (show k < 2 ^ 8 by simp; omega) i
  have h3 := Nat.mul_add_lt_is_or (show 128 + k < 2 ^ 8 by simp; omega) i
  have e : (2 : Nat) ^ 8 = 256 := by norm_num
  rw [e] at h2 h3
  rw [TOKEN_BYTE_MASK, h2, Nat.or_assoc, h1, ← h3]
  omega

/-! ## Byte arrays -/

theorem length_u32le (v : Nat) : (u32le v).length = 4 := rfl

theorem length_resize (buf : PackedByteArray) (n : Nat) : (resize buf n).length = n := by
  simp [resize]; omega

theorem length_setByte (buf : PackedByteArray) (pos v : Nat) :
    (setByte buf pos v).length = buf.length := by
  simp [setByte]

theorem encode_u32_eq (buf : PackedByteArray) (pos v : Nat) (h : pos + 4 ≤ buf.length) :
    encode_u32 buf pos v = buf.take pos ++ u32le v ++ buf.drop (pos + 4) := by
  simp [encode_u32, h]

theorem wide_cell (buf : PackedByteArray) (w l : Nat) :
    encode_u32 (encode_u32 (resize buf 8) 0 w) 4 l = u32le w ++ u32le l := by
  have hr := length_resize buf 8
  rw [encode_u32_eq _ 0 w (by omega)]
  rw [encode_u32_eq _ 4 l (by simp [length_u32le, hr])]
  have h1 : List.drop 8 (resize buf 8) = [] := List.drop_eq_nil_of_le (by omega)
  simp [length_u32le, h1, hr]

theorem narrow_cell (buf : PackedByteArray) (t l : Nat) :
    encode_u32 (setByte (resize buf 5) 0 t) 1 l = toByte t :: u32le l := by
  have hr := length_resize buf 5
  rw [encode_u32_eq _ 1 l (by simp [length_setByte, hr])]
  obtain ⟨a, r, hr2⟩ : ∃ a r, resize buf 5 = a :: r := by
    cases h : resize buf 5 with
    | nil => simp [h] at hr
    | cons a r => exact ⟨a, r, rfl⟩
  rw [hr2] at hr ⊢
  have h1 : List.drop 4 r = [] := List.drop_eq_nil_of_le (by simp at hr; omega)
  simp [setByte, h1]

theorem decode_u32_u32le (w : Nat) (rest : PackedByteArray) :
    decode_u32 (u32le w ++ rest) 0 = w % 4294967296 := by
  simp [decode_u32, decode_u8, u32le, toByte]
  omega

theorem decode_u32_u32le_four (w l : Nat) (rest : PackedByteArray) :
    decode_u32 (u32le w ++ u32le l ++ rest) 4 = l % 4294967296 := by
  simp [decode_u32, decode_u8, u32le, toByte]
  omega

theorem decode_u32_cons_zero (b : Byte) (l : Nat) (rest : PackedByteArray) :
    decode_u32 (b :: (u32le l ++ rest)) 0 = b.val + 256 * (l % 16777216) := by
  simp [decode_u32, decode_u8, u32le, toByte]
  omega

theorem decode_u32_cons_one (b : Byte) (l : Nat) (rest : PackedByteArray) :
    decode_u32 (b :: (u32le l ++ rest)) 1 = l % 4294967296 := by
  simp [decode_u32, decode_u8, u32le, toByte]
  omega

/-! ## Dedup tables and their reverse vectors -/

theorem has_eq_true_iff {K : Type} [DecidableEq K] (m : HashMap K) (k : K) :
    HashMap.has m k = true ↔ k ∈ m.map Prod.fst := by
  simp [HashMap.has]

theorem get_mem {K : Type} [DecidableEq K] (m : HashMap K) (k : K)
    (h : HashMap.has m k = true) : (k, HashMap.get m k) ∈ m := by
  unfold HashMap.get
  cases hf : m.find? (fun e => decide (e.1 = k)) with
  | none =>
    rw [List.find?_eq_none] at hf
    simp [HashMap.has] at h
    obtain ⟨v, hv⟩ := h
    have := hf (k, v) hv
    simp at this
  | some e =>
    have h1 := List.find?_some hf
    have h2 := List.mem_of_find?_eq_some hf
    simp at h1
    simpa [← h1] using h2

theorem table_pos_mem {K : Type} [DecidableEq K] (m : HashMap K) (k : K) :
    (k, (table_pos m k).1) ∈ (table_pos m k).2 := by
  unfold table_pos
  by_cases h : HashMap.has m k = true
  · simpa [h] using get_mem m k h
  · simp [h, HashMap.insert]

theorem table_pos_contiguous {K : Type} [DecidableEq K] (m : HashMap K) (k : K)
    (hm : HashMap.Contiguous m) : HashMap.Contiguous (table_pos m k).2 := by
  unfold table_pos
  by_cases h : HashMap.has m k = true
  · simpa [h] using hm
  · have hk : k ∉ m.map Prod.fst := by rwa [← has_eq_true_iff]
    simp only [h, HashMap.insert]
    refine ⟨?_, ?_⟩
    · have := hm.1
      simp only [Bool.false_eq_true, ↓reduceIte, List.map_append, List.map_cons, List.map_nil]
      rw [List.nodup_append]
      refine ⟨hm.1, by simp, ?_⟩
      intro a ha hb
      simp at hb
      exact hk (hb ▸ ha)
    · simp only [Bool.false_eq_true, ↓reduceIte, List.map_append, List.map_cons, List.map_nil,
        List.length_append, List.length_singleton, List.range_succ]
      exact List.Perm.append hm.2 (List.Perm.refl _)

theorem foldl_set_untouched {K : Type} (l : List (K × Nat)) (init : List K) (v : Nat)
    (hv : v ∉ l.map Prod.snd) :
    (l.foldl (fun rev e => rev.set e.2 e.1) init).get? v = init.get? v := by
  induction l generalizing init with
  | nil => rfl
  | cons e l ih =>
    simp only [List.map_cons, List.mem_cons, not_or] at hv
    rw [List.foldl_cons, ih _ hv.2]
    simp [List.getElem?_set, Ne.symm hv.1]

theorem length_foldl_set {K : Type} (l : List (K × Nat)) (init : List K) :
    (l.foldl (fun rev e => rev.set e.2 e.1) init).length = init.length := by
  induction l generalizing init with
  | nil => rfl
  | cons e l ih => rw [List.foldl_cons, ih]; simp

theorem foldl_set_get {K : Type} (l : List (K × Nat)) (init : List K) (k : K) (v : Nat)
    (hnd : (l.map Prod.snd).Nodup) (hlt : ∀ e ∈ l, e.2 < init.length) (hmem : (k, v) ∈ l) :
    (l.foldl (fun rev e => rev.set e.2 e.1) init).get? v = some k := by
  induction l generalizing init with
  | nil => simp at hmem
  | cons e l ih =>
    simp only [List.map_cons, List.nodup_cons] at hnd
    rw [List.foldl_cons]
    rcases List.mem_cons.1 hmem with h | h
    · subst h
      rw [foldl_set_untouched _ _ _ hnd.1]
      have := hlt (k, v) (List.mem_cons_self _ _)
      simp [List.getElem?_set, this]
    · apply ih _ hnd.2 _ h
      intro e' he'
      simpa using hlt e' (List.mem_cons_of_mem _ he')

theorem reverse_map_get {K : Type} (dflt : K) (m : HashMap K) (k : K) (v : Nat)
    (hm : HashMap.Contiguous m) (hmem : (k, v) ∈ m) :
    (reverse_map dflt m).get? v = some k := by
  unfold reverse_map
  apply foldl_set_get _ _ _ _ (hm.2.nodup_iff.2 (List.nodup_range _)) _ hmem
  intro e he
  have : e.2 ∈ List.range m.length := hm.2.mem_iff.1 (List.mem_map_of_mem _ he)
  simpa using this

theorem reverse_map_length {K : Type} (dflt : K) (m : HashMap K) :
    (reverse_map dflt m).length = m.length := by
  unfold reverse_map
  rw [length_foldl_set]; simp

/-! ## Decoding a cell -/

theorem wide_word (k idx : Nat) (hk : k < 128) (hidx : idx < 2 ^ 23) :
    (256 * idx + 128 + k) % 4294967296 = 256 * idx + 128 + k ∧
    (256 * idx + 128 + k) &&& TOKEN_MASK = k ∧
    (256 * idx + 128 + k) &&& TOKEN_BYTE_MASK ≠ 0 ∧
    (256 * idx + 128 + k) >>> TOKEN_BITS = idx := by
  have h23 : (2 : Nat) ^ 23 = 8388608 := by norm_num
  rw [h23] at hidx
  refine ⟨by omega, ?_, ?_, ?_⟩
  · rw [land_TOKEN_MASK]; omega
  · rw [land_TOKEN_BYTE_MASK]; omega
  · rw [shiftRight_TOKEN_BITS]; omega

theorem binary_to_token_wide (E : Env) (k idx line : Nat) (hk : k < 128) (hidx : idx < 2 ^ 23)
    (hline : line < 2 ^ 32) (identifiers : List String) (constants : List Variant) :
    _binary_to_token E (u32le (256 * idx + 128 + k) ++ u32le line) identifiers constants =
      if k = E.ANNOTATION ∨ k = E.IDENTIFIER then
        if idx ≥ identifiers.length then
          some { type := E.ERROR, literal := Variant.STRING "Identifier index out of bounds." }
        else
          (identifiers.get? idx).map (fun name =>
            { type := k, literal := Variant.STRING_NAME name, start_line := line,
              end_line := line })
      else if k = E.ERROR ∨ k = E.LITERAL then
        if idx ≥ constants.length then
          some { type := E.ERROR, literal := Variant.STRING "Constant index out of bounds." }
        else
          (constants.get? idx).map (fun value =>
            { type := k, literal := value, start_line := line, end_line := line })
      else
        some { type := k
               literal := if k = E.CONST_NAN then Variant.STRING "NAN"
                 else Variant.STRING (E.get_name k)
               start_line := line, end_line := line } := by
  obtain ⟨h1, h2, h3, h4⟩ := wide_word k idx hk hidx
  have hl : line % 4294967296 = line := Nat.mod_eq_of_lt (by simpa using hline)
  have e : u32le (256 * idx + 128 + k) ++ u32le line
      = u32le (256 * idx + 128 + k) ++ u32le line ++ [] := by simp
  unfold _binary_to_token
  simp only [decode_u32_u32le, h1, h2, h3, h4, ne_eq, not_false_eq_true, ↓reduceIte]
  rw [e, decode_u32_u32le_four, hl]

theorem binary_to_token_narrow_zero (E : Env) (line : Nat) (hline : line < 2 ^ 32)
    (identifiers : List String) (constants : List Variant)
    (h0 : ¬ ((0 = E.ANNOTATION ∨ 0 = E.IDENTIFIER) ∨ (0 = E.ERROR ∨ 0 = E.LITERAL))) :
    ∃ lit, _binary_to_token E (toByte 0 :: u32le line) identifiers constants =
      some { type := 0, literal := lit, start_line := line, end_line := line } := by
  have hl : line % 4294967296 = line := Nat.mod_eq_of_lt (by simpa using hline)
  have e : toByte 0 :: u32le line = toByte 0 :: (u32le line ++ []) := by simp
  have hw : decode_u32 (toByte 0 :: u32le line) 0 = 256 * (line % 16777216) := by
    rw [e, decode_u32_cons_zero]; simp [toByte]
  have hm : (256 * (line % 16777216)) &&& TOKEN_MASK = 0 := by
    rw [land_TOKEN_MASK]; omega
  have hb : (256 * (line % 16777216)) &&& TOKEN_BYTE_MASK = 0 := by
    rw [land_TOKEN_BYTE_MASK]; omega
  have hs : decode_u32 (toByte 0 :: u32le line) 1 = line := by
    rw [e, decode_u32_cons_one, hl]
  push_neg at h0
  unfold _binary_to_token
  simp only [hw, hm, hb, ne_eq, not_true_eq_false, ↓reduceIte, hs]
  simp [h0.1.1, h0.1.2, h0.2.1, h0.2.2]

/-! ## C1: the cell round trip -/

theorem token_to_binary_zero (E : Env) (p_token : Token) (r_buffer : PackedByteArray)
    (ids : HashMap String) (consts : HashMap Variant) :
    _token_to_binary E p_token r_buffer 0 ids consts =
      if (pack_token E p_token ids consts).1 &&& TOKEN_MASK ≠ 0 then
        ⟨8, u32le ((pack_token E p_token ids consts).1 ||| TOKEN_BYTE_MASK)
            ++ u32le p_token.start_line,
          (pack_token E p_token ids consts).2.1, (pack_token E p_token ids consts).2.2⟩
      else
        ⟨5, toByte (pack_token E p_token ids consts).1 :: u32le p_token.start_line,
          (pack_token E p_token ids consts).2.1, (pack_token E p_token ids consts).2.2⟩ := by
  unfold _token_to_binary
  simp only [Nat.zero_add, wide_cell, narrow_cell]

theorem pack_token_identifier (E : Env) (p_token : Token) (ids : HashMap String)
    (consts : HashMap Variant) (h : p_token.type = E.ANNOTATION ∨ p_token.type = E.IDENTIFIER) :
    pack_token E p_token ids consts =
      (256 * (table_pos ids p_token.get_identifier).1 + p_token.type % 128,
        (table_pos ids p_token.get_identifier).2, consts) := by
  unfold pack_token
  simp only [h, ↓reduceIte, land_TOKEN_MASK]
  rw [lor_shiftLeft_TOKEN_BITS _ _ (by omega)]

theorem pack_token_literal (E : Env) (p_token : Token) (ids : HashMap String)
    (consts : HashMap Variant)
    (h1 : ¬ (p_token.type = E.ANNOTATION ∨ p_token.type = E.IDENTIFIER))
    (h : p_token.type = E.ERROR ∨ p_token.type = E.LITERAL) :
    pack_token E p_token ids consts =
      (256 * (table_pos consts p_token.literal).1 + p_token.type % 128, ids,
        (table_pos consts p_token.literal).2) := by
  unfold pack_token
  simp only [h1, h, ↓reduceIte, land_TOKEN_MASK]
  rw [lor_shiftLeft_TOKEN_BITS _ _ (by omega)]

theorem pack_token_other (E : Env) (p_token : Token) (ids : HashMap String)
    (consts : HashMap Variant)
    (h1 : ¬ (p_token.type = E.ANNOTATION ∨ p_token.type = E.IDENTIFIER))
    (h2 : ¬ (p_token.type = E.ERROR ∨ p_token.type = E.LITERAL)) :
    pack_token E p_token ids consts = (p_token.type % 128, ids, consts) := by
  unfold pack_token
  simp only [h1, h2, ↓reduceIte, land_TOKEN_MASK]

theorem pack_token_land (E : Env) (p_token : Token) (ids : HashMap String)
    (consts : HashMap Variant) :
    (pack_token E p_token ids consts).1 &&& TOKEN_MASK = p_token.type % 128 := by
  rw [land_TOKEN_MASK]
  by_cases h1 : p_token.type = E.ANNOTATION ∨ p_token.type = E.IDENTIFIER
  · rw [pack_token_identifier E _ _ _ h1]; simp only; omega
  · by_cases h2 : p_token.type = E.ERROR ∨ p_token.type = E.LITERAL
    · rw [pack_token_literal E _ _ _ h1 h2]; simp only; omega
    · rw [pack_token_other E _ _ _ h1 h2]; simp only; omega

theorem nodup_kinds (E : Env) (hE : E.WellFormed) :
    E.ANNOTATION ≠ E.LITERAL ∧ E.ANNOTATION ≠ E.ERROR ∧ E.IDENTIFIER ≠ E.LITERAL
      ∧ E.IDENTIFIER ≠ E.ERROR := by
  have h := hE.1
  simp only [List.nodup_cons, List.mem_cons, not_or] at h
  tauto

/-- C1. Cell round trip: a token whose kind fits the kind mask, encoded at offset 0 against
contiguous tables with a resulting index below `2 ^ 23`, decodes (with the reverse vectors
of the tables after the call) to a token of the same kind, the same start line as start and
end line, the same name for IDENTIFIER/ANNOTATION and the same literal for LITERAL/ERROR. -/
theorem cell_round_trip (E : Env) (p_token : Token) (r_buffer : PackedByteArray)
    (ids : HashMap String) (consts : HashMap Variant)
    (hE : E.WellFormed)
    (hzero : E.ANNOTATION ≠ 0 ∧ E.IDENTIFIER ≠ 0 ∧ E.LITERAL ≠ 0 ∧ E.ERROR ≠ 0)
    (hkind : p_token.type &&& TOKEN_MASK = p_token.type)
    (hline : p_token.start_line < 2 ^ 32)
    (hids : HashMap.Contiguous ids) (hconsts : HashMap.Contiguous consts)
    (hidx : (p_token.type = E.ANNOTATION ∨ p_token.type = E.IDENTIFIER →
        (table_pos ids p_token.get_identifier).1 < 2 ^ 23) ∧
      (p_token.type = E.ERROR ∨ p_token.type = E.LITERAL →
        (table_pos consts p_token.literal).1 < 2 ^ 23)) :
    ∃ token : Token,
      _binary_to_token E (_token_to_binary E p_token r_buffer 0 ids consts).r_buffer
        (reverse_map "" (_token_to_binary E p_token r_buffer 0 ids consts).r_identifiers_map)
        (reverse_map Variant.NIL
          (_token_to_binary E p_token r_buffer 0 ids consts).r_constants_map) = some token ∧
      token.type = p_token.type ∧ token.start_line = p_token.start_line ∧
      token.end_line = p_token.start_line ∧
      (p_token.type = E.ANNOTATION ∨ p_token.type = E.IDENTIFIER →
        token.get_identifier = p_token.get_identifier) ∧
      (p_token.type = E.ERROR ∨ p_token.type = E.LITERAL →
        token.literal = p_token.literal) := by
  have hk : p_token.type % 128 = p_token.type := by rw [← land_TOKEN_MASK]; exact hkind
  have hk128 : p_token.type < 128 := by omega
  obtain ⟨d1, d2, d3, d4⟩ := nodup_kinds E hE
  rw [token_to_binary_zero]
  by_cases h1 : p_token.type = E.ANNOTATION ∨ p_token.type = E.IDENTIFIER
  · have hne : p_token.type ≠ 0 := by rcases h1 with h | h <;> rw [h] <;> tauto
    have hnl : ¬ (p_token.type = E.ERROR ∨ p_token.type = E.LITERAL) := by
      rcases h1 with h | h <;> rw [h] <;> tauto
    have hp := pack_token_identifier E p_token ids consts h1
    have hland := pack_token_land E p_token ids consts
    rw [hk] at hland hp
    have hget := reverse_map_get "" _ _ _ (table_pos_contiguous ids p_token.get_identifier hids)
      (table_pos_mem ids p_token.get_identifier)
    have hlt : (table_pos ids p_token.get_identifier).1
        < (reverse_map "" (table_pos ids p_token.get_identifier).2).length := by
      by_contra hc
      rw [List.get?_eq_none.2 (not_lt.1 hc)] at hget
      cases hget
    simp only [hland, ne_eq, hne, not_false_eq_true, ↓reduceIte]
    rw [hp]
    simp only
    rw [lor_TOKEN_BYTE_MASK _ _ hk128, binary_to_token_wide E _ _ _ hk128 (hidx.1 h1) hline]
    simp only [h1, ↓reduceIte, ge_iff_le, not_le.2 hlt, hget, Option.map_some']
    exact ⟨_, rfl, rfl, rfl, rfl, fun _ => rfl, fun h => absurd h hnl⟩
  · by_cases h2 : p_token.type = E.ERROR ∨ p_token.type = E.LITERAL
    · have hne : p_token.type ≠ 0 := by rcases h2 with h | h <;> rw [h] <;> tauto
      have hp := pack_token_literal E p_token ids consts h1 h2
      have hland := pack_token_land E p_token ids consts
      rw [hk] at hland hp
      have hget := reverse_map_get Variant.NIL _ _ _
        (table_pos_contiguous consts p_token.literal hconsts)
        (table_pos_mem consts p_token.literal)
      have hlt : (table_pos consts p_token.literal).1
          < (reverse_map Variant.NIL (table_pos consts p_token.literal).2).length := by
        by_contra hc
        rw [List.get?_eq_none.2 (not_lt.1 hc)] at hget
        cases hget
      simp only [hland, ne_eq, hne, not_false_eq_true, ↓reduceIte]
      rw [hp]
      simp only
      rw [lor_TOKEN_BYTE_MASK _ _ hk128, binary_to_token_wide E _ _ _ hk128 (hidx.2 h2) hline]
      simp only [h1, h2, ↓reduceIte, ge_iff_le, not_le.2 hlt, hget, Option.map_some']
      exact ⟨_, rfl, rfl, rfl, rfl, fun h => h.elim, fun _ => rfl⟩
    · have hp := pack_token_other E p_token ids consts h1 h2
      have hland := pack_token_land E p_token ids consts
      rw [hk] at hland hp
      by_cases h0 : p_token.type = 0
      · simp only [hland, h0, ne_eq, not_true_eq_false, ↓reduceIte]
        rw [hp, h0]
        simp only
        have hz : ¬ ((0 = E.ANNOTATION ∨ 0 = E.IDENTIFIER) ∨ (0 = E.ERROR ∨ 0 = E.LITERAL)) := by
          rw [h0] at h1 h2; tauto
        obtain ⟨lit, hlit⟩ := binary_to_token_narrow_zero E p_token.start_line hline
          (reverse_map "" ids) (reverse_map Variant.NIL consts) hz
        rw [hlit]
        exact ⟨_, rfl, rfl, rfl, rfl, fun h => absurd (Or.inl h) hz, fun h => absurd (Or.inr h) hz⟩
      · simp only [hland, ne_eq, h0, not_false_eq_true, ↓reduceIte]
        rw [hp]
        simp only
        have e := lor_TOKEN_BYTE_MASK p_token.type 0 hk128
        simp only [Nat.mul_zero, Nat.zero_add] at e
        rw [e]
        have hw := binary_to_token_wide E p_token.type 0 p_token.start_line hk128 (by norm_num)
          hline (reverse_map "" ids) (reverse_map Variant.NIL consts)
        simp only [Nat.mul_zero, Nat.zero_add] at hw
        rw [hw]
        simp only [h1, h2, ↓reduceIte]
        exact ⟨_, rfl, rfl, rfl, rfl, fun h => h.elim, fun h => h.elim⟩

theorem cell_round_trip_witness :
    ∃ token : Token,
      _binary_to_token sampleEnv
        (_token_to_binary sampleEnv tokX [9, 9] 0 [("y", 0)] []).r_buffer
        (reverse_map "" (_token_to_binary sampleEnv tokX [9, 9] 0 [("y", 0)] []).r_identifiers_map)
        (reverse_map Variant.NIL
          (_token_to_binary sampleEnv tokX [9, 9] 0 [("y", 0)] []).r_constants_map) = some token ∧
      token.type = tokX.type ∧ token.start_line = tokX.start_line ∧
      token.end_line = tokX.start_line ∧
      (tokX.type = sampleEnv.ANNOTATION ∨ tokX.type = sampleEnv.IDENTIFIER →
        token.get_identifier = tokX.get_identifier) ∧
      (tokX.type = sampleEnv.ERROR ∨ tokX.type = sampleEnv.LITERAL →
        token.literal = tokX.literal) :=
  cell_round_trip sampleEnv tokX [9, 9] [("y", 0)] [] (by decide) (by decide) (by decide)
    (by decide) (by decide) (by decide) (by decide)

/-! ## C4: narrow and wide cells -/

theorem take_resize (buf : PackedByteArray) (n m : Nat) (h : n ≤ m) :
    (resize buf m).take n = resize buf n := by
  unfold resize
  rw [List.take_append_eq_append_take, List.take_take, List.take_replicate, List.length_take]
  rcases Nat.lt_or_ge buf.length n with hl | hl
  · have e1 : min n m = n := by omega
    have e2 : min (n - min m buf.length) (m - buf.length) = n - buf.length := by omega
    rw [e1, e2]
  · have e1 : min n m = n := by omega
    have e2 : min (n - min m buf.length) (m - buf.length) = 0 := by omega
    have e3 : n - buf.length = 0 := by omega
    rw [e1, e2, e3]

theorem wide_cell_at (buf : PackedByteArray) (p w l : Nat) :
    encode_u32 (encode_u32 (resize buf (p + 8)) p w) (p + 4) l
      = resize buf p ++ u32le w ++ u32le l := by
  have hr := length_resize buf (p + 8)
  have hp := length_resize buf p
  rw [encode_u32_eq _ p w (by omega), take_resize _ _ _ (by omega)]
  rw [encode_u32_eq _ (p + 4) l (by simp [length_u32le, hr, hp])]
  have h1 : List.drop (p + 4 + 4) (resize buf p ++ u32le w ++ List.drop (p + 4) (resize buf (p + 8)))
      = [] := List.drop_eq_nil_of_le (by simp [length_u32le, hr, hp])
  have h2 : List.take (p + 4) (resize buf p ++ u32le w ++ List.drop (p + 4) (resize buf (p + 8)))
      = resize buf p ++ u32le w := by
    rw [List.take_append_of_le_length (by simp [length_u32le, hp])]
    exact List.take_of_length_le (by simp [length_u32le, hp])
  rw [h1, h2]; simp

theorem narrow_cell_at (buf : PackedByteArray) (p t l : Nat) :
    encode_u32 (setByte (resize buf (p + 5)) p t) (p + 1) l
      = resize buf p ++ [toByte t] ++ u32le l := by
  have hr := length_resize buf (p + 5)
  have hp := length_resize buf p
  have hs : setByte (resize buf (p + 5)) p t
      = resize buf p ++ toByte t :: List.drop (p + 1) (resize buf (p + 5)) := by
    unfold setByte
    rw [List.set_eq_take_append_cons_drop, if_pos (by omega), take_resize _ _ _ (by omega)]
  rw [hs, encode_u32_eq _ (p + 1) l (by simp [hr, hp])]
  have h1 : List.drop (p + 1 + 4) (resize buf p ++ toByte t :: List.drop (p + 1) (resize buf (p + 5)))
      = [] := List.drop_eq_nil_of_le (by simp [hr, hp])
  have h2 : List.take (p + 1) (resize buf p ++ toByte t :: List.drop (p + 1) (resize buf (p + 5)))
      = resize buf p ++ [toByte t] := by
    have e : resize buf p ++ toByte t :: List.drop (p + 1) (resize buf (p + 5))
        = (resize buf p ++ [toByte t]) ++ List.drop (p + 1) (resize buf (p + 5)) := by simp
    rw [e, List.take_append_of_le_length (by simp [hp])]
    exact List.take_of_length_le (by simp [hp])
  rw [h1, h2]; simp

theorem token_to_binary_eq (E : Env) (p_token : Token) (r_buffer : PackedByteArray)
    (p_start : Nat) (ids : HashMap String) (consts : HashMap Variant) :
    _token_to_binary E p_token r_buffer p_start ids consts =
      if (pack_token E p_token ids consts).1 &&& TOKEN_MASK ≠ 0 then
        ⟨8, resize r_buffer p_start
            ++ u32le ((pack_token E p_token ids consts).1 ||| TOKEN_BYTE_MASK)
            ++ u32le p_token.start_line,
          (pack_token E p_token ids consts).2.1, (pack_token E p_token ids consts).2.2⟩
      else
        ⟨5, resize r_buffer p_start ++ [toByte (pack_token E p_token ids consts).1]
            ++ u32le p_token.start_line,
          (pack_token E p_token ids consts).2.1, (pack_token E p_token ids consts).2.2⟩ := by
  unfold _token_to_binary
  simp only [wide_cell_at, narrow_cell_at]

theorem pack_token_form (E : Env) (p_token : Token) (ids : HashMap String)
    (consts : HashMap Variant) :
    ∃ idx, (pack_token E p_token ids consts).1 = 256 * idx + p_token.type % 128 := by
  by_cases h1 : p_token.type = E.ANNOTATION ∨ p_token.type = E.IDENTIFIER
  · exact ⟨_, by rw [pack_token_identifier E _ _ _ h1]⟩
  · by_cases h2 : p_token.type = E.ERROR ∨ p_token.type = E.LITERAL
    · exact ⟨_, by rw [pack_token_literal E _ _ _ h1 h2]⟩
    · exact ⟨0, by rw [pack_token_other E _ _ _ h1 h2]; simp⟩

/-- C4 (as the code has it). `_token_to_binary` writes a wide cell, the packed value with the
wide-cell flag as a 4-byte word, and returns 8 exactly when the kind bits
`type & TOKEN_MASK` of the token are not zero; otherwise it writes the 1-byte cell holding
the kind bits (zero) and returns 5. The start line follows the cell in both cases. -/
theorem narrow_wide_selection (E : Env) (p_token : Token) (r_buffer : PackedByteArray)
    (p_start : Nat) (ids : HashMap String) (consts : HashMap Variant) :
    ((_token_to_binary E p_token r_buffer p_start ids consts).token_len = 8 ↔
      p_token.type &&& TOKEN_MASK ≠ 0) ∧
    ((_token_to_binary E p_token r_buffer p_start ids consts).token_len = 5 ↔
      p_token.type &&& TOKEN_MASK = 0) ∧
    (_token_to_binary E p_token r_buffer p_start ids consts).r_buffer =
      resize r_buffer p_start ++
        (if p_token.type &&& TOKEN_MASK ≠ 0 then
          u32le ((pack_token E p_token ids consts).1 ||| TOKEN_BYTE_MASK)
        else [toByte (p_token.type &&& TOKEN_MASK)]) ++
        u32le p_token.start_line ∧
    ((pack_token E p_token ids consts).1 ||| TOKEN_BYTE_MASK) &&& TOKEN_BYTE_MASK ≠ 0 := by
  obtain ⟨idx, hidx⟩ := pack_token_form E p_token ids consts
  have hland := pack_token_land E p_token ids consts
  have hm := land_TOKEN_MASK p_token.type
  have hflag : ((pack_token E p_token ids consts).1 ||| TOKEN_BYTE_MASK) &&& TOKEN_BYTE_MASK ≠ 0 := by
    rw [hidx, lor_TOKEN_BYTE_MASK _ _ (Nat.mod_lt _ (by decide)), land_TOKEN_BYTE_MASK]
    omega
  rw [token_to_binary_eq, hland, hm]
  by_cases h : p_token.type % 128 = 0
  · have hb : toByte (pack_token E p_token ids consts).1 = toByte (p_token.type % 128) := by
      rw [hidx]; unfold toByte; apply Fin.ext; simp only; omega
    simp only [h, ne_eq, not_true_eq_false, ↓reduceIte]
    rw [hb, h]
    simp [hflag]
  · simp only [ne_eq, h, not_false_eq_true, ↓reduceIte]
    simp [hflag]

/-- C4, counterexample. The operator token of `x = 1` carries no table index (no index bit of
its packed value is set), and `_token_to_binary` still writes a wide cell and returns 8. -/
theorem narrow_wide_counterexample :
    ¬ ((_token_to_binary sampleEnv tokEq [] 0 [] []).token_len = 8 ↔
      (pack_token sampleEnv tokEq [] []).1 >>> TOKEN_BITS ≠ 0) ∧
    (pack_token sampleEnv tokEq [] []).1 >>> TOKEN_BITS = 0 ∧
    (_token_to_binary sampleEnv tokEq [] 0 [] []).token_len = 8 ∧
    (_token_to_binary sampleEnv tokEq [] 0 [] []).r_buffer = [158, 0, 0, 0, 7, 0, 0, 0] := by
  decide

/-! ## C5: out-of-range table indices -/

/-- C5. Out-of-range index safety: on every cell buffer of at least 8 bytes
`_binary_to_token` returns a token without indexing a vector at or past its size. For a
decoded kind IDENTIFIER/ANNOTATION an index at or past the number of identifiers gives the
ERROR token "Identifier index out of bounds.", for LITERAL/ERROR an index at or past the
number of constants gives the ERROR token "Constant index out of bounds.", and an index in
range gives the table entry as literal. -/
theorem index_safety (E : Env) (p_buffer : PackedByteArray) (identifiers : List String)
    (constants : List Variant) (hE : E.WellFormed) (_hlen : 8 ≤ p_buffer.length) :
    ∃ token : Token, _binary_to_token E p_buffer identifiers constants = some token ∧
      ((decode_u32 p_buffer 0 &&& TOKEN_MASK = E.ANNOTATION ∨
          decode_u32 p_buffer 0 &&& TOKEN_MASK = E.IDENTIFIER) →
        (identifiers.length ≤ decode_u32 p_buffer 0 >>> TOKEN_BITS →
          token.type = E.ERROR ∧
          token.literal = Variant.STRING "Identifier index out of bounds.") ∧
        (∀ h : decode_u32 p_buffer 0 >>> TOKEN_BITS < identifiers.length,
          token.literal =
            Variant.STRING_NAME (identifiers.get ⟨decode_u32 p_buffer 0 >>> TOKEN_BITS, h⟩))) ∧
      ((decode_u32 p_buffer 0 &&& TOKEN_MASK = E.ERROR ∨
          decode_u32 p_buffer 0 &&& TOKEN_MASK = E.LITERAL) →
        (constants.length ≤ decode_u32 p_buffer 0 >>> TOKEN_BITS →
          token.type = E.ERROR ∧
          token.literal = Variant.STRING "Constant index out of bounds.") ∧
        (∀ h : decode_u32 p_buffer 0 >>> TOKEN_BITS < constants.length,
          token.literal = constants.get ⟨decode_u32 p_buffer 0 >>> TOKEN_BITS, h⟩)) := by
  obtain ⟨d1, d2, d3, d4⟩ := nodup_kinds E hE
  unfold _binary_to_token
  by_cases h1 : decode_u32 p_buffer 0 &&& TOKEN_MASK = E.ANNOTATION ∨
      decode_u32 p_buffer 0 &&& TOKEN_MASK = E.IDENTIFIER
  · have hnl : ¬ (decode_u32 p_buffer 0 &&& TOKEN_MASK = E.ERROR ∨
        decode_u32 p_buffer 0 &&& TOKEN_MASK = E.LITERAL) := by
      rcases h1 with h | h <;> rw [h] <;> tauto
    by_cases hb : identifiers.length ≤ decode_u32 p_buffer 0 >>> TOKEN_BITS
    · simp only [h1, ↓reduceIte, ge_iff_le, hb]
      exact ⟨_, rfl, fun _ => ⟨fun _ => ⟨rfl, rfl⟩, fun h => absurd hb (not_le.2 h)⟩,
        fun h => absurd h hnl⟩
    · have hlt := not_le.1 hb
      simp only [h1, ↓reduceIte, ge_iff_le, hb, List.get?_eq_get hlt, Option.map_some']
      exact ⟨_, rfl, fun _ => ⟨fun h => h.elim, fun _ => rfl⟩, fun h => absurd h hnl⟩
  · by_cases h2 : decode_u32 p_buffer 0 &&& TOKEN_MASK = E.ERROR ∨
        decode_u32 p_buffer 0 &&& TOKEN_MASK = E.LITERAL
    · by_cases hb : constants.length ≤ decode_u32 p_buffer 0 >>> TOKEN_BITS
      · simp only [h1, h2, ↓reduceIte, ge_iff_le, hb]
        exact ⟨_, rfl, fun h => h.elim,
          fun _ => ⟨fun _ => ⟨rfl, rfl⟩, fun h => absurd hb (not_le.2 h)⟩⟩
      · have hlt := not_le.1 hb
        simp only [h1, h2, ↓reduceIte, ge_iff_le, hb, List.get?_eq_get hlt, Option.map_some']
        exact ⟨_, rfl, fun h => h.elim, fun _ => ⟨fun h => h.elim, fun _ => rfl⟩⟩
    · simp only [h1, h2, ↓reduceIte]
      exact ⟨_, rfl, fun h => h.elim, fun h => h.elim⟩

theorem index_safety_witness :
    ∃ token : Token,
      _binary_to_token sampleEnv [130, 5, 0, 0, 7, 0, 0, 0] ["x", "y"] [] = some token ∧
      ((decode_u32 [130, 5, 0, 0, 7, 0, 0, 0] 0 &&& TOKEN_MASK = sampleEnv.ANNOTATION ∨
          decode_u32 [130, 5, 0, 0, 7, 0, 0, 0] 0 &&& TOKEN_MASK = sampleEnv.IDENTIFIER) →
        (["x", "y"].length ≤ decode_u32 [130, 5, 0, 0, 7, 0, 0, 0] 0 >>> TOKEN_BITS →
          token.type = sampleEnv.ERROR ∧
          token.literal = Variant.STRING "Identifier index out of bounds.") ∧
        (∀ h : decode_u32 [130, 5, 0, 0, 7, 0, 0, 0] 0 >>> TOKEN_BITS < ["x", "y"].length,
          token.literal = Variant.STRING_NAME
            (["x", "y"].get ⟨decode_u32 [130, 5, 0, 0, 7, 0, 0, 0] 0 >>> TOKEN_BITS, h⟩))) ∧
      ((decode_u32 [130, 5, 0, 0, 7, 0, 0, 0] 0 &&& TOKEN_MASK = sampleEnv.ERROR ∨
          decode_u32 [130, 5, 0, 0, 7, 0, 0, 0] 0 &&& TOKEN_MASK = sampleEnv.LITERAL) →
        (([] : List Variant).length ≤ decode_u32 [130, 5, 0, 0, 7, 0, 0, 0] 0 >>> TOKEN_BITS →
          token.type = sampleEnv.ERROR ∧
          token.literal = Variant.STRING "Constant index out of bounds.") ∧
        (∀ h : decode_u32 [130, 5, 0, 0, 7, 0, 0, 0] 0 >>> TOKEN_BITS
            < ([] : List Variant).length,
          token.literal = ([] : List Variant).get
            ⟨decode_u32 [130, 5, 0, 0, 7, 0, 0, 0] 0 >>> TOKEN_BITS, h⟩)) :=
  index_safety sampleEnv [130, 5, 0, 0, 7, 0, 0, 0] ["x", "y"] [] (by decide) (by decide)

/-! ## C3: the dedup tables -/

theorem table_pos_snd {K : Type} [DecidableEq K] (m : HashMap K) (x : K) :
    (table_pos m x).2 = if x ∈ m.map Prod.fst then m else m ++ [(x, m.length)] := by
  unfold table_pos
  by_cases h : HashMap.has m x = true
  · have := (has_eq_true_iff m x).1 h
    simp [h, this]
  · have : x ∉ m.map Prod.fst := fun hc => h ((has_eq_true_iff m x).2 hc)
    simp only [h, Bool.false_eq_true, ↓reduceIte, HashMap.insert, this]

theorem table_pos_extends {K : Type} [DecidableEq K] (m : HashMap K) (x : K) :
    m <+: (table_pos m x).2 := by
  rw [table_pos_snd]
  split
  · exact List.prefix_refl _
  · exact List.prefix_append _ _

theorem table_build_extends {K : Type} [DecidableEq K] (keys : List K) (m : HashMap K) :
    m <+: table_build keys m := by
  induction keys generalizing m with
  | nil => exact List.prefix_refl _
  | cons x keys ih => exact (table_pos_extends m x).trans (ih _)

theorem table_build_append {K : Type} [DecidableEq K] (k1 k2 : List K) (m : HashMap K) :
    table_build (k1 ++ k2) m = table_build k2 (table_build k1 m) := by
  simp [table_build, List.foldl_append]

theorem get_of_mem {K : Type} [DecidableEq K] (m : HashMap K) (x : K) (v : Nat)
    (hnd : (m.map Prod.fst).Nodup) (h : (x, v) ∈ m) : HashMap.get m x = v := by
  have hh : HashMap.has m x = true := (has_eq_true_iff m x).2 (List.mem_map_of_mem Prod.fst h)
  have h2 := get_mem m x hh
  have := List.inj_on_of_nodup_map hnd h2 h rfl
  exact (Prod.mk.inj this).2

theorem get_of_extension {K : Type} [DecidableEq K] (m m2 : HashMap K) (x : K)
    (hp : m <+: m2) (hnd : (m2.map Prod.fst).Nodup) (h : HashMap.has m x = true) :
    HashMap.get m2 x = HashMap.get m x :=
  get_of_mem m2 x _ hnd (hp.subset (get_mem m x h))

/-- The invariant of the table steps, with the three facts that depend on the key sequence. -/
theorem table_build_spec {K : Type} [DecidableEq K] (keys : List K) :
    ((table_build keys []).map Prod.fst).Nodup ∧
    (table_build keys []).map Prod.snd = List.range (table_build keys []).length ∧
    (∀ x, x ∈ (table_build keys []).map Prod.fst ↔ x ∈ keys) ∧
    (table_build keys []).length = keys.toFinset.card ∧
    (∀ x ∈ keys, HashMap.get (table_build keys []) x = first_seen_rank keys x) := by
  induction keys using List.reverseRecOn with
  | nil => simp [table_build]
  | append_singleton ns y ih =>
    obtain ⟨hnd, hval, hkeys, hlen, hrank⟩ := ih
    have hb : table_build (ns ++ [y]) [] = (table_pos (table_build ns []) y).2 := by
      rw [table_build_append]; rfl
    rw [hb, table_pos_snd]
    by_cases hy : y ∈ ns
    · have hy2 : y ∈ (table_build ns []).map Prod.fst := (hkeys y).2 hy
      rw [if_pos hy2]
      refine ⟨hnd, hval, ?_, ?_, ?_⟩
      · intro x
        rw [hkeys x]
        simp only [List.mem_append, List.mem_singleton]
        constructor
        · exact Or.inl
        · rintro (h | h)
          · exact h
          · exact h ▸ hy
      · rw [hlen]
        congr 1
        ext a
        simp only [List.mem_toFinset, List.mem_append, List.mem_singleton]
        constructor
        · exact Or.inl
        · rintro (h | h)
          · exact h
          · exact h ▸ hy
      · intro x hx
        have hx2 : x ∈ ns := by
          rcases List.mem_append.1 hx with h | h
          · exact h
          · simp only [List.mem_singleton] at h; exact h ▸ hy
        rw [hrank x hx2]
        unfold first_seen_rank
        rw [List.indexOf_append_of_mem hx2,
          List.take_append_of_le_length (List.indexOf_le_length)]
    · have hy2 : y ∉ (table_build ns []).map Prod.fst := fun h => hy ((hkeys y).1 h)
      rw [if_neg hy2]
      have hnd2 : ((table_build ns [] ++ [(y, (table_build ns []).length)]).map Prod.fst).Nodup := by
        rw [List.map_append, List.nodup_append]
        refine ⟨hnd, by simp, ?_⟩
        intro a ha hb2
        simp only [List.map_cons, List.map_nil, List.mem_singleton] at hb2
        exact hy2 (hb2 ▸ ha)
      refine ⟨hnd2, ?_, ?_, ?_, ?_⟩
      · rw [List.map_append, hval]
        simp [List.range_succ]
      · intro x
        simp only [List.map_append, List.mem_append, hkeys x, List.map_cons, List.map_nil,
          List.mem_singleton]
      · rw [List.length_append, hlen, List.toFinset_append]
        simp only [List.length_singleton, List.toFinset_cons, List.toFinset_nil,
          insert_emptyc_eq]
        rw [Finset.union_comm, ← Finset.insert_eq, Finset.card_insert_of_not_mem]
        simpa using hy
      · intro x hx
        by_cases hx2 : x ∈ ns
        · have hh : HashMap.has (table_build ns []) x = true :=
            (has_eq_true_iff _ x).2 ((hkeys x).2 hx2)
          rw [get_of_extension _ _ x (List.prefix_append _ _) hnd2 hh, hrank x hx2]
          unfold first_seen_rank
          rw [List.indexOf_append_of_mem hx2,
            List.take_append_of_le_length (List.indexOf_le_length)]
        · have hxy : x = y := by
            rcases List.mem_append.1 hx with h | h
            · exact absurd h hx2
            · simpa using h
          subst hxy
          rw [get_of_mem _ x (table_build ns []).length hnd2 (by simp), hlen]
          unfold first_seen_rank
          rw [List.indexOf_append_of_not_mem hx2]
          simp

theorem first_seen_of_build {K : Type} [DecidableEq K] (keys : List K) :
    FirstSeenTable keys (table_build keys []) := by
  obtain ⟨hnd, hval, hkeys, hlen, hrank⟩ := table_build_spec keys
  refine ⟨hnd, hval, hlen, ?_, ?_, ?_⟩
  · intro x hx
    exact ⟨(has_eq_true_iff _ x).2 ((hkeys x).2 hx), hrank x hx⟩
  · intro e he
    exact (hkeys e.1).1 (List.mem_map_of_mem Prod.fst he)
  · intro x hx y hy
    constructor
    · intro h
      have hx2 := get_mem _ x ((has_eq_true_iff _ x).2 ((hkeys x).2 hx))
      have hy2 := get_mem _ y ((has_eq_true_iff _ y).2 ((hkeys y).2 hy))
      have hnd2 : ((table_build keys []).map Prod.snd).Nodup := by
        rw [hval]; exact List.nodup_range _
      have := List.inj_on_of_nodup_map hnd2 hx2 hy2 h
      exact (Prod.mk.inj this).1
    · intro h; rw [h]

theorem token_to_binary_maps (E : Env) (p_token : Token) (r_buffer : PackedByteArray)
    (p_start : Nat) (ids : HashMap String) (consts : HashMap Variant) :
    (_token_to_binary E p_token r_buffer p_start ids consts).r_identifiers_map
      = (pack_token E p_token ids consts).2.1 ∧
    (_token_to_binary E p_token r_buffer p_start ids consts).r_constants_map
      = (pack_token E p_token ids consts).2.2 := by
  rw [token_to_binary_eq]
  split <;> exact ⟨rfl, rfl⟩

theorem encode_step_identifier_map (E : Env) (st : EncodeState) (t : Token) :
    (encode_step E st t).identifier_map =
      if t.type = E.ANNOTATION ∨ t.type = E.IDENTIFIER then
        (table_pos st.identifier_map t.get_identifier).2
      else st.identifier_map := by
  unfold encode_step
  simp only [(token_to_binary_maps E t _ _ _ _).1]
  by_cases h1 : t.type = E.ANNOTATION ∨ t.type = E.IDENTIFIER
  · rw [pack_token_identifier E _ _ _ h1, if_pos h1]
  · rw [if_neg h1]
    by_cases h2 : t.type = E.ERROR ∨ t.type = E.LITERAL
    · rw [pack_token_literal E _ _ _ h1 h2]
    · rw [pack_token_other E _ _ _ h1 h2]

theorem encode_step_constant_map (E : Env) (hE : E.WellFormed) (st : EncodeState) (t : Token) :
    (encode_step E st t).constant_map =
      if t.type = E.ERROR ∨ t.type = E.LITERAL then
        (table_pos st.constant_map t.literal).2
      else st.constant_map := by
  obtain ⟨d1, d2, d3, d4⟩ := nodup_kinds E hE
  unfold encode_step
  simp only [(token_to_binary_maps E t _ _ _ _).2]
  by_cases h1 : t.type = E.ANNOTATION ∨ t.type = E.IDENTIFIER
  · have h2 : ¬ (t.type = E.ERROR ∨ t.type = E.LITERAL) := by
      rcases h1 with h | h <;> rw [h] <;> tauto
    rw [pack_token_identifier E _ _ _ h1, if_neg h2]
  · by_cases h2 : t.type = E.ERROR ∨ t.type = E.LITERAL
    · rw [pack_token_literal E _ _ _ h1 h2, if_pos h2]
    · rw [pack_token_other E _ _ _ h1 h2, if_neg h2]

theorem foldl_identifier_map (E : Env) (tokens : List Token) (st : EncodeState) :
    (tokens.foldl (encode_step E) st).identifier_map
      = table_build (identifier_names E tokens) st.identifier_map := by
  induction tokens generalizing st with
  | nil => rfl
  | cons t tokens ih =>
    rw [List.foldl_cons, ih, encode_step_identifier_map]
    unfold identifier_names
    by_cases h : t.type = E.ANNOTATION ∨ t.type = E.IDENTIFIER
    · simp [List.filter_cons, h, table_build]
    · simp [List.filter_cons, h, table_build]

theorem foldl_constant_map (E : Env) (hE : E.WellFormed) (tokens : List Token)
    (st : EncodeState) :
    (tokens.foldl (encode_step E) st).constant_map
      = table_build (literal_values E tokens) st.constant_map := by
  induction tokens generalizing st with
  | nil => rfl
  | cons t tokens ih =>
    rw [List.foldl_cons, ih, encode_step_constant_map E hE]
    unfold literal_values
    by_cases h : t.type = E.ERROR ∨ t.type = E.LITERAL
    · simp [List.filter_cons, h, table_build]
    · simp [List.filter_cons, h, table_build]

theorem encode_tokens_identifier_map (E : Env) (tokens : List Token) :
    (encode_tokens E tokens).identifier_map = table_build (identifier_names E tokens) [] :=
  foldl_identifier_map E tokens {}

theorem encode_tokens_constant_map (E : Env) (hE : E.WellFormed) (tokens : List Token) :
    (encode_tokens E tokens).constant_map = table_build (literal_values E tokens) [] :=
  foldl_constant_map E hE tokens {}

theorem identifier_names_append (E : Env) (p q : List Token) :
    identifier_names E (p ++ q) = identifier_names E p ++ identifier_names E q := by
  simp [identifier_names]

theorem literal_values_append (E : Env) (p q : List Token) :
    literal_values E (p ++ q) = literal_values E p ++ literal_values E q := by
  simp [literal_values]

theorem table_pos_fst_eq_get {K : Type} [DecidableEq K] (m m2 : HashMap K) (x : K)
    (hp : (table_pos m x).2 <+: m2) (hnd : (m2.map Prod.fst).Nodup) :
    (table_pos m x).1 = HashMap.get m2 x :=
  (get_of_mem m2 x _ hnd (hp.subset (table_pos_mem m x))).symm

/-- C3. The dedup tables are first-seen-order bijections: after the successive
`_token_to_binary` calls on a token sequence from empty tables, the symbol table maps every
name of an IDENTIFIER/ANNOTATION token to the rank of its first occurrence among the distinct
names (no key twice, indices `0 .. size - 1`, size the number of distinct names, equal index
only for equal names), and the constant table does the same for the literals of
LITERAL/ERROR tokens. The tables after a prefix of the calls are prefixes of the final
tables (no entry is removed or renumbered), and the index a token is given at its call is
its index in the final table. -/
theorem dedup_tables (E : Env) (hE : E.WellFormed) (tokens : List Token) :
    FirstSeenTable (identifier_names E tokens) (encode_tokens E tokens).identifier_map ∧
    FirstSeenTable (literal_values E tokens) (encode_tokens E tokens).constant_map ∧
    (∀ p q, tokens = p ++ q →
      (encode_tokens E p).identifier_map <+: (encode_tokens E tokens).identifier_map ∧
      (encode_tokens E p).constant_map <+: (encode_tokens E tokens).constant_map) ∧
    (∀ p t q, tokens = p ++ t :: q →
      (t.type = E.ANNOTATION ∨ t.type = E.IDENTIFIER →
        (table_pos (encode_tokens E p).identifier_map t.get_identifier).1
          = HashMap.get (encode_tokens E tokens).identifier_map t.get_identifier) ∧
      (t.type = E.ERROR ∨ t.type = E.LITERAL →
        (table_pos (encode_tokens E p).constant_map t.literal).1
          = HashMap.get (encode_tokens E tokens).constant_map t.literal)) := by
  have hi := first_seen_of_build (identifier_names E tokens)
  have hc := first_seen_of_build (literal_values E tokens)
  refine ⟨?_, ?_, ?_, ?_⟩
  · rw [encode_tokens_identifier_map]; exact hi
  · rw [encode_tokens_constant_map E hE]; exact hc
  · intro p q h
    subst h
    simp only [encode_tokens_identifier_map, encode_tokens_constant_map E hE,
      identifier_names_append, literal_values_append, table_build_append]
    exact ⟨table_build_extends _ _, table_build_extends _ _⟩
  · intro p t q h
    subst h
    constructor
    · intro ht
      apply table_pos_fst_eq_get
      · have e : identifier_names E (p ++ t :: q)
            = identifier_names E p ++ ([t.get_identifier] ++ identifier_names E q) := by
          rw [identifier_names_append]
          simp [identifier_names, List.filter_cons, ht]
        rw [encode_tokens_identifier_map, encode_tokens_identifier_map, e, table_build_append,
          table_build_append]
        exact table_build_extends _ _
      · rw [encode_tokens_identifier_map]; exact hi.1
    · intro ht
      apply table_pos_fst_eq_get
      · have e : literal_values E (p ++ t :: q)
            = literal_values E p ++ ([t.literal] ++ literal_values E q) := by
          rw [literal_values_append]
          simp [literal_values, List.filter_cons, ht]
        rw [encode_tokens_constant_map E hE, encode_tokens_constant_map E hE, e,
          table_build_append, table_build_append]
        exact table_build_extends _ _
      · rw [encode_tokens_constant_map E hE]; exact hc.1

theorem dedup_tables_witness :
    sampleEnv.WellFormed ∧
    (encode_tokens sampleEnv [tokX, tokY, tokEq, tokOne, tokX]).identifier_map
      = [("x", 0), ("y", 1)] ∧
    (FirstSeenTable (identifier_names sampleEnv [tokX, tokY, tokEq, tokOne, tokX])
      (encode_tokens sampleEnv [tokX, tokY, tokEq, tokOne, tokX]).identifier_map ∧
    FirstSeenTable (literal_values sampleEnv [tokX, tokY, tokEq, tokOne, tokX])
      (encode_tokens sampleEnv [tokX, tokY, tokEq, tokOne, tokX]).constant_map ∧
    (∀ p q, [tokX, tokY, tokEq, tokOne, tokX] = p ++ q →
      (encode_tokens sampleEnv p).identifier_map
        <+: (encode_tokens sampleEnv [tokX, tokY, tokEq, tokOne, tokX]).identifier_map ∧
      (encode_tokens sampleEnv p).constant_map
        <+: (encode_tokens sampleEnv [tokX, tokY, tokEq, tokOne, tokX]).constant_map) ∧
    (∀ p t q, [tokX, tokY, tokEq, tokOne, tokX] = p ++ t :: q →
      (t.type = sampleEnv.ANNOTATION ∨ t.type = sampleEnv.IDENTIFIER →
        (table_pos (encode_tokens sampleEnv p).identifier_map t.get_identifier).1
          = HashMap.get (encode_tokens sampleEnv [tokX, tokY, tokEq, tokOne, tokX]).identifier_map
              t.get_identifier) ∧
      (t.type = sampleEnv.ERROR ∨ t.type = sampleEnv.LITERAL →
        (table_pos (encode_tokens sampleEnv p).constant_map t.literal).1
          = HashMap.get (encode_tokens sampleEnv [tokX, tokY, tokEq, tokOne, tokX]).constant_map
              t.literal))) :=
  ⟨by decide, by decide, dedup_tables sampleEnv (by decide) [tokX, tokY, tokEq, tokOne, tokX]⟩

/-! ## C6: removal of continuation lines -/

theorem insert_of_not_mem {K : Type} [DecidableEq K] (m : HashMap K) (k : K) (v : Nat)
    (h : k ∉ m.map Prod.fst) : HashMap.insert m k v = m ++ [(k, v)] := by
  unfold HashMap.insert
  have : ¬ HashMap.has m k = true := fun hc => h ((has_eq_true_iff m k).1 hc)
  simp [this]

theorem encode_step_positions (E : Env) (st : EncodeState) (t : Token) :
    (encode_step E st t).token_counter = st.token_counter + 1 ∧
    (encode_step E st t).last_token_line = t.end_line ∧
    (encode_step E st t).token_lines =
      (if st.token_counter > 0 ∧ t.start_line > st.last_token_line then
        HashMap.insert st.token_lines st.token_counter t.start_line else st.token_lines) ∧
    (encode_step E st t).token_columns =
      (if st.token_counter > 0 ∧ t.start_line > st.last_token_line then
        HashMap.insert st.token_columns st.token_counter t.start_column
      else st.token_columns) := by
  unfold encode_step
  by_cases h : st.token_counter > 0 ∧ t.start_line > st.last_token_line
  · simp [h]
  · simp [h]

theorem positionInv_step (E : Env) (st : EncodeState) (b : Nat) (t : Token)
    (hinv : PositionInv st b) (hb : b ≤ t.start_line) (he : t.start_line ≤ t.end_line) :
    PositionInv (encode_step E st t) t.start_line := by
  obtain ⟨h1, h2, h3, h4, h5⟩ := hinv
  obtain ⟨e1, e2, e3, e4⟩ := encode_step_positions E st t
  unfold PositionInv
  rw [e1, e2, e3, e4]
  by_cases hr : st.token_counter > 0 ∧ t.start_line > st.last_token_line
  · have hk : st.token_counter ∉ st.token_lines.map Prod.fst := by
      intro hc
      obtain ⟨e, he1, he2⟩ := List.mem_map.1 hc
      have := (h1 e he1).1
      omega
    have hk2 : st.token_counter ∉ st.token_columns.map Prod.fst := by rw [h5]; exact hk
    rw [if_pos hr, if_pos hr, insert_of_not_mem _ _ _ hk, insert_of_not_mem _ _ _ hk2]
    refine ⟨?_, he, ?_, ?_, ?_⟩
    · intro e he1
      rcases List.mem_append.1 he1 with h | h
      · have := h1 e h
        omega
      · simp only [List.mem_singleton] at h
        subst h
        simp
    · rw [List.map_append, List.pairwise_append]
      refine ⟨h3, by simp, ?_⟩
      intro a ha c hc
      obtain ⟨e, he1, he2⟩ := List.mem_map.1 ha
      simp only [List.map_cons, List.map_nil, List.mem_singleton] at hc
      have := (h1 e he1).2
      omega
    · rw [List.map_append, List.pairwise_append]
      refine ⟨h4, by simp, ?_⟩
      intro a ha c hc
      obtain ⟨e, he1, he2⟩ := List.mem_map.1 ha
      simp only [List.map_cons, List.map_nil, List.mem_singleton] at hc
      have := (h1 e he1).1
      omega
    · simp [h5]
  · rw [if_neg hr, if_neg hr]
    refine ⟨?_, he, h3, h4, h5⟩
    intro e he1
    have := h1 e he1
    omega

theorem positionInv_foldl (E : Env) (tokens : List Token) (st : EncodeState) (b : Nat)
    (hinv : PositionInv st b)
    (hmono : tokens.Pairwise (fun a c => a.start_line ≤ c.start_line))
    (hb : ∀ t ∈ tokens, b ≤ t.start_line)
    (hend : ∀ t ∈ tokens, t.start_line ≤ t.end_line) :
    ∃ b2, PositionInv (tokens.foldl (encode_step E) st) b2 := by
  induction tokens generalizing st b with
  | nil => exact ⟨b, hinv⟩
  | cons t tokens ih =>
    rw [List.foldl_cons]
    rw [List.pairwise_cons] at hmono
    exact ih _ t.start_line
      (positionInv_step E st b t hinv (hb t (List.mem_cons_self _ _))
        (hend t (List.mem_cons_self _ _)))
      hmono.2 (fun t2 h2 => hmono.1 t2 h2)
      (fun t2 h2 => hend t2 (List.mem_cons_of_mem _ h2))

theorem reverse_lines_foldl (l acc : HashMap Nat)
    (hnd : (acc.map Prod.fst ++ l.map Prod.snd).Nodup) :
    l.foldl (fun rev e => HashMap.insert rev e.2 e.1) acc
      = acc ++ l.map (fun e => (e.2, e.1)) := by
  induction l generalizing acc with
  | nil => simp
  | cons e l ih =>
    have hk : e.2 ∉ acc.map Prod.fst := by
      intro hc
      rw [List.nodup_append] at hnd
      exact hnd.2.2 hc (by simp)
    rw [List.foldl_cons, insert_of_not_mem _ _ _ hk, ih]
    · simp
    · have : (acc ++ [(e.2, e.1)]).map Prod.fst ++ l.map Prod.snd
          = acc.map Prod.fst ++ (e :: l).map Prod.snd := by simp
      rw [this]; exact hnd

theorem reverse_lines_eq (l : HashMap Nat) (hnd : (l.map Prod.snd).Nodup) :
    reverse_lines l = l.map (fun e => (e.2, e.1)) := by
  unfold reverse_lines
  rw [reverse_lines_foldl l [] (by simpa using hnd)]
  simp

theorem remove_continuation_lines_eq (rev : HashMap Nat) (cont : List Nat)
    (maps : HashMap Nat × HashMap Nat) :
    remove_continuation_lines rev cont maps =
      (maps.1.filter (fun e => decide (∀ line ∈ cont, HashMap.has rev line = true →
          e.1 ≠ HashMap.get rev line)),
        maps.2.filter (fun e => decide (∀ line ∈ cont, HashMap.has rev line = true →
          e.1 ≠ HashMap.get rev line))) := by
  unfold remove_continuation_lines
  induction cont generalizing maps with
  | nil => simp
  | cons line cont ih =>
    rw [List.foldl_cons, ih]
    by_cases h : HashMap.has rev line = true
    · simp only [h, ↓reduceIte, HashMap.erase, List.filter_filter, List.mem_cons, forall_eq_or_imp,
        true_implies]
      congr 1 <;> (apply List.filter_congr; intro a _; simp only [ne_eq, Bool.decide_and]; exact Bool.and_comm _ _)
    · simp only [h, Bool.false_eq_true, ↓reduceIte, List.mem_cons, forall_eq_or_imp,
        false_implies, true_and]

theorem positionInv_encode_tokens (E : Env) (tokens : List Token)
    (hmono : tokens.Pairwise (fun a c => a.start_line ≤ c.start_line))
    (hend : ∀ t ∈ tokens, t.start_line ≤ t.end_line) :
    ∃ b, PositionInv (encode_tokens E tokens) b := by
  apply positionInv_foldl E tokens {} 0 _ hmono (fun _ _ => Nat.zero_le _) hend
  unfold PositionInv
  exact ⟨(by intro e he; cases he), Nat.le_refl _, List.Pairwise.nil, List.Pairwise.nil, rfl⟩

theorem nodup_of_pairwise_lt (l : List Nat) (h : l.Pairwise (· < ·)) : l.Nodup :=
  h.imp (fun hab => Nat.ne_of_lt hab)

theorem survives_iff (l : HashMap Nat) (cont : List Nat) (e : Nat × Nat)
    (hk : (l.map Prod.fst).Nodup) (hv : (l.map Prod.snd).Nodup) (he : e ∈ l) :
    (∀ line ∈ cont, HashMap.has (reverse_lines l) line = true →
        e.1 ≠ HashMap.get (reverse_lines l) line) ↔ e.2 ∉ cont := by
  have hrev := reverse_lines_eq l hv
  have hrk : ((reverse_lines l).map Prod.fst).Nodup := by
    rw [hrev, List.map_map]; exact hv
  have hmem : ∀ a ∈ l, (a.2, a.1) ∈ reverse_lines l := by
    intro a ha; rw [hrev]; exact List.mem_map.2 ⟨a, ha, rfl⟩
  constructor
  · intro h hc
    have h1 : HashMap.has (reverse_lines l) e.2 = true :=
      (has_eq_true_iff _ _).2 (List.mem_map.2 ⟨_, hmem e he, rfl⟩)
    exact h e.2 hc h1 (get_of_mem _ _ _ hrk (hmem e he)).symm
  · intro h line hl hh heq
    have h2 := get_mem _ line hh
    rw [hrev] at h2 heq
    obtain ⟨a, ha, ha2⟩ := List.mem_map.1 h2
    have h3 : a.1 = e.1 := by rw [heq]; exact (Prod.mk.inj ha2).2
    have h4 : a = e := List.inj_on_of_nodup_map hk ha he h3
    have h5 : a.2 = line := (Prod.mk.inj ha2).1
    exact h (h4 ▸ h5 ▸ hl)

/-- C6. Continuation-line removal: for tokens with non-decreasing start lines and
`end_line ≥ start_line`, and any continuation lines, the serialized position index has no
entry whose line is a continuation line and keeps every recorded entry whose line is not
one; it only holds recorded entries, the column map keeps the same ordinals as the line map,
and two recorded entries with the same line are the same entry (the reverse map is
injective). -/
theorem continuation_removal (E : Env) (tokens : List Token) (continuation_lines : List Nat)
    (hmono : tokens.Pairwise (fun a c => a.start_line ≤ c.start_line))
    (hend : ∀ t ∈ tokens, t.start_line ≤ t.end_line) :
    (∀ e ∈ (position_index E tokens continuation_lines).1, e.2 ∉ continuation_lines) ∧
    (∀ e ∈ (encode_tokens E tokens).token_lines, e.2 ∉ continuation_lines →
      e ∈ (position_index E tokens continuation_lines).1) ∧
    (position_index E tokens continuation_lines).1.Sublist (encode_tokens E tokens).token_lines ∧
    (position_index E tokens continuation_lines).2.map Prod.fst
      = (position_index E tokens continuation_lines).1.map Prod.fst ∧
    (∀ e1 ∈ (encode_tokens E tokens).token_lines, ∀ e2 ∈ (encode_tokens E tokens).token_lines,
      e1.2 = e2.2 → e1 = e2) := by
  obtain ⟨b, -, -, h3, h4, h5⟩ := positionInv_encode_tokens E tokens hmono hend
  have hv := nodup_of_pairwise_lt _ h3
  have hk := nodup_of_pairwise_lt _ h4
  unfold position_index
  simp only [remove_continuation_lines_eq]
  refine ⟨?_, ?_, List.filter_sublist _, ?_, ?_⟩
  · intro e he
    rw [List.mem_filter] at he
    exact (survives_iff _ _ e hk hv he.1).1 (of_decide_eq_true he.2)
  · intro e he hc
    rw [List.mem_filter]
    exact ⟨he, decide_eq_true ((survives_iff _ _ e hk hv he).2 hc)⟩
  · have e1 := @List.filter_map (Nat × Nat) Nat
      (fun k : Nat => decide (∀ line ∈ continuation_lines,
        HashMap.has (reverse_lines (encode_tokens E tokens).token_lines) line = true →
          k ≠ HashMap.get (reverse_lines (encode_tokens E tokens).token_lines) line)) Prod.fst
    have e2 := e1 (encode_tokens E tokens).token_columns
    have e3 := e1 (encode_tokens E tokens).token_lines
    simp only [Function.comp_def] at e2 e3
    rw [← e2, ← e3, h5]
  · intro e1 he1 e2 he2 h
    exact List.inj_on_of_nodup_map hv he1 he2 h

theorem continuation_removal_witness :
    (position_index sampleEnv [tokX, tokEq, tokOne, tokY] [8]).1 = [] ∧
    (position_index sampleEnv [tokX, tokEq, tokOne, tokY] [5]).1 = [(3, 8)] ∧
    ((∀ e ∈ (position_index sampleEnv [tokX, tokEq, tokOne, tokY] [8]).1, e.2 ∉ [8]) ∧
    (∀ e ∈ (encode_tokens sampleEnv [tokX, tokEq, tokOne, tokY]).token_lines, e.2 ∉ [8] →
      e ∈ (position_index sampleEnv [tokX, tokEq, tokOne, tokY] [8]).1) ∧
    (position_index sampleEnv [tokX, tokEq, tokOne, tokY] [8]).1.Sublist
      (encode_tokens sampleEnv [tokX, tokEq, tokOne, tokY]).token_lines ∧
    (position_index sampleEnv [tokX, tokEq, tokOne, tokY] [8]).2.map Prod.fst
      = (position_index sampleEnv [tokX, tokEq, tokOne, tokY] [8]).1.map Prod.fst ∧
    (∀ e1 ∈ (encode_tokens sampleEnv [tokX, tokEq, tokOne, tokY]).token_lines,
      ∀ e2 ∈ (encode_tokens sampleEnv [tokX, tokEq, tokOne, tokY]).token_lines,
      e1.2 = e2.2 → e1 = e2)) :=
  ⟨by decide, by decide,
    continuation_removal sampleEnv [tokX, tokEq, tokOne, tokY] [8] (by decide) (by decide)⟩

/-! ## C9, C10: `BytecodeCompiler::compress` -/

theorem header_words (a b c : Nat) :
    encode_u32 (encode_u32 (encode_u32 (resize [] HEADER_SIZE) 0 a) 4 b) 8 c
      = u32le a ++ u32le b ++ u32le c := by
  have e : resize [] HEADER_SIZE = [0, 0, 0, 0, 0, 0, 0, 0, 0, 0, 0, 0] := by decide
  rw [e]
  simp [encode_u32, u32le]

theorem decode_u32_at (pre rest : PackedByteArray) (x0 x1 x2 x3 : Byte) :
    decode_u32 (pre ++ x0 :: x1 :: x2 :: x3 :: rest) pre.length
      = x0.val + 256 * x1.val + 65536 * x2.val + 16777216 * x3.val := by
  unfold decode_u32 decode_u8
  have h0 : (pre ++ x0 :: x1 :: x2 :: x3 :: rest).get? pre.length = some x0 := by
    rw [List.get?_eq_getElem?, List.getElem?_append_right (by omega)]
    simp
  have h1 : (pre ++ x0 :: x1 :: x2 :: x3 :: rest).get? (pre.length + 1) = some x1 := by
    rw [List.get?_eq_getElem?, List.getElem?_append_right (by omega)]
    simp
  have h2 : (pre ++ x0 :: x1 :: x2 :: x3 :: rest).get? (pre.length + 2) = some x2 := by
    rw [List.get?_eq_getElem?, List.getElem?_append_right (by omega)]
    simp
  have h3 : (pre ++ x0 :: x1 :: x2 :: x3 :: rest).get? (pre.length + 3) = some x3 := by
    rw [List.get?_eq_getElem?, List.getElem?_append_right (by omega)]
    simp
  rw [h0, h1, h2, h3, if_pos (by simp)]
  rfl

theorem split_at_word (b : PackedByteArray) (pos : Nat) (h : pos + 4 ≤ b.length) :
    ∃ x0 x1 x2 x3 rest, b = b.take pos ++ x0 :: x1 :: x2 :: x3 :: rest ∧
      (b.drop pos).take 4 = [x0, x1, x2, x3] ∧ (b.take pos).length = pos := by
  have hl : (b.drop pos).length = b.length - pos := List.length_drop _ _
  have hp : (b.take pos).length = pos := by rw [List.length_take]; omega
  match hd : b.drop pos, hl with
  | [], hl => simp at hl; omega
  | [_], hl => simp at hl; omega
  | [_, _], hl => simp at hl; omega
  | [_, _, _], hl => simp at hl; omega
  | x0 :: x1 :: x2 :: x3 :: rest, _ =>
    refine ⟨x0, x1, x2, x3, rest, ?_, by simp, hp⟩
    rw [← hd, List.take_append_drop]

theorem u32le_decode_u32 (b : PackedByteArray) (pos : Nat) (h : pos + 4 ≤ b.length) :
    u32le (decode_u32 b pos) = (b.drop pos).take 4 := by
  obtain ⟨x0, x1, x2, x3, rest, hb, ht, hp⟩ := split_at_word b pos h
  rw [ht]
  have hd := decode_u32_at (b.take pos) rest x0 x1 x2 x3
  rw [← hb, hp] at hd
  rw [hd]
  have h0 := x0.isLt
  have h1 := x1.isLt
  have h2 := x2.isLt
  have h3 := x3.isLt
  unfold u32le toByte
  simp only [List.cons.injEq, and_true]
  refine ⟨?_, ?_, ?_, ?_⟩ <;> apply Fin.ext <;> simp only <;> omega

theorem magic_iff (b : PackedByteArray) (h : 4 ≤ b.length) :
    (decode_u8 b 0 ≠ 71 ∨ decode_u8 b 1 ≠ 68 ∨ decode_u8 b 2 ≠ 83 ∨ decode_u8 b 3 ≠ 67)
      ↔ b.take 4 ≠ [71, 68, 83, 67] := by
  match b, h with
  | x0 :: x1 :: x2 :: x3 :: rest, _ =>
    have e0 : decode_u8 (x0 :: x1 :: x2 :: x3 :: rest) 0 = x0.val := rfl
    have e1 : decode_u8 (x0 :: x1 :: x2 :: x3 :: rest) 1 = x1.val := rfl
    have e2 : decode_u8 (x0 :: x1 :: x2 :: x3 :: rest) 2 = x2.val := rfl
    have e3 : decode_u8 (x0 :: x1 :: x2 :: x3 :: rest) 3 = x3.val := rfl
    rw [e0, e1, e2, e3]
    simp only [List.take_succ_cons, List.take_zero, ne_eq, List.cons.injEq, and_true,
      Fin.ext_iff]
    have f0 : ((71 : Byte) : Nat) = 71 := rfl
    have f1 : ((68 : Byte) : Nat) = 68 := rfl
    have f2 : ((83 : Byte) : Nat) = 83 := rfl
    have f3 : ((67 : Byte) : Nat) = 67 := rfl
    rw [f0, f1, f2, f3]
    tauto

theorem compress_unchanged (E : Env) (b : PackedByteArray) (hlen : ¬ b.length < HEADER_SIZE)
    (hmagic : ¬ (decode_u8 b 0 ≠ 71 ∨ decode_u8 b 1 ≠ 68 ∨ decode_u8 b 2 ≠ 83
      ∨ decode_u8 b 3 ≠ 67))
    (hver : decode_u32 b 4 = E.TOKENIZER_VERSION) (h8 : decode_u32 b 8 > 0) :
    compress E b = b := by
  unfold compress
  rw [if_neg hlen, if_neg hmagic, if_neg (not_not.2 hver), if_pos h8]

theorem compress_fresh (E : Env) (b : PackedByteArray) (hlen : ¬ b.length < HEADER_SIZE)
    (hmagic : ¬ (decode_u8 b 0 ≠ 71 ∨ decode_u8 b 1 ≠ 68 ∨ decode_u8 b 2 ≠ 83
      ∨ decode_u8 b 3 ≠ 67))
    (hver : decode_u32 b 4 = E.TOKENIZER_VERSION) (h8 : decode_u32 b 8 = 0) :
    compress E b = u32le (decode_u32 b 0) ++ u32le (decode_u32 b 4)
      ++ u32le (b.length - HEADER_SIZE) ++ E.compress_zstd (b.drop HEADER_SIZE) := by
  unfold compress
  rw [if_neg hlen, if_neg hmagic, if_neg (not_not.2 hver), if_neg (by simp [h8])]
  simp only [header_words, List.length_drop]

/-- C9. Recompress header validation: `compress` returns the empty array when the input is
shorter than `HEADER_SIZE`, or its first four bytes are not `G`, `D`, `S`, `C` (71, 68, 83,
67), or the 32-bit value at offset 4 is not `TOKENIZER_VERSION`; when none of these holds
and the 32-bit value at offset 8 is positive it returns the input unchanged. -/
theorem compress_validation (E : Env) (b : PackedByteArray) :
    (b.length < HEADER_SIZE ∨ b.take 4 ≠ [71, 68, 83, 67] ∨
        decode_u32 b 4 ≠ E.TOKENIZER_VERSION → compress E b = []) ∧
    (¬ (b.length < HEADER_SIZE ∨ b.take 4 ≠ [71, 68, 83, 67] ∨
        decode_u32 b 4 ≠ E.TOKENIZER_VERSION) → decode_u32 b 8 > 0 → compress E b = b) := by
  constructor
  · intro h
    unfold compress
    by_cases hl : b.length < HEADER_SIZE
    · rw [if_pos hl]
    · rw [if_neg hl]
      have h4 : 4 ≤ b.length := by unfold HEADER_SIZE at hl; omega
      by_cases hmag : decode_u8 b 0 ≠ 71 ∨ decode_u8 b 1 ≠ 68 ∨ decode_u8 b 2 ≠ 83
          ∨ decode_u8 b 3 ≠ 67
      · rw [if_pos hmag]
      · rw [if_neg hmag]
        have hv : decode_u32 b 4 ≠ E.TOKENIZER_VERSION := by
          rcases h with h | h | h
          · exact absurd h hl
          · exact absurd ((magic_iff b h4).2 h) hmag
          · exact h
        rw [if_pos hv]
  · intro h h8
    simp only [not_or, not_lt, ne_eq, not_not] at h
    have h4 : 4 ≤ b.length := by have := h.1; unfold HEADER_SIZE at this; omega
    have hmag : ¬ (decode_u8 b 0 ≠ 71 ∨ decode_u8 b 1 ≠ 68 ∨ decode_u8 b 2 ≠ 83
        ∨ decode_u8 b 3 ≠ 67) := fun hc => (magic_iff b h4).1 hc h.2.1
    exact compress_unchanged E b (not_lt.2 h.1) hmag h.2.2 h8

theorem compress_validation_witness :
    compress sampleEnv [71, 68, 83] = [] ∧
    compress sampleEnv [71, 68, 83, 68, 100, 0, 0, 0, 0, 0, 0, 0, 1] = [] ∧
    compress sampleEnv [71, 68, 83, 67, 101, 0, 0, 0, 0, 0, 0, 0, 1] = [] ∧
    compress sampleEnv [71, 68, 83, 67, 100, 0, 0, 0, 5, 0, 0, 0, 1]
      = [71, 68, 83, 67, 100, 0, 0, 0, 5, 0, 0, 0, 1] :=
  ⟨(compress_validation sampleEnv [71, 68, 83]).1 (by decide),
    (compress_validation sampleEnv [71, 68, 83, 68, 100, 0, 0, 0, 0, 0, 0, 0, 1]).1 (by decide),
    (compress_validation sampleEnv [71, 68, 83, 67, 101, 0, 0, 0, 0, 0, 0, 0, 1]).1 (by decide),
    (compress_validation sampleEnv [71, 68, 83, 67, 100, 0, 0, 0, 5, 0, 0, 0, 1]).2 (by decide)
      (by decide)⟩

/-- C10. Recompress output: for an input of at least `HEADER_SIZE` bytes with the magic, the
version of this implementation and payload size 0, `compress` returns the four magic bytes
of the input, its four version bytes, the little-endian 32-bit value of the input length
minus `HEADER_SIZE`, and then the compression transform of the bytes after the header. -/
theorem compress_output (E : Env) (b : PackedByteArray) (hlen : HEADER_SIZE ≤ b.length)
    (hmagic : b.take 4 = [71, 68, 83, 67]) (hver : decode_u32 b 4 = E.TOKENIZER_VERSION)
    (hsize : decode_u32 b 8 = 0) :
    compress E b = b.take 4 ++ (b.drop 4).take 4 ++ u32le (b.length - HEADER_SIZE)
      ++ E.compress_zstd (b.drop HEADER_SIZE) := by
  have h12 : 12 ≤ b.length := hlen
  have hm := magic_iff b (by omega)
  have hmag2 : ¬ (decode_u8 b 0 ≠ 71 ∨ decode_u8 b 1 ≠ 68 ∨ decode_u8 b 2 ≠ 83
      ∨ decode_u8 b 3 ≠ 67) := fun hc => hm.1 hc hmagic
  rw [compress_fresh E b (by unfold HEADER_SIZE; omega) hmag2 hver hsize,
    u32le_decode_u32 b 0 (by omega), u32le_decode_u32 b 4 (by omega)]
  simp

theorem compress_output_witness :
    compress sampleEnv [71, 68, 83, 67, 100, 0, 0, 0, 0, 0, 0, 0, 1, 2, 3]
      = [71, 68, 83, 67, 100, 0, 0, 0, 3, 0, 0, 0, 3, 2, 1] ∧
    compress sampleEnv [71, 68, 83, 67, 100, 0, 0, 0, 0, 0, 0, 0, 1, 2, 3]
      = ([71, 68, 83, 67, 100, 0, 0, 0, 0, 0, 0, 0, 1, 2, 3] : PackedByteArray).take 4
        ++ (([71, 68, 83, 67, 100, 0, 0, 0, 0, 0, 0, 0, 1, 2, 3] : PackedByteArray).drop 4).take 4
        ++ u32le (([71, 68, 83, 67, 100, 0, 0, 0, 0, 0, 0, 0, 1, 2, 3] : PackedByteArray).length
          - HEADER_SIZE)
        ++ sampleEnv.compress_zstd
          (([71, 68, 83, 67, 100, 0, 0, 0, 0, 0, 0, 0, 1, 2, 3] : PackedByteArray).drop
            HEADER_SIZE) :=
  ⟨by decide,
    compress_output sampleEnv [71, 68, 83, 67, 100, 0, 0, 0, 0, 0, 0, 0, 1, 2, 3] (by decide)
      (by decide) (by decide) (by decide)⟩

/-! ## C8: compression is idempotent -/

theorem header_eq (E : Env) (n : Nat) :
    encode_u32 (header E) 8 n = [71, 68, 83, 67] ++ u32le E.TOKENIZER_VERSION ++ u32le n := by
  unfold header
  have e : setByte (setByte (setByte (setByte (resize [] 12) 0 71) 1 68) 2 83) 3 67
      = [71, 68, 83, 67, 0, 0, 0, 0, 0, 0, 0, 0] := by decide
  simp only
  rw [e]
  simp [encode_u32, u32le]

theorem decode_u32_u32le_at (pre rest : PackedByteArray) (v : Nat) :
    decode_u32 (pre ++ u32le v ++ rest) pre.length = v % 4294967296 := by
  have h := decode_u32_at pre rest (toByte v) (toByte (v / 256)) (toByte (v / 65536))
    (toByte (v / 16777216))
  have e : pre ++ u32le v ++ rest = pre ++ toByte v :: toByte (v / 256) :: toByte (v / 65536)
      :: toByte (v / 16777216) :: rest := by simp [u32le]
  rw [e, h]
  simp only [toByte]
  omega

theorem scan_body_of_empty_stack (E : Env) (r1 r2 : Scanner → Token × Scanner) (s : Scanner)
    (h : s.indent_stack = []) : scan_body E r1 s = scan_body E r2 s := by
  unfold scan_body
  simp [h]

theorem scan_body_congr (E : Env) (r1 r2 : Scanner → Token × Scanner) (s : Scanner)
    (h : ∀ s2 : Scanner, s2.indent_stack = [] → r1 s2 = r2 s2) :
    scan_body E r1 s = scan_body E r2 s := by
  unfold scan_body
  rw [h _ rfl]

/-- The defining equation of `scan` in the source: the body, with `scan` itself as the
recursive call. -/
theorem scan_eq (E : Env) (s : Scanner) : scan E s = scan_body E (scan E) s := by
  show scan_body E (scan_fuel E 1) s = scan_body E (scan_fuel E 2) s
  apply scan_body_congr
  intro s2 h2
  show scan_body E (scan_fuel E 0) s2 = scan_body E (scan_fuel E 1) s2
  exact scan_body_of_empty_stack E _ _ s2 h2

/-- The recursive call of step 4 returns a DEDENT: it is made with a negative counter and
after the final NEWLINE. -/
theorem scan_unwind (E : Env) (s : Scanner) (h1 : s.tokens.length ≤ s.current)
    (h2 : s.last_token_was_newline = true) (h3 : s.pending_indents = 0)
    (h4 : s.indent_stack ≠ []) :
    scan E s = (line_token E.DEDENT s.current_line,
      { s with pending_indents := -(s.indent_stack.length : Int) + 1, indent_stack := [] }) := by
  have hlen : 0 < s.indent_stack.length := List.length_pos.2 h4
  rw [scan_eq]
  unfold scan_body
  simp only [h1, h2, h3, h4, Bool.true_eq_false, and_false, ↓reduceIte, gt_iff_lt, lt_self_iff_false,
    ne_eq, not_false_eq_true, ↓reduceDIte, zero_sub]
  rw [scan_eq]
  unfold scan_body
  have hneg : -(s.indent_stack.length : Int) < 0 := by omega
  have hnpos : ¬ (0 < -(s.indent_stack.length : Int)) := by omega
  simp only [h1, h2, Bool.true_eq_false, and_false, ↓reduceIte, gt_iff_lt, hnpos, hneg]

/-- The steps of `scan`: every call takes exactly one of them. -/
theorem scan_cases (E : Env) (s : Scanner) :
    (s.tokens.length ≤ s.current ∧ s.last_token_was_newline = false ∧
      scan E s = (line_token E.NEWLINE s.current_line,
        { s with last_token_was_newline := true })) ∨
    (¬ (s.tokens.length ≤ s.current ∧ s.last_token_was_newline = false) ∧
      0 < s.pending_indents ∧
      scan E s = (line_token E.INDENT s.current_line,
        { s with pending_indents := s.pending_indents - 1 })) ∨
    (¬ (s.tokens.length ≤ s.current ∧ s.last_token_was_newline = false) ∧
      s.pending_indents < 0 ∧
      scan E s = (line_token E.DEDENT s.current_line,
        { s with pending_indents := s.pending_indents + 1 })) ∨
    (s.tokens.length ≤ s.current ∧ s.last_token_was_newline = true ∧ s.pending_indents = 0 ∧
      s.indent_stack ≠ [] ∧
      scan E s = (line_token E.DEDENT s.current_line,
        { s with pending_indents := -(s.indent_stack.length : Int) + 1, indent_stack := [] })) ∨
    (s.tokens.length ≤ s.current ∧ s.last_token_was_newline = true ∧ s.pending_indents = 0 ∧
      s.indent_stack = [] ∧ scan E s = ({ type := E.TK_EOF }, s)) ∨
    (s.current < s.tokens.length ∧ s.pending_indents = 0 ∧ s.last_token_was_newline = false ∧
      HashMap.has s.token_lines s.current = true ∧ s.multiline_mode = false ∧
      scan E s = (line_token E.NEWLINE (HashMap.get s.token_lines s.current),
        newline_state s)) ∨
    (∃ h : s.current < s.tokens.length, s.pending_indents = 0 ∧
      s.last_token_was_newline = false ∧ HashMap.has s.token_lines s.current = true ∧
      s.multiline_mode = true ∧ scan E s = scan_raw (lookup_state s) h) ∨
    (∃ h : s.current < s.tokens.length, s.pending_indents = 0 ∧
      ¬ (s.last_token_was_newline = false ∧ HashMap.has s.token_lines s.current = true) ∧
      scan E s = scan_raw s h) := by
  by_cases c1 : s.tokens.length ≤ s.current ∧ s.last_token_was_newline = false
  · left
    refine ⟨c1.1, c1.2, ?_⟩
    rw [scan_eq]; unfold scan_body; rw [if_pos c1]
  · right
    by_cases c2 : 0 < s.pending_indents
    · left
      refine ⟨c1, c2, ?_⟩
      rw [scan_eq]; unfold scan_body; rw [if_neg c1, if_pos c2]
    · right
      by_cases c3 : s.pending_indents < 0
      · left
        refine ⟨c1, c3, ?_⟩
        rw [scan_eq]; unfold scan_body; rw [if_neg c1, if_neg c2, if_pos c3]
      · right
        have hp : s.pending_indents = 0 := by omega
        by_cases c4 : s.tokens.length ≤ s.current
        · have hnl : s.last_token_was_newline = true := by
            cases h : s.last_token_was_newline
            · exact absurd ⟨c4, h⟩ c1
            · rfl
          by_cases c5 : s.indent_stack = []
          · right; left
            refine ⟨c4, hnl, hp, c5, ?_⟩
            rw [scan_eq]; unfold scan_body
            rw [if_neg c1, if_neg c2, if_neg c3, dif_pos c4, if_neg (not_not.2 c5)]
          · left
            exact ⟨c4, hnl, hp, c5, scan_unwind E s c4 hnl hp c5⟩
        · right; right
          have hlt : s.current < s.tokens.length := Nat.lt_of_not_le c4
          by_cases c6 : s.last_token_was_newline = false ∧
              HashMap.has s.token_lines s.current = true
          · by_cases c7 : s.multiline_mode = false
            · left
              refine ⟨hlt, hp, c6.1, c6.2, c7, ?_⟩
              rw [scan_eq]; unfold scan_body
              rw [if_neg c1, if_neg c2, if_neg c3, dif_neg c4, if_pos c6]
              dsimp only
              rw [if_pos c7]
              rfl
            · right; left
              have c7b : s.multiline_mode = true := by
                cases h : s.multiline_mode
                · exact absurd h c7
                · rfl
              refine ⟨hlt, hp, c6.1, c6.2, c7b, ?_⟩
              rw [scan_eq]; unfold scan_body
              rw [if_neg c1, if_neg c2, if_neg c3, dif_neg c4, if_pos c6]
              dsimp only
              rw [if_neg c7]
              rfl
          · right; right
            refine ⟨hlt, hp, c6, ?_⟩
            rw [scan_eq]; unfold scan_body
            rw [if_neg c1, if_neg c2, if_neg c3, dif_neg c4, if_neg c6]

/-! ## C2: the indent balance -/

theorem dedent_loop_spec (target : Nat) (stack : List Nat) (pending : Int) :
    (dedent_loop target (stack.headD 0) pending stack).1
        - (dedent_loop target (stack.headD 0) pending stack).2.length
      = pending - stack.length ∧
    (dedent_loop target (stack.headD 0) pending stack).2.length ≤ stack.length := by
  induction stack generalizing pending with
  | nil => simp [dedent_loop]
  | cons top rest ih =>
    cases rest with
    | nil =>
      simp only [List.headD_cons, dedent_loop]
      split <;> simp
    | cons next rest2 =>
      have h := ih (pending - 1)
      simp only [List.headD_cons] at h
      rw [List.headD_cons]
      by_cases hc : target < top
      · have e : dedent_loop target top pending (top :: next :: rest2)
            = dedent_loop target next (pending - 1) (next :: rest2) := by
          rw [dedent_loop]; simp only [hc, ↓reduceIte]
        rw [e]
        simp only [List.length_cons] at h ⊢
        constructor
        · have := h.1; push_cast at this ⊢; omega
        · have := h.2; omega
      · have e : dedent_loop target top pending (top :: next :: rest2)
            = (pending, top :: next :: rest2) := by
          rw [dedent_loop]; simp only [hc, ↓reduceIte]
        rw [e]
        simp

theorem reindent_spec (column : Nat) (pending : Int) (stack : List Nat) :
    (reindent column pending stack).1 - (reindent column pending stack).2.length
      = pending - stack.length ∧
    ((reindent column pending stack).1 = pending + 1 ∧
        (reindent column pending stack).2.length = stack.length + 1 ∨
      (reindent column pending stack).2.length ≤ stack.length) := by
  unfold reindent
  by_cases hc : column_minus_one column > stack.headD 0
  · rw [if_pos hc]
    simp only [List.length_cons]
    constructor
    · push_cast; omega
    · left; exact ⟨trivial, trivial⟩
  · rw [if_neg hc]
    exact ⟨(dedent_loop_spec _ stack pending).1, Or.inr (dedent_loop_spec _ stack pending).2⟩

theorem run_succ (E : Env) (n : Nat) (s : Scanner) :
    run E (n + 1) s
      = ((run E n s).1 ++ [(scan E (run E n s).2).1], (scan E (run E n s).2).2) := by
  induction n generalizing s with
  | zero => rfl
  | succ n ih =>
    have h : run E (n + 1 + 1) s
        = ((scan E s).1 :: (run E (n + 1) (scan E s).2).1, (run E (n + 1) (scan E s).2).2) := rfl
    rw [h, ih (scan E s).2]
    rfl

theorem structural_kinds_ne (E : Env) (hE : E.WellFormed) :
    E.NEWLINE ≠ E.INDENT ∧ E.NEWLINE ≠ E.DEDENT ∧ E.NEWLINE ≠ E.TK_EOF ∧
      E.INDENT ≠ E.DEDENT ∧ E.INDENT ≠ E.TK_EOF ∧ E.DEDENT ≠ E.TK_EOF := by
  have h := hE.1
  simp only [List.nodup_cons, List.mem_cons, not_or] at h
  tauto

theorem token_delta_of_ne (E : Env) (t : Token) (h1 : t.type ≠ E.INDENT)
    (h2 : t.type ≠ E.DEDENT) : token_delta E t = 0 := by
  unfold token_delta
  rw [if_neg h1, if_neg h2]
  rfl

theorem token_delta_indent (E : Env) (t : Token) (h1 : t.type = E.INDENT)
    (h2 : E.INDENT ≠ E.DEDENT) : token_delta E t = 1 := by
  unfold token_delta
  rw [if_pos h1, if_neg (by rw [h1]; exact h2)]
  rfl

theorem token_delta_dedent (E : Env) (t : Token) (h1 : t.type = E.DEDENT)
    (h2 : E.INDENT ≠ E.DEDENT) : token_delta E t = -1 := by
  unfold token_delta
  rw [if_neg (by rw [h1]; exact Ne.symm h2), if_pos h1]
  rfl

theorem newline_state_fields (s : Scanner) :
    (newline_state s).pending_indents
      = (reindent (HashMap.index s.token_columns s.current).1 s.pending_indents
          s.indent_stack).1 ∧
    (newline_state s).indent_stack
      = (reindent (HashMap.index s.token_columns s.current).1 s.pending_indents
          s.indent_stack).2 ∧
    (newline_state s).tokens = s.tokens ∧ (newline_state s).token_lines = s.token_lines ∧
    (newline_state s).current = s.current ∧
    (newline_state s).last_token_was_newline = true ∧
    (newline_state s).multiline_mode = s.multiline_mode :=
  ⟨rfl, rfl, rfl, rfl, rfl, rfl, rfl⟩

theorem scan_balance_newline (E : Env) (s : Scanner) (h1 : E.NEWLINE ≠ E.INDENT)
    (h2 : E.NEWLINE ≠ E.DEDENT) :
    token_delta E (line_token E.NEWLINE (HashMap.get s.token_lines s.current))
        + (newline_state s).pending_indents - (newline_state s).indent_stack.length
      = s.pending_indents - s.indent_stack.length := by
  have hr := (reindent_spec (HashMap.index s.token_columns s.current).1 s.pending_indents
    s.indent_stack).1
  rw [token_delta_of_ne E (line_token E.NEWLINE _) h1 h2, (newline_state_fields s).1,
    (newline_state_fields s).2.1, Int.zero_add]
  exact hr

/-- One call of `scan` keeps "INDENTs minus DEDENTs returned, plus pending, minus stack
depth", and returns the end-of-stream kind only from step 5. -/
theorem scan_balance (E : Env) (hE : E.WellFormed) (s : Scanner)
    (hraw : ∀ t ∈ s.tokens, t.type ≠ E.INDENT ∧ t.type ≠ E.DEDENT ∧ t.type ≠ E.TK_EOF) :
    token_delta E (scan E s).1 + (scan E s).2.pending_indents
        - (scan E s).2.indent_stack.length
      = s.pending_indents - s.indent_stack.length ∧
    (scan E s).2.tokens = s.tokens ∧
    ((scan E s).1.type = E.TK_EOF →
      (scan E s).2.pending_indents = 0 ∧ (scan E s).2.indent_stack = []) := by
  obtain ⟨k1, k2, k3, k4, k5, k6⟩ := structural_kinds_ne E hE
  rcases scan_cases E s with h | h | h | h | h | h | h | h
  · obtain ⟨-, -, e⟩ := h
    rw [e]
    refine ⟨?_, rfl, fun h => absurd h k3⟩
    rw [token_delta_of_ne E (line_token E.NEWLINE s.current_line) k1 k2]
    dsimp only
    omega
  · obtain ⟨-, -, e⟩ := h
    rw [e]
    refine ⟨?_, rfl, fun h => absurd h k5⟩
    rw [token_delta_indent E (line_token E.INDENT s.current_line) rfl k4]
    dsimp only
    omega
  · obtain ⟨-, -, e⟩ := h
    rw [e]
    refine ⟨?_, rfl, fun h => absurd h k6⟩
    rw [token_delta_dedent E (line_token E.DEDENT s.current_line) rfl k4]
    dsimp only
    omega
  · obtain ⟨-, -, hp, -, e⟩ := h
    rw [e]
    refine ⟨?_, rfl, fun h => absurd h k6⟩
    rw [token_delta_dedent E (line_token E.DEDENT s.current_line) rfl k4]
    dsimp only
    rw [hp, List.length_nil]
    push_cast
    omega
  · obtain ⟨-, -, hp, hs, e⟩ := h
    rw [e]
    refine ⟨?_, rfl, fun _ => ⟨hp, hs⟩⟩
    rw [token_delta_of_ne E _ (Ne.symm k5) (Ne.symm k6)]
    dsimp only
    omega
  · obtain ⟨-, -, -, -, -, e⟩ := h
    rw [e]
    exact ⟨scan_balance_newline E s k1 k2, rfl, fun h => absurd h k3⟩
  · obtain ⟨hlt, hp, -, -, -, e⟩ := h
    rw [e]
    have ht := hraw (s.tokens.get ⟨s.current, hlt⟩) (List.get_mem _ _ _)
    refine ⟨?_, rfl, fun h => absurd h ht.2.2⟩
    rw [token_delta_of_ne E (scan_raw (lookup_state s) hlt).1 ht.1 ht.2.1]
    unfold scan_raw lookup_state
    dsimp only
    omega
  · obtain ⟨hlt, hp, -, e⟩ := h
    rw [e]
    have ht := hraw (s.tokens.get ⟨s.current, hlt⟩) (List.get_mem _ _ _)
    refine ⟨?_, rfl, fun h => absurd h ht.2.2⟩
    rw [token_delta_of_ne E (scan_raw s hlt).1 ht.1 ht.2.1]
    unfold scan_raw
    dsimp only
    omega

theorem count_kind_append (k : Nat) (l1 l2 : List Token) :
    count_kind k (l1 ++ l2) = count_kind k l1 + count_kind k l2 := by
  simp [count_kind, List.countP_append]

theorem count_kind_singleton (E : Env) (t : Token) :
    (count_kind E.INDENT [t] : Int) - count_kind E.DEDENT [t] = token_delta E t := by
  unfold count_kind token_delta
  by_cases h1 : t.type = E.INDENT <;> by_cases h2 : t.type = E.DEDENT <;>
    simp [List.countP_cons, h1, h2]

/-- Along a run, INDENTs minus DEDENTs returned equals stack depth minus pending counter,
up to their difference in the starting state. -/
theorem run_balance (E : Env) (hE : E.WellFormed) (n : Nat) (s : Scanner)
    (hraw : ∀ t ∈ s.tokens, t.type ≠ E.INDENT ∧ t.type ≠ E.DEDENT ∧ t.type ≠ E.TK_EOF) :
    (count_kind E.INDENT (run E n s).1 : Int) - count_kind E.DEDENT (run E n s).1
        + (run E n s).2.pending_indents - (run E n s).2.indent_stack.length
      = s.pending_indents - s.indent_stack.length ∧
    (run E n s).2.tokens = s.tokens := by
  induction n with
  | zero => simp [run, count_kind]
  | succ n ih =>
    obtain ⟨h1, h2⟩ := ih
    obtain ⟨h3, h4, -⟩ := scan_balance E hE (run E n s).2 (by rw [h2]; exact hraw)
    rw [run_succ]
    simp only [count_kind_append]
    have h5 := count_kind_singleton E (scan E (run E n s).2).1
    refine ⟨?_, by rw [h4, h2]⟩
    push_cast
    omega

theorem natAbs_reindent (column : Nat) (stack : List Nat) :
    (reindent column 0 stack).1.natAbs + (reindent column 0 stack).2.length
      ≤ stack.length + 2 := by
  obtain ⟨h1, h2⟩ := reindent_spec column 0 stack
  rcases h2 with ⟨h3, h4⟩ | h3
  · rw [h3, h4]; simp; omega
  · omega

theorem work_left_eq (s : Scanner) :
    work_left s = 4 * (s.tokens.length - s.current) + s.pending_indents.natAbs
      + s.indent_stack.length + (if s.last_token_was_newline then 0 else 3) := rfl

/-- Every call of `scan` either is step 5, which returns the end-of-stream token and leaves
the state as it is, or leaves less work. -/
theorem scan_progress (E : Env) (s : Scanner) :
    (scan E s = ({ type := E.TK_EOF }, s) ∧ s.tokens.length ≤ s.current ∧
        s.pending_indents = 0 ∧ s.indent_stack = []) ∨
      work_left (scan E s).2 < work_left s := by
  rcases scan_cases E s with h | h | h | h | h | h | h | h
  · obtain ⟨-, h2, e⟩ := h
    right; rw [e, work_left_eq, work_left_eq]
    dsimp only
    rw [h2]
    simp
  · obtain ⟨-, h2, e⟩ := h
    right; rw [e, work_left_eq, work_left_eq]
    dsimp only
    omega
  · obtain ⟨-, h2, e⟩ := h
    right; rw [e, work_left_eq, work_left_eq]
    dsimp only
    omega
  · obtain ⟨-, -, hp, hs, e⟩ := h
    right; rw [e, work_left_eq, work_left_eq]
    have hlen : 0 < s.indent_stack.length := List.length_pos.2 hs
    dsimp only
    rw [hp, List.length_nil]
    omega
  · obtain ⟨h1, -, hp, hs, e⟩ := h
    left; exact ⟨e, h1, hp, hs⟩
  · obtain ⟨-, hp, hnl, -, -, e⟩ := h
    right; rw [e, work_left_eq, work_left_eq]
    have hr := natAbs_reindent (HashMap.index s.token_columns s.current).1 s.indent_stack
    obtain ⟨f1, f2, f3, -, f5, f6, -⟩ := newline_state_fields s
    dsimp only
    rw [f1, f2, f3, f5, f6, hp, hnl]
    simp only [Bool.false_eq_true, ↓reduceIte, Int.natAbs_zero]
    omega
  · obtain ⟨hlt, hp, hnl, -, -, e⟩ := h
    right; rw [e, work_left_eq, work_left_eq]
    unfold scan_raw lookup_state
    dsimp only
    rw [hnl]
    simp only [Bool.false_eq_true, ↓reduceIte]
    omega
  · obtain ⟨hlt, hp, -, e⟩ := h
    right; rw [e, work_left_eq, work_left_eq]
    unfold scan_raw
    dsimp only
    simp only [Bool.false_eq_true, ↓reduceIte]
    split <;> omega

theorem run_reaches_eof_aux (E : Env) (hE : E.WellFormed) (w : Nat) :
    ∀ s : Scanner, work_left s ≤ w →
      (∀ t ∈ s.tokens, t.type ≠ E.INDENT ∧ t.type ≠ E.DEDENT ∧ t.type ≠ E.TK_EOF) →
      ∃ n, n ≤ w ∧ (∀ m < n, (scan E (run E m s).2).1.type ≠ E.TK_EOF) ∧
        (scan E (run E n s).2).1.type = E.TK_EOF := by
  induction w with
  | zero =>
    intro s hw hraw
    rcases scan_progress E s with h | h
    · exact ⟨0, Nat.le_refl _, fun m hm => absurd hm (Nat.not_lt_zero _), by
        show (scan E s).1.type = E.TK_EOF
        rw [h.1]⟩
    · omega
  | succ w ih =>
    intro s hw hraw
    by_cases heof : (scan E s).1.type = E.TK_EOF
    · exact ⟨0, Nat.zero_le _, fun m hm => absurd hm (Nat.not_lt_zero _), heof⟩
    · rcases scan_progress E s with h | h
      · exact absurd (by rw [h.1]) heof
      · have ht := (scan_balance E hE s hraw).2.1
        obtain ⟨n, hn1, hn2, hn3⟩ := ih (scan E s).2 (by omega) (by rw [ht]; exact hraw)
        refine ⟨n + 1, by omega, ?_, hn3⟩
        intro m hm
        cases m with
        | zero => exact heof
        | succ m => exact hn2 m (by omega)

/-- From every state the scanner reaches step 5: some call returns the end-of-stream token,
and no earlier call does when no raw token has that kind. -/
theorem run_reaches_eof (E : Env) (hE : E.WellFormed) (s : Scanner)
    (hraw : ∀ t ∈ s.tokens, t.type ≠ E.INDENT ∧ t.type ≠ E.DEDENT ∧ t.type ≠ E.TK_EOF) :
    ∃ n, n ≤ work_left s ∧ (∀ m < n, (scan E (run E m s).2).1.type ≠ E.TK_EOF) ∧
      (scan E (run E n s).2).1.type = E.TK_EOF :=
  run_reaches_eof_aux E hE (work_left s) s (Nat.le_refl _) hraw

/-- C2 (as the code has it). Indent balance: for a raw token stream without tokens of kind
INDENT, DEDENT or end-of-stream and any position index, the calls of `scan` from the initial
state in structural mode reach a first call that returns end-of-stream; after that call the
indent stack is empty, `pending_indents` is 0, and as many INDENT as DEDENT tokens have been
returned. -/
theorem indent_balance (E : Env) (hE : E.WellFormed) (tokens : List Token)
    (token_lines token_columns : HashMap Nat) (current_line : Nat)
    (hraw : ∀ t ∈ tokens, t.type ≠ E.INDENT ∧ t.type ≠ E.DEDENT ∧ t.type ≠ E.TK_EOF) :
    ∃ n,
      (∀ m < n, (scan E (run E m
        (Scanner.initial tokens token_lines token_columns false current_line)).2).1.type
          ≠ E.TK_EOF) ∧
      (scan E (run E n
        (Scanner.initial tokens token_lines token_columns false current_line)).2).1.type
          = E.TK_EOF ∧
      (run E (n + 1)
        (Scanner.initial tokens token_lines token_columns false current_line)).2.indent_stack
          = [] ∧
      (run E (n + 1)
        (Scanner.initial tokens token_lines token_columns false current_line)).2.pending_indents
          = 0 ∧
      count_kind E.INDENT (run E (n + 1)
        (Scanner.initial tokens token_lines token_columns false current_line)).1
        = count_kind E.DEDENT (run E (n + 1)
          (Scanner.initial tokens token_lines token_columns false current_line)).1 := by
  obtain ⟨s0, hs0⟩ : ∃ s0, s0 = Scanner.initial tokens token_lines token_columns false
      current_line := ⟨_, rfl⟩
  have hraw0 : ∀ t ∈ s0.tokens, t.type ≠ E.INDENT ∧ t.type ≠ E.DEDENT ∧ t.type ≠ E.TK_EOF := by
    rw [hs0]; exact hraw
  have hp0 : s0.pending_indents = 0 := by rw [hs0]; rfl
  have hi0 : s0.indent_stack = [] := by rw [hs0]; rfl
  rw [← hs0]
  obtain ⟨n, -, hn1, hn2⟩ := run_reaches_eof E hE s0 hraw0
  obtain ⟨hb, ht⟩ := run_balance E hE (n + 1) s0 hraw0
  obtain ⟨-, hrt⟩ := run_balance E hE n s0 hraw0
  obtain ⟨-, -, he⟩ := scan_balance E hE (run E n s0).2 (by rw [hrt]; exact hraw0)
  obtain ⟨hp, hs⟩ := he hn2
  have hst : (run E (n + 1) s0).2 = (scan E (run E n s0).2).2 := by rw [run_succ]
  refine ⟨n, hn1, hn2, by rw [hst]; exact hs, by rw [hst]; exact hp, ?_⟩
  rw [hst, hp, hs, hp0, hi0] at hb
  simp only [List.length_nil] at hb
  omega

theorem indent_balance_witness :
    (run sampleEnv 7 (Scanner.initial [tokX, tokY] [(1, 8)] [(1, 5)] false 1)).1.map Token.type
      = [2, 80, 81, 2, 80, 82, 91] ∧
    ∃ n,
      (∀ m < n, (scan sampleEnv (run sampleEnv m
        (Scanner.initial [tokX, tokY] [(1, 8)] [(1, 5)] false 1)).2).1.type
          ≠ sampleEnv.TK_EOF) ∧
      (scan sampleEnv (run sampleEnv n
        (Scanner.initial [tokX, tokY] [(1, 8)] [(1, 5)] false 1)).2).1.type
          = sampleEnv.TK_EOF ∧
      (run sampleEnv (n + 1)
        (Scanner.initial [tokX, tokY] [(1, 8)] [(1, 5)] false 1)).2.indent_stack = [] ∧
      (run sampleEnv (n + 1)
        (Scanner.initial [tokX, tokY] [(1, 8)] [(1, 5)] false 1)).2.pending_indents = 0 ∧
      count_kind sampleEnv.INDENT (run sampleEnv (n + 1)
        (Scanner.initial [tokX, tokY] [(1, 8)] [(1, 5)] false 1)).1
        = count_kind sampleEnv.DEDENT (run sampleEnv (n + 1)
          (Scanner.initial [tokX, tokY] [(1, 8)] [(1, 5)] false 1)).1 :=
  ⟨by decide,
    indent_balance sampleEnv (by decide) [tokX, tokY] [(1, 8)] [(1, 5)] 1 (by decide)⟩

/-- C2, counterexample. With a raw token of kind INDENT and an empty position index the
third call is the first to return end-of-stream, after one INDENT and no DEDENT; with a raw
token of kind end-of-stream behind an indented line, the first call that returns
end-of-stream (the fourth) leaves a non-empty indent stack. -/
theorem indent_balance_counterexample :
    ((run sampleEnv 3 (Scanner.initial [tokRawIndent] [] [] false 1)).1.map Token.type
        = [81, 80, 91] ∧
      count_kind sampleEnv.INDENT
          (run sampleEnv 3 (Scanner.initial [tokRawIndent] [] [] false 1)).1 = 1 ∧
      count_kind sampleEnv.DEDENT
          (run sampleEnv 3 (Scanner.initial [tokRawIndent] [] [] false 1)).1 = 0) ∧
    ((run sampleEnv 4 (Scanner.initial [tokX, tokRawEof] [(1, 8)] [(1, 5)] false 1)).1.map
        Token.type = [2, 80, 81, 91] ∧
      (run sampleEnv 4
        (Scanner.initial [tokX, tokRawEof] [(1, 8)] [(1, 5)] false 1)).2.indent_stack = [4]) := by
  decide

/-! ## C7: structural tokens come only at indexed ordinals -/

/-- What `scan` never changes, and the reason a pending counter is not zero: the cursor is
at the end of the stream or on an indexed ordinal. -/
theorem scan_invariant (E : Env) (s : Scanner)
    (h : s.pending_indents ≠ 0 →
      s.tokens.length ≤ s.current ∨ HashMap.has s.token_lines s.current = true) :
    (scan E s).2.tokens = s.tokens ∧ (scan E s).2.token_lines = s.token_lines ∧
    (scan E s).2.multiline_mode = s.multiline_mode ∧
    ((scan E s).2.pending_indents ≠ 0 →
      (scan E s).2.tokens.length ≤ (scan E s).2.current ∨
        HashMap.has (scan E s).2.token_lines (scan E s).2.current = true) := by
  rcases scan_cases E s with c | c | c | c | c | c | c | c
  · obtain ⟨-, -, e⟩ := c
    rw [e]; exact ⟨rfl, rfl, rfl, h⟩
  · obtain ⟨-, hp, e⟩ := c
    rw [e]; exact ⟨rfl, rfl, rfl, fun _ => h (by omega)⟩
  · obtain ⟨-, hp, e⟩ := c
    rw [e]; exact ⟨rfl, rfl, rfl, fun _ => h (by omega)⟩
  · obtain ⟨h1, -, -, -, e⟩ := c
    rw [e]; exact ⟨rfl, rfl, rfl, fun _ => Or.inl h1⟩
  · obtain ⟨-, -, -, -, e⟩ := c
    rw [e]; exact ⟨rfl, rfl, rfl, h⟩
  · obtain ⟨-, -, -, hh, -, e⟩ := c
    rw [e]; exact ⟨rfl, rfl, rfl, fun _ => Or.inr hh⟩
  · obtain ⟨hlt, hp, -, -, -, e⟩ := c
    rw [e]; exact ⟨rfl, rfl, rfl, fun hc => absurd hp hc⟩
  · obtain ⟨hlt, hp, -, e⟩ := c
    rw [e]; exact ⟨rfl, rfl, rfl, fun hc => absurd hp hc⟩

theorem run_invariant (E : Env) (n : Nat) (s : Scanner) (h0 : s.pending_indents = 0) :
    (run E n s).2.tokens = s.tokens ∧ (run E n s).2.token_lines = s.token_lines ∧
    (run E n s).2.multiline_mode = s.multiline_mode ∧
    ((run E n s).2.pending_indents ≠ 0 →
      (run E n s).2.tokens.length ≤ (run E n s).2.current ∨
        HashMap.has (run E n s).2.token_lines (run E n s).2.current = true) := by
  induction n with
  | zero => exact ⟨rfl, rfl, rfl, fun hc => absurd h0 hc⟩
  | succ n ih =>
    obtain ⟨h1, h2, h3, h4⟩ := ih
    obtain ⟨g1, g2, g3, g4⟩ := scan_invariant E (run E n s).2 h4
    rw [run_succ]
    exact ⟨g1.trans h1, g2.trans h2, g3.trans h3, g4⟩

/-- Step 7 alone: with the cursor inside the stream, no pending counter and no position
entry for the cursor, `scan` returns the raw token at the cursor and advances by one. -/
theorem scan_unindexed (E : Env) (s : Scanner) (h : s.current < s.tokens.length)
    (hp : s.pending_indents = 0) (hl : HashMap.has s.token_lines s.current = false) :
    scan E s = (s.tokens.get ⟨s.current, h⟩,
      { s with last_token_was_newline := false, current := s.current + 1 }) := by
  rw [scan_eq]
  unfold scan_body
  have c1 : ¬ (s.tokens.length ≤ s.current ∧ s.last_token_was_newline = false) :=
    fun hc => absurd hc.1 (by omega)
  have c6 : ¬ (s.last_token_was_newline = false ∧ HashMap.has s.token_lines s.current = true) :=
    fun hc => by rw [hl] at hc; exact absurd hc.2 (by decide)
  rw [if_neg c1, if_neg (by omega), if_neg (by omega), dif_neg (by omega), if_neg c6]
  rfl

/-- C7 (as the code has it). For a raw stream without tokens of kind NEWLINE, INDENT or
DEDENT, in every run from the initial state: when a call advances the cursor from an
ordinal without position entry (it returns the raw token there), the call before it did not
return a NEWLINE, INDENT or DEDENT. And from any state, a call with the cursor inside the
stream, `pending_indents = 0` and no position entry for the cursor returns the raw token at
the cursor and advances the cursor by exactly one. -/
theorem structural_only_at_indexed (E : Env) (hE : E.WellFormed) (tokens : List Token)
    (token_lines token_columns : HashMap Nat) (multiline_mode : Bool) (current_line : Nat)
    (hraw : ∀ t ∈ tokens, t.type ≠ E.NEWLINE ∧ t.type ≠ E.INDENT ∧ t.type ≠ E.DEDENT) :
    (∀ n,
      (scan E (run E (n + 1) (Scanner.initial tokens token_lines token_columns multiline_mode
          current_line)).2).2.current
        = (run E (n + 1) (Scanner.initial tokens token_lines token_columns multiline_mode
          current_line)).2.current + 1 →
      HashMap.has token_lines (run E (n + 1) (Scanner.initial tokens token_lines token_columns
        multiline_mode current_line)).2.current = false →
      (scan E (run E n (Scanner.initial tokens token_lines token_columns multiline_mode
          current_line)).2).1.type ≠ E.NEWLINE ∧
      (scan E (run E n (Scanner.initial tokens token_lines token_columns multiline_mode
          current_line)).2).1.type ≠ E.INDENT ∧
      (scan E (run E n (Scanner.initial tokens token_lines token_columns multiline_mode
          current_line)).2).1.type ≠ E.DEDENT) ∧
    (∀ (s : Scanner) (h : s.current < s.tokens.length), s.pending_indents = 0 →
      HashMap.has s.token_lines s.current = false →
      scan E s = (s.tokens.get ⟨s.current, h⟩,
        { s with last_token_was_newline := false, current := s.current + 1 })) := by
  refine ⟨?_, fun s h hp hl => scan_unindexed E s h hp hl⟩
  intro n hadv hno
  obtain ⟨-, -, n3, -, i2, d1⟩ := structural_kinds_ne E hE
  obtain ⟨h1, h2, h3, h4⟩ := run_invariant E n
    (Scanner.initial tokens token_lines token_columns multiline_mode current_line) rfl
  rw [run_succ] at hadv hno
  simp only at hadv hno
  generalize (run E n (Scanner.initial tokens token_lines token_columns multiline_mode
    current_line)).2 = s at h1 h2 h3 h4 hadv hno ⊢
  simp only [Scanner.initial] at h1 h2
  -- the call that advances is inside the stream
  have hin : (scan E s).2.current < (scan E s).2.tokens.length := by
    rcases scan_cases E (scan E s).2 with c | c | c | c | c | c | c | c
    · obtain ⟨-, -, e⟩ := c; rw [e] at hadv; simp at hadv
    · obtain ⟨-, -, e⟩ := c; rw [e] at hadv; simp at hadv
    · obtain ⟨-, -, e⟩ := c; rw [e] at hadv; simp at hadv
    · obtain ⟨-, -, -, -, e⟩ := c; rw [e] at hadv; simp at hadv
    · obtain ⟨-, -, -, -, e⟩ := c; rw [e] at hadv; simp at hadv
    · obtain ⟨hlt, -⟩ := c; exact hlt
    · obtain ⟨hlt, -⟩ := c; exact hlt
    · obtain ⟨hlt, -⟩ := c; exact hlt
  rcases scan_cases E s with c | c | c | c | c | c | c | c
  · obtain ⟨hge, -, e⟩ := c
    rw [e] at hin; simp only at hin; omega
  · obtain ⟨-, hp, e⟩ := c
    rw [e] at hin hno; simp only at hin hno
    rcases h4 (by omega) with h | h
    · omega
    · rw [h2, hno] at h; exact absurd h (by decide)
  · obtain ⟨-, hp, e⟩ := c
    rw [e] at hin hno; simp only at hin hno
    rcases h4 (by omega) with h | h
    · omega
    · rw [h2, hno] at h; exact absurd h (by decide)
  · obtain ⟨hge, -, -, -, e⟩ := c
    rw [e] at hin; simp only at hin; omega
  · obtain ⟨-, -, -, -, e⟩ := c
    rw [e]
    exact ⟨Ne.symm n3, Ne.symm i2, Ne.symm d1⟩
  · obtain ⟨-, -, -, hh, -, e⟩ := c
    rw [e] at hno
    simp only [newline_state, lookup_state] at hno
    rw [h2, hno] at hh; exact absurd hh (by decide)
  · obtain ⟨hlt, -, -, -, -, e⟩ := c
    rw [e]
    have ht := hraw (s.tokens.get ⟨s.current, hlt⟩) (by rw [← h1]; exact List.get_mem _ _ _)
    exact ht
  · obtain ⟨hlt, -, -, e⟩ := c
    rw [e]
    have ht := hraw (s.tokens.get ⟨s.current, hlt⟩) (by rw [← h1]; exact List.get_mem _ _ _)
    exact ht

theorem structural_only_at_indexed_witness :
    (run sampleEnv 3 (Scanner.initial [tokX, tokEq, tokOne] [(1, 7)] [(1, 1)] false 1)).1
      = [tokX, line_token 80 7, tokEq] ∧
    ((∀ n,
      (scan sampleEnv (run sampleEnv (n + 1)
          (Scanner.initial [tokX, tokEq, tokOne] [(1, 7)] [(1, 1)] false 1)).2).2.current
        = (run sampleEnv (n + 1)
          (Scanner.initial [tokX, tokEq, tokOne] [(1, 7)] [(1, 1)] false 1)).2.current + 1 →
      HashMap.has [(1, 7)] (run sampleEnv (n + 1)
        (Scanner.initial [tokX, tokEq, tokOne] [(1, 7)] [(1, 1)] false 1)).2.current = false →
      (scan sampleEnv (run sampleEnv n
          (Scanner.initial [tokX, tokEq, tokOne] [(1, 7)] [(1, 1)] false 1)).2).1.type
            ≠ sampleEnv.NEWLINE ∧
      (scan sampleEnv (run sampleEnv n
          (Scanner.initial [tokX, tokEq, tokOne] [(1, 7)] [(1, 1)] false 1)).2).1.type
            ≠ sampleEnv.INDENT ∧
      (scan sampleEnv (run sampleEnv n
          (Scanner.initial [tokX, tokEq, tokOne] [(1, 7)] [(1, 1)] false 1)).2).1.type
            ≠ sampleEnv.DEDENT) ∧
    (∀ (s : Scanner) (h : s.current < s.tokens.length), s.pending_indents = 0 →
      HashMap.has s.token_lines s.current = false →
      scan sampleEnv s = (s.tokens.get ⟨s.current, h⟩,
        { s with last_token_was_newline := false, current := s.current + 1 }))) :=
  ⟨by decide,
    structural_only_at_indexed sampleEnv (by decide) [tokX, tokEq, tokOne] [(1, 7)] [(1, 1)]
      false 1 (by decide)⟩

/-- C7, counterexample. With a raw token of kind NEWLINE at ordinal 0 and an empty position
index, the second call returns the raw token at ordinal 1, which has no position entry, and
the call before it returned a NEWLINE. -/
theorem structural_only_at_indexed_counterexample :
    (scan sampleEnv (run sampleEnv 1
        (Scanner.initial [tokRawNewline, tokX] [] [] false 1)).2).1 = tokX ∧
    (run sampleEnv 1 (Scanner.initial [tokRawNewline, tokX] [] [] false 1)).2.current = 1 ∧
    (scan sampleEnv (run sampleEnv 1
        (Scanner.initial [tokRawNewline, tokX] [] [] false 1)).2).2.current = 2 ∧
    HashMap.has ([] : HashMap Nat) 1 = false ∧
    (scan sampleEnv (run sampleEnv 0
        (Scanner.initial [tokRawNewline, tokX] [] [] false 1)).2).1.type = sampleEnv.NEWLINE := by
  decide

/-! ## C11: the container envelope -/

theorem parse_code_string_of_payload (E : Env) (p_code : String) (contents : PackedByteArray)
    (h : payload E (scanned_tokens E p_code) (E.get_continuation_lines p_code) = some contents) :
    parse_code_string E p_code CompressMode.COMPRESS_NONE
      = [71, 68, 83, 67] ++ u32le E.TOKENIZER_VERSION ++ u32le 0 ++ contents ∧
    parse_code_string E p_code CompressMode.COMPRESS_ZSTD
      = [71, 68, 83, 67] ++ u32le E.TOKENIZER_VERSION ++ u32le contents.length
        ++ E.compress_zstd contents := by
  unfold parse_code_string
  rw [h]
  simp only [header_eq]
  exact ⟨trivial, trivial⟩

theorem envelope_fields (E : Env) (hE : E.WellFormed) (n : Nat) (body : PackedByteArray) :
    ([71, 68, 83, 67] ++ u32le E.TOKENIZER_VERSION ++ u32le n ++ body).take 4
      = [71, 68, 83, 67] ∧
    decode_u32 ([71, 68, 83, 67] ++ u32le E.TOKENIZER_VERSION ++ u32le n ++ body) 4
      = E.TOKENIZER_VERSION ∧
    decode_u32 ([71, 68, 83, 67] ++ u32le E.TOKENIZER_VERSION ++ u32le n ++ body) 8
      = n % 4294967296 ∧
    (([71, 68, 83, 67] ++ u32le E.TOKENIZER_VERSION ++ u32le n ++ body).drop 8).take 4
      = u32le n ∧
    ([71, 68, 83, 67] ++ u32le E.TOKENIZER_VERSION ++ u32le n ++ body).drop 12 = body ∧
    ([71, 68, 83, 67] ++ u32le E.TOKENIZER_VERSION ++ u32le n ++ body).length
      = 12 + body.length := by
  have hv : E.TOKENIZER_VERSION % 4294967296 = E.TOKENIZER_VERSION :=
    Nat.mod_eq_of_lt (by simpa using hE.2)
  have h4 := decode_u32_u32le_at [71, 68, 83, 67] (u32le n ++ body) E.TOKENIZER_VERSION
  have h8 := decode_u32_u32le_at ([71, 68, 83, 67] ++ u32le E.TOKENIZER_VERSION) body n
  simp only [List.length_cons, List.length_nil, List.length_append, length_u32le] at h4 h8
  have e4 : [71, 68, 83, 67] ++ u32le E.TOKENIZER_VERSION ++ (u32le n ++ body)
      = [71, 68, 83, 67] ++ u32le E.TOKENIZER_VERSION ++ u32le n ++ body := by simp
  rw [e4, hv] at h4
  refine ⟨by simp, h4, h8, by simp [u32le], by simp [u32le], ?_⟩
  simp only [List.length_append, length_u32le, List.length_cons, List.length_nil]

theorem encode_u32_append (pre rest : PackedByteArray) (a b c d : Byte) (v : Nat) :
    encode_u32 (pre ++ a :: b :: c :: d :: rest) pre.length v = pre ++ u32le v ++ rest := by
  rw [encode_u32_eq _ _ _ (by simp), List.take_left, List.drop_append]
  rfl

theorem setByte_append (pre rest : PackedByteArray) (i v : Nat) :
    setByte (pre ++ rest) (pre.length + i) v = pre ++ setByte rest i v := by
  unfold setByte
  rw [List.set_append_right _ _ (by omega)]
  simp

theorem replicate_four (k : Nat) :
    List.replicate (4 * (k + 1)) (0 : Byte) = 0 :: 0 :: 0 :: 0 :: List.replicate (4 * k) 0 := by
  have : 4 * (k + 1) = 4 * k + 1 + 1 + 1 + 1 := by omega
  rw [this]
  rfl

theorem save_char_eq (pre rest : PackedByteArray) (a b c d : Byte) (ch : Char) :
    save_char (pre ++ a :: b :: c :: d :: rest, pre.length) ch
      = (pre ++ char_bytes ch ++ rest, pre.length + 4) := by
  unfold save_char
  have hr : List.range 4 = [0, 1, 2, 3] := by decide
  have ht : encode_u32 [0, 0, 0, 0] 0 ch.toNat = u32le ch.toNat := by
    have := encode_u32_append [] [] 0 0 0 0 ch.toNat
    simpa using this
  simp only [hr, ht, List.foldl_cons, List.foldl_nil, setByte_append]
  simp [setByte, char_bytes, u32le, decode_u8]

theorem foldl_save_char_eq (cs : List Char) (pre rest : PackedByteArray) :
    cs.foldl save_char (pre ++ List.replicate (4 * cs.length) 0 ++ rest, pre.length)
      = (pre ++ cs.flatMap char_bytes ++ rest, pre.length + 4 * cs.length) := by
  induction cs generalizing pre with
  | nil => simp
  | cons c cs ih =>
    rw [List.foldl_cons, List.length_cons, replicate_four]
    have e : pre ++ (0 : Byte) :: 0 :: 0 :: 0 :: List.replicate (4 * cs.length) 0 ++ rest
        = pre ++ 0 :: 0 :: 0 :: 0 :: (List.replicate (4 * cs.length) 0 ++ rest) := by simp
    rw [e, save_char_eq]
    have h := ih (pre ++ char_bytes c)
    have hl : (pre ++ char_bytes c).length = pre.length + 4 := by simp [char_bytes]
    rw [hl] at h
    have e2 : pre ++ char_bytes c ++ (List.replicate (4 * cs.length) 0 ++ rest)
        = pre ++ char_bytes c ++ List.replicate (4 * cs.length) 0 ++ rest := by simp
    rw [e2, h]
    simp only [List.flatMap_cons, List.append_assoc, Prod.mk.injEq, true_and]
    omega

theorem resize_grow (buf : PackedByteArray) (n : Nat) :
    resize buf (buf.length + n) = buf ++ List.replicate n 0 := by
  unfold resize
  rw [List.take_of_length_le (by omega)]
  congr 2
  omega

theorem save_identifier_eq (contents : PackedByteArray) (id : String) :
    save_identifier (contents, contents.length) id
      = (contents ++ identifier_bytes id, (contents ++ identifier_bytes id).length) := by
  unfold save_identifier
  simp only
  have hlen : id.toList.length = id.length := rfl
  rw [resize_grow, Nat.mul_comm (id.length + 1) 4, replicate_four]
  rw [encode_u32_append]
  have h := foldl_save_char_eq id.toList (contents ++ u32le id.length) []
  simp only [List.append_nil, List.length_append, length_u32le, hlen] at h
  rw [h]
  simp only [identifier_bytes, List.append_assoc, List.length_append, length_u32le, Prod.mk.injEq,
    true_and]
  have hb : (id.toList.flatMap char_bytes).length = 4 * id.length := by
    rw [← hlen]
    generalize id.toList = cs
    induction cs with
    | nil => rfl
    | cons c cs ih => rw [List.flatMap_cons, List.length_append, ih, List.length_cons]; simp [char_bytes]; omega
  omega

theorem foldl_save_identifier_eq (ids : List String) (contents : PackedByteArray) :
    ids.foldl save_identifier (contents, contents.length)
      = (contents ++ ids.flatMap identifier_bytes,
          (contents ++ ids.flatMap identifier_bytes).length) := by
  induction ids generalizing contents with
  | nil => simp
  | cons id ids ih =>
    rw [List.foldl_cons, save_identifier_eq, ih]
    simp

theorem save_constants_eq (E : Env) (vs : List Variant) (contents out : PackedByteArray)
    (h : save_constants E contents vs = some out) :
    out = contents ++ vs.flatMap E.var_to_bytes := by
  induction vs generalizing contents with
  | nil =>
    simp only [save_constants, Option.some.injEq] at h
    simp [← h]
  | cons v vs ih =>
    cases v with
    | OBJECT id => simp [save_constants] at h
    | NIL => rw [ih _ h]; simp
    | BOOL b => rw [ih _ h]; simp
    | INT i => rw [ih _ h]; simp
    | STRING s => rw [ih _ h]; simp
    | STRING_NAME s => rw [ih _ h]; simp

theorem save_pair_eq (pre rest : PackedByteArray) (a1 a2 a3 a4 b1 b2 b3 b4 : Byte)
    (e : Nat × Nat) :
    save_pair (pre ++ a1 :: a2 :: a3 :: a4 :: b1 :: b2 :: b3 :: b4 :: rest, pre.length) e
      = (pre ++ pair_bytes e ++ rest, pre.length + 8) := by
  unfold save_pair
  simp only
  rw [encode_u32_append]
  have hl : pre.length + 4 = (pre ++ u32le e.1).length := by simp [length_u32le]
  rw [hl, encode_u32_append]
  simp [pair_bytes, length_u32le]

theorem replicate_eight (k : Nat) :
    List.replicate (8 * (k + 1)) (0 : Byte)
      = 0 :: 0 :: 0 :: 0 :: 0 :: 0 :: 0 :: 0 :: List.replicate (8 * k) 0 := by
  have : 8 * (k + 1) = 8 * k + 1 + 1 + 1 + 1 + 1 + 1 + 1 + 1 := by omega
  rw [this]
  rfl

theorem length_pair_bytes (l : HashMap Nat) : (l.flatMap pair_bytes).length = 8 * l.length := by
  induction l with
  | nil => rfl
  | cons e l ih =>
    rw [List.flatMap_cons, List.length_append, ih, List.length_cons]
    simp [pair_bytes, length_u32le]
    omega

theorem foldl_save_pair_eq (l : HashMap Nat) (pre rest : PackedByteArray) :
    l.foldl save_pair (pre ++ List.replicate (8 * l.length) 0 ++ rest, pre.length)
      = (pre ++ l.flatMap pair_bytes ++ rest, pre.length + 8 * l.length) := by
  induction l generalizing pre with
  | nil => simp
  | cons e l ih =>
    rw [List.foldl_cons, List.length_cons, replicate_eight]
    have e1 : pre ++ (0 : Byte) :: 0 :: 0 :: 0 :: 0 :: 0 :: 0 :: 0 :: List.replicate (8 * l.length) 0
          ++ rest
        = pre ++ 0 :: 0 :: 0 :: 0 :: 0 :: 0 :: 0 :: 0 :: (List.replicate (8 * l.length) 0 ++ rest) := by
      simp
    rw [e1, save_pair_eq]
    have h := ih (pre ++ pair_bytes e)
    have hl : (pre ++ pair_bytes e).length = pre.length + 8 := by
      simp [pair_bytes, length_u32le]
    rw [hl] at h
    have e2 : pre ++ pair_bytes e ++ (List.replicate (8 * l.length) 0 ++ rest)
        = pre ++ pair_bytes e ++ List.replicate (8 * l.length) 0 ++ rest := by simp
    rw [e2, h]
    simp only [List.flatMap_cons, List.append_assoc, Prod.mk.injEq, true_and]
    omega

theorem four_words (a b c d : Nat) :
    encode_u32 (encode_u32 (encode_u32 (encode_u32 (resize [] 16) 0 a) 4 b) 8 c) 12 d
      = u32le a ++ u32le b ++ u32le c ++ u32le d := by
  have e : resize [] 16 = [0, 0, 0, 0, 0, 0, 0, 0, 0, 0, 0, 0, 0, 0, 0, 0] := by decide
  rw [e]
  simp [encode_u32, u32le]

/-- The line map and the column map of the loop have the same ordinals, all below the token
counter. -/
theorem encode_keys_foldl (E : Env) (tokens : List Token) (st : EncodeState)
    (h1 : ∀ e ∈ st.token_lines, e.1 < st.token_counter)
    (h2 : st.token_columns.map Prod.fst = st.token_lines.map Prod.fst) :
    (∀ e ∈ (tokens.foldl (encode_step E) st).token_lines,
      e.1 < (tokens.foldl (encode_step E) st).token_counter) ∧
    (tokens.foldl (encode_step E) st).token_columns.map Prod.fst
      = (tokens.foldl (encode_step E) st).token_lines.map Prod.fst := by
  induction tokens generalizing st with
  | nil => exact ⟨h1, h2⟩
  | cons t tokens ih =>
    rw [List.foldl_cons]
    obtain ⟨e1, -, e3, e4⟩ := encode_step_positions E st t
    apply ih
    · rw [e1, e3]
      intro e he
      by_cases hr : st.token_counter > 0 ∧ t.start_line > st.last_token_line
      · have hk : st.token_counter ∉ st.token_lines.map Prod.fst := by
          intro hc
          obtain ⟨x, hx1, hx2⟩ := List.mem_map.1 hc
          have := h1 x hx1
          omega
        rw [if_pos hr, insert_of_not_mem _ _ _ hk] at he
        rcases List.mem_append.1 he with h | h
        · have := h1 e h; omega
        · simp only [List.mem_singleton] at h
          rw [h]; simp
      · rw [if_neg hr] at he
        have := h1 e he; omega
    · rw [e3, e4]
      by_cases hr : st.token_counter > 0 ∧ t.start_line > st.last_token_line
      · have hk : st.token_counter ∉ st.token_lines.map Prod.fst := by
          intro hc
          obtain ⟨x, hx1, hx2⟩ := List.mem_map.1 hc
          have := h1 x hx1
          omega
        have hk2 : st.token_counter ∉ st.token_columns.map Prod.fst := by rw [h2]; exact hk
        rw [if_pos hr, if_pos hr, insert_of_not_mem _ _ _ hk, insert_of_not_mem _ _ _ hk2]
        simp [h2]
      · rw [if_neg hr, if_neg hr]; exact h2

theorem position_index_keys (E : Env) (tokens : List Token) (continuation_lines : List Nat) :
    (position_index E tokens continuation_lines).2.map Prod.fst
      = (position_index E tokens continuation_lines).1.map Prod.fst := by
  obtain ⟨-, h5⟩ := encode_keys_foldl E tokens {} (by intro e he; cases he) rfl
  unfold position_index
  simp only [remove_continuation_lines_eq]
  have e1 := @List.filter_map (Nat × Nat) Nat
    (fun k : Nat => decide (∀ line ∈ continuation_lines,
      HashMap.has (reverse_lines (encode_tokens E tokens).token_lines) line = true →
        k ≠ HashMap.get (reverse_lines (encode_tokens E tokens).token_lines) line)) Prod.fst
  have e2 := e1 (encode_tokens E tokens).token_columns
  have e3 := e1 (encode_tokens E tokens).token_lines
  simp only [Function.comp_def] at e2 e3
  rw [← e2, ← e3]
  exact congrArg _ h5

/-- The layout of the payload: the four counts, the identifiers and the constants in table
order, the entries of the line map, the entries of the column map, the token cells. -/
theorem payload_layout (E : Env) (tokens : List Token) (continuation_lines : List Nat)
    (contents : PackedByteArray) (h : payload E tokens continuation_lines = some contents) :
    contents =
      u32le (encode_tokens E tokens).identifier_map.length
        ++ u32le (encode_tokens E tokens).constant_map.length
        ++ u32le (position_index E tokens continuation_lines).1.length
        ++ u32le (encode_tokens E tokens).token_counter
        ++ (reverse_map "" (encode_tokens E tokens).identifier_map).flatMap identifier_bytes
        ++ (reverse_map Variant.NIL (encode_tokens E tokens).constant_map).flatMap
            E.var_to_bytes
        ++ (position_index E tokens continuation_lines).1.flatMap pair_bytes
        ++ (position_index E tokens continuation_lines).2.flatMap pair_bytes
        ++ (encode_tokens E tokens).token_buffer := by
  have hk := position_index_keys E tokens continuation_lines
  have hn : (position_index E tokens continuation_lines).2.length
      = (position_index E tokens continuation_lines).1.length := by
    have := congrArg List.length hk
    simpa using this
  unfold payload at h
  simp only [four_words] at h
  have hpi : remove_continuation_lines (reverse_lines (encode_tokens E tokens).token_lines)
      continuation_lines
      ((encode_tokens E tokens).token_lines, (encode_tokens E tokens).token_columns)
        = position_index E tokens continuation_lines := rfl
  rw [hpi] at h
  generalize position_index E tokens continuation_lines = maps at h hn ⊢
  generalize hw : u32le (encode_tokens E tokens).identifier_map.length
      ++ u32le (encode_tokens E tokens).constant_map.length ++ u32le maps.1.length
      ++ u32le (encode_tokens E tokens).token_counter = words at h ⊢
  have hwl : words.length = 16 := by rw [← hw]; simp [length_u32le]
  have hs := foldl_save_identifier_eq
    (reverse_map "" (encode_tokens E tokens).identifier_map) words
  rw [hwl] at hs
  rw [hs] at h
  simp only at h
  cases hc : save_constants E
      (words ++ (reverse_map "" (encode_tokens E tokens).identifier_map).flatMap identifier_bytes)
      (reverse_map Variant.NIL (encode_tokens E tokens).constant_map) with
  | none => rw [hc] at h; cases h
  | some c1 =>
    rw [hc] at h
    simp only [Option.some.injEq] at h
    have hc1 := save_constants_eq E _ _ _ hc
    have hrep : List.replicate (maps.1.length * 16) (0 : Byte)
        = List.replicate (8 * maps.1.length) 0 ++ List.replicate (8 * maps.2.length) 0 := by
      rw [hn, ← List.replicate_add]
      congr 1
      omega
    rw [resize_grow, hrep] at h
    have e1 : c1 ++ (List.replicate (8 * maps.1.length) (0 : Byte)
          ++ List.replicate (8 * maps.2.length) 0)
        = c1 ++ List.replicate (8 * maps.1.length) 0 ++ List.replicate (8 * maps.2.length) 0 := by
      simp
    rw [e1, foldl_save_pair_eq] at h
    have hl : c1.length + 8 * maps.1.length = (c1 ++ maps.1.flatMap pair_bytes).length := by
      rw [List.length_append, length_pair_bytes]
    have e2 : c1 ++ maps.1.flatMap pair_bytes ++ List.replicate (8 * maps.2.length) (0 : Byte)
        = c1 ++ maps.1.flatMap pair_bytes ++ List.replicate (8 * maps.2.length) 0 ++ [] := by
      simp
    rw [hl, e2, foldl_save_pair_eq] at h
    rw [← h, hc1]
    simp

/-! ## C12: the count fields of the payload -/

theorem foldl_token_counter (E : Env) (tokens : List Token) (st : EncodeState) :
    (tokens.foldl (encode_step E) st).token_counter = st.token_counter + tokens.length := by
  induction tokens generalizing st with
  | nil => rfl
  | cons t tokens ih =>
    rw [List.foldl_cons, ih, (encode_step_positions E st t).1, List.length_cons]
    omega

theorem encode_tokens_counter (E : Env) (tokens : List Token) :
    (encode_tokens E tokens).token_counter = tokens.length := by
  unfold encode_tokens
  rw [foldl_token_counter]
  exact Nat.zero_add _

theorem take_words (a b c d : Nat) (rest : PackedByteArray) :
    (u32le a ++ u32le b ++ u32le c ++ u32le d ++ rest).take 16
      = u32le a ++ u32le b ++ u32le c ++ u32le d ∧
    decode_u32 (u32le a ++ u32le b ++ u32le c ++ u32le d ++ rest) 0 = a % 4294967296 ∧
    decode_u32 (u32le a ++ u32le b ++ u32le c ++ u32le d ++ rest) 4 = b % 4294967296 ∧
    decode_u32 (u32le a ++ u32le b ++ u32le c ++ u32le d ++ rest) 8 = c % 4294967296 ∧
    decode_u32 (u32le a ++ u32le b ++ u32le c ++ u32le d ++ rest) 12 = d % 4294967296 := by
  have h0 := decode_u32_u32le_at [] (u32le b ++ u32le c ++ u32le d ++ rest) a
  have h4 := decode_u32_u32le_at (u32le a) (u32le c ++ u32le d ++ rest) b
  have h8 := decode_u32_u32le_at (u32le a ++ u32le b) (u32le d ++ rest) c
  have h12 := decode_u32_u32le_at (u32le a ++ u32le b ++ u32le c) rest d
  simp only [List.length_nil, List.length_append, length_u32le, List.nil_append,
    List.append_assoc] at h0 h4 h8 h12
  simp only [List.append_assoc]
  refine ⟨?_, h0, h4, h8, h12⟩
  simp [u32le]

/-- C12. Payload count fields: the first 16 bytes of the payload that `parse_code_string`
builds are four little-endian 32-bit values: the number of distinct identifier names of the
IDENTIFIER/ANNOTATION tokens, the number of distinct literal values of the LITERAL/ERROR
tokens, the number of position entries left after the removal of continuation lines, and
the number of tokens scanned before end-of-stream. -/
theorem payload_counts (E : Env) (hE : E.WellFormed) (tokens : List Token)
    (continuation_lines : List Nat) (contents : PackedByteArray)
    (h : payload E tokens continuation_lines = some contents) :
    contents.take 16
      = u32le (identifier_names E tokens).toFinset.card
        ++ u32le (literal_values E tokens).toFinset.card
        ++ u32le (position_index E tokens continuation_lines).1.length
        ++ u32le tokens.length ∧
    decode_u32 contents 0 = (identifier_names E tokens).toFinset.card % 2 ^ 32 ∧
    decode_u32 contents 4 = (literal_values E tokens).toFinset.card % 2 ^ 32 ∧
    decode_u32 contents 8 = (position_index E tokens continuation_lines).1.length % 2 ^ 32 ∧
    decode_u32 contents 12 = tokens.length % 2 ^ 32 := by
  have hl := payload_layout E tokens continuation_lines contents h
  have hi : (encode_tokens E tokens).identifier_map.length
      = (identifier_names E tokens).toFinset.card := by
    rw [encode_tokens_identifier_map]
    exact (first_seen_of_build (identifier_names E tokens)).2.2.1
  have hc : (encode_tokens E tokens).constant_map.length
      = (literal_values E tokens).toFinset.card := by
    rw [encode_tokens_constant_map E hE]
    exact (first_seen_of_build (literal_values E tokens)).2.2.1
  rw [hi, hc, encode_tokens_counter] at hl
  have e : contents = u32le (identifier_names E tokens).toFinset.card
      ++ u32le (literal_values E tokens).toFinset.card
      ++ u32le (position_index E tokens continuation_lines).1.length
      ++ u32le tokens.length
      ++ ((reverse_map "" (encode_tokens E tokens).identifier_map).flatMap identifier_bytes
        ++ (reverse_map Variant.NIL (encode_tokens E tokens).constant_map).flatMap
            E.var_to_bytes
        ++ (position_index E tokens continuation_lines).1.flatMap pair_bytes
        ++ (position_index E tokens continuation_lines).2.flatMap pair_bytes
        ++ (encode_tokens E tokens).token_buffer) := by
    rw [hl]; simp only [List.append_assoc]
  rw [e]
  have hp : (2 : Nat) ^ 32 = 4294967296 := by norm_num
  rw [hp]
  exact take_words _ _ _ _ _

theorem payload_counts_witness :
    (decode_u32 samplePayload 0 = 1 ∧ decode_u32 samplePayload 4 = 1 ∧
      decode_u32 samplePayload 8 = 0 ∧ decode_u32 samplePayload 12 = 3) ∧
    (samplePayload.take 16
      = u32le (identifier_names sampleEnv [tokX, tokEq, tokOne]).toFinset.card
        ++ u32le (literal_values sampleEnv [tokX, tokEq, tokOne]).toFinset.card
        ++ u32le (position_index sampleEnv [tokX, tokEq, tokOne] []).1.length
        ++ u32le [tokX, tokEq, tokOne].length ∧
    decode_u32 samplePayload 0
      = (identifier_names sampleEnv [tokX, tokEq, tokOne]).toFinset.card % 2 ^ 32 ∧
    decode_u32 samplePayload 4
      = (literal_values sampleEnv [tokX, tokEq, tokOne]).toFinset.card % 2 ^ 32 ∧
    decode_u32 samplePayload 8
      = (position_index sampleEnv [tokX, tokEq, tokOne] []).1.length % 2 ^ 32 ∧
    decode_u32 samplePayload 12 = [tokX, tokEq, tokOne].length % 2 ^ 32) :=
  ⟨by decide,
    payload_counts sampleEnv (by decide) [tokX, tokEq, tokOne] [] samplePayload (by decide)⟩

/-! ## C13: the position section -/

/-- C13. Position section layout: at serialization the line map and the column map hold the
same token ordinals in the same order; the payload is the counts, identifiers and constants,
then one (ordinal, line) pair per entry of the line map, then one (ordinal, column) pair per
entry of the column map, then the token cells; the two runs of pairs fill exactly
`16 * position_entry_count` bytes. -/
theorem position_section (E : Env) (tokens : List Token) (continuation_lines : List Nat)
    (contents : PackedByteArray) (h : payload E tokens continuation_lines = some contents) :
    (position_index E tokens continuation_lines).2.map Prod.fst
      = (position_index E tokens continuation_lines).1.map Prod.fst ∧
    (position_index E tokens continuation_lines).2.length
      = (position_index E tokens continuation_lines).1.length ∧
    contents =
      (u32le (encode_tokens E tokens).identifier_map.length
        ++ u32le (encode_tokens E tokens).constant_map.length
        ++ u32le (position_index E tokens continuation_lines).1.length
        ++ u32le (encode_tokens E tokens).token_counter
        ++ (reverse_map "" (encode_tokens E tokens).identifier_map).flatMap identifier_bytes
        ++ (reverse_map Variant.NIL (encode_tokens E tokens).constant_map).flatMap
            E.var_to_bytes)
      ++ ((position_index E tokens continuation_lines).1.flatMap pair_bytes
        ++ (position_index E tokens continuation_lines).2.flatMap pair_bytes)
      ++ (encode_tokens E tokens).token_buffer ∧
    ((position_index E tokens continuation_lines).1.flatMap pair_bytes
        ++ (position_index E tokens continuation_lines).2.flatMap pair_bytes).length
      = 16 * (position_index E tokens continuation_lines).1.length := by
  have hk := position_index_keys E tokens continuation_lines
  have hn : (position_index E tokens continuation_lines).2.length
      = (position_index E tokens continuation_lines).1.length := by
    have := congrArg List.length hk
    simpa using this
  refine ⟨hk, hn, ?_, ?_⟩
  · rw [payload_layout E tokens continuation_lines contents h]
    simp only [List.append_assoc]
  · rw [List.length_append, length_pair_bytes, length_pair_bytes, hn]
    omega

theorem position_section_witness :
    ((position_index sampleEnv [tokX, tokEq, tokOne, tokY] []).1 = [(3, 8)] ∧
      (position_index sampleEnv [tokX, tokEq, tokOne, tokY] []).2 = [(3, 5)]) ∧
    ((position_index sampleEnv [tokX, tokEq, tokOne, tokY] []).2.map Prod.fst
      = (position_index sampleEnv [tokX, tokEq, tokOne, tokY] []).1.map Prod.fst ∧
    (position_index sampleEnv [tokX, tokEq, tokOne, tokY] []).2.length
      = (position_index sampleEnv [tokX, tokEq, tokOne, tokY] []).1.length ∧
    (payload sampleEnv [tokX, tokEq, tokOne, tokY] []).getD [] =
      (u32le (encode_tokens sampleEnv [tokX, tokEq, tokOne, tokY]).identifier_map.length
        ++ u32le (encode_tokens sampleEnv [tokX, tokEq, tokOne, tokY]).constant_map.length
        ++ u32le (position_index sampleEnv [tokX, tokEq, tokOne, tokY] []).1.length
        ++ u32le (encode_tokens sampleEnv [tokX, tokEq, tokOne, tokY]).token_counter
        ++ (reverse_map "" (encode_tokens sampleEnv
              [tokX, tokEq, tokOne, tokY]).identifier_map).flatMap identifier_bytes
        ++ (reverse_map Variant.NIL (encode_tokens sampleEnv
              [tokX, tokEq, tokOne, tokY]).constant_map).flatMap sampleEnv.var_to_bytes)
      ++ ((position_index sampleEnv [tokX, tokEq, tokOne, tokY] []).1.flatMap pair_bytes
        ++ (position_index sampleEnv [tokX, tokEq, tokOne, tokY] []).2.flatMap pair_bytes)
      ++ (encode_tokens sampleEnv [tokX, tokEq, tokOne, tokY]).token_buffer ∧
    ((position_index sampleEnv [tokX, tokEq, tokOne, tokY] []).1.flatMap pair_bytes
        ++ (position_index sampleEnv [tokX, tokEq, tokOne, tokY] []).2.flatMap pair_bytes).length
      = 16 * (position_index sampleEnv [tokX, tokEq, tokOne, tokY] []).1.length) :=
  ⟨by decide,
    position_section sampleEnv [tokX, tokEq, tokOne, tokY] []
      ((payload sampleEnv [tokX, tokEq, tokOne, tokY] []).getD []) (by decide)⟩

/-! ## C14, C15: sources without tokens and sources with lexical errors -/

theorem payload_nil (E : Env) (continuation_lines : List Nat) :
    payload E [] continuation_lines = some (List.replicate 16 0) := by
  unfold payload
  simp only [four_words, remove_continuation_lines_eq]
  have e : encode_tokens E [] = {} := rfl
  rw [e]
  simp only [List.length_nil, List.filter_nil]
  rfl


theorem compile_eq_parse (E : Env) (source_code : String) (compression : CompressionMode)
    (h : source_code.isEmpty = false) :
    compile_from_string E source_code compression
      = parse_code_string E source_code
          (if compression = CompressionMode.COMPRESSED then CompressMode.COMPRESS_ZSTD
            else CompressMode.COMPRESS_NONE) := by
  unfold compile_from_string
  simp [h]

/-- C14 (as the code has it). `compile_from_string` returns the empty byte sequence for the
empty source text. For a source text that is not empty and for which the tokenizer yields no
token before end-of-stream it returns a container: the header and a payload of the four
count fields, all zero (28 bytes uncompressed). -/
theorem empty_input (E : Env) (source : String) :
    (source.isEmpty = true →
      ∀ compression, compile_from_string E source compression = []) ∧
    (source.isEmpty = false → scanned_tokens E source = [] →
      compile_from_string E source CompressionMode.UNCOMPRESSED
        = [71, 68, 83, 67] ++ u32le E.TOKENIZER_VERSION ++ u32le 0 ++ List.replicate 16 0 ∧
      compile_from_string E source CompressionMode.COMPRESSED
        = [71, 68, 83, 67] ++ u32le E.TOKENIZER_VERSION ++ u32le 16
          ++ E.compress_zstd (List.replicate 16 0)) := by
  constructor
  · intro h compression
    unfold compile_from_string
    rw [if_pos h]
  · intro h ht
    have hp : payload E (scanned_tokens E source) (E.get_continuation_lines source)
        = some (List.replicate 16 0) := by
      rw [ht]; exact payload_nil E _
    obtain ⟨h1, h2⟩ := parse_code_string_of_payload E source _ hp
    rw [compile_eq_parse E source _ h, compile_eq_parse E source _ h]
    exact ⟨h1, h2⟩

theorem empty_input_witness :
    (("".isEmpty = true →
      ∀ compression, compile_from_string sampleEnv "" compression = []) ∧
    ("".isEmpty = false → scanned_tokens sampleEnv "" = [] →
      compile_from_string sampleEnv "" CompressionMode.UNCOMPRESSED
        = [71, 68, 83, 67] ++ u32le sampleEnv.TOKENIZER_VERSION ++ u32le 0
          ++ List.replicate 16 0 ∧
      compile_from_string sampleEnv "" CompressionMode.COMPRESSED
        = [71, 68, 83, 67] ++ u32le sampleEnv.TOKENIZER_VERSION ++ u32le 16
          ++ sampleEnv.compress_zstd (List.replicate 16 0))) ∧
    compile_from_string sampleEnv "" CompressionMode.UNCOMPRESSED = [] ∧
    (compile_from_string sampleEnv " " CompressionMode.UNCOMPRESSED
        = [71, 68, 83, 67] ++ u32le sampleEnv.TOKENIZER_VERSION ++ u32le 0
          ++ List.replicate 16 0 ∧
      compile_from_string sampleEnv " " CompressionMode.COMPRESSED
        = [71, 68, 83, 67] ++ u32le sampleEnv.TOKENIZER_VERSION ++ u32le 16
          ++ sampleEnv.compress_zstd (List.replicate 16 0)) :=
  ⟨empty_input sampleEnv "",
    (empty_input sampleEnv "").1 (by decide) CompressionMode.UNCOMPRESSED,
    (empty_input sampleEnv " ").2 (by decide) (by decide)⟩

/-- C14, counterexample. For the source of one blank the sample tokenizer yields no token
before end-of-stream, and `compile_from_string` returns a container of 28 bytes, not the
empty byte sequence. -/
theorem empty_input_counterexample :
    " ".isEmpty = false ∧ scanned_tokens sampleEnv " " = [] ∧
    compile_from_string sampleEnv " " CompressionMode.UNCOMPRESSED
      = [71, 68, 83, 67, 100, 0, 0, 0, 0, 0, 0, 0,
          0, 0, 0, 0, 0, 0, 0, 0, 0, 0, 0, 0, 0, 0, 0, 0] ∧
    compile_from_string sampleEnv " " CompressionMode.UNCOMPRESSED ≠ [] := by
  decide

/-- C15, the code at the failing input. The sample tokenizer returns one ERROR token for the
source `$`; `compile_from_string` does not return the empty byte sequence but a container
with one constant (the error message) and one token cell. The loop over `tokenizer.tokens`
reads a vector that `parse_code_string` never fills. -/
theorem upstream_error_kept :
    (∃ t ∈ sampleEnv.scan_all "$", t.type = sampleEnv.ERROR) ∧
    compile_from_string sampleEnv "$" CompressionMode.UNCOMPRESSED
      = [71, 68, 83, 67, 100, 0, 0, 0, 0, 0, 0, 0,
          0, 0, 0, 0, 1, 0, 0, 0, 0, 0, 0, 0, 1, 0, 0, 0,
          0, 0, 0, 0, 218, 0, 0, 0, 1, 0, 0, 0] ∧
    compile_from_string sampleEnv "$" CompressionMode.UNCOMPRESSED
      = parse_code_string sampleEnv "$" CompressMode.COMPRESS_NONE := by
  decide

/-! ## C16: the scanner with an empty position index -/

theorem run_add (E : Env) (a b : Nat) (s : Scanner) :
    run E (a + b) s = ((run E a s).1 ++ (run E b (run E a s).2).1, (run E b (run E a s).2).2) := by
  induction b with
  | zero => simp [run]
  | succ b ih =>
    have e : a + (b + 1) = (a + b) + 1 := by omega
    rw [e, run_succ, ih, run_succ]
    simp

/-- With no position entry the calls inside the stream return the raw tokens in order. -/
theorem run_raw_unindexed (E : Env) (k : Nat) (s : Scanner) (hp : s.pending_indents = 0)
    (hl : s.token_lines = []) (hk : s.current + k ≤ s.tokens.length) :
    (run E k s).1 = (s.tokens.drop s.current).take k ∧
    (run E k s).2 = { s with
      current := s.current + k
      last_token_was_newline := if k = 0 then s.last_token_was_newline else false } := by
  induction k generalizing s with
  | zero => exact ⟨by simp [run], rfl⟩
  | succ k ih =>
    have hlt : s.current < s.tokens.length := by omega
    have hs := scan_unindexed E s hlt hp (by rw [hl]; rfl)
    have hr : run E (k + 1) s = ((scan E s).1 :: (run E k (scan E s).2).1,
        (run E k (scan E s).2).2) := rfl
    rw [hr, hs]
    obtain ⟨h1, h2⟩ := ih { s with last_token_was_newline := false, current := s.current + 1 }
      hp hl (by show s.current + 1 + k ≤ s.tokens.length; omega)
    rw [h1, h2]
    constructor
    · show s.tokens.get ⟨s.current, hlt⟩ :: List.take k (List.drop (s.current + 1) s.tokens)
        = List.take (k + 1) (List.drop s.current s.tokens)
      rw [List.drop_eq_getElem_cons hlt, List.take_succ_cons]
      rfl
    · simp only [Nat.add_one_ne_zero, ↓reduceIte, Scanner.mk.injEq, true_and, and_true]
      refine ⟨by omega, ?_⟩
      split <;> rfl

theorem scan_final_newline (E : Env) (s : Scanner) (h1 : s.tokens.length ≤ s.current)
    (h2 : s.last_token_was_newline = false) :
    scan E s = (line_token E.NEWLINE s.current_line,
      { s with last_token_was_newline := true }) := by
  rw [scan_eq]
  unfold scan_body
  rw [if_pos ⟨h1, h2⟩]

theorem scan_eof (E : Env) (s : Scanner) (h1 : s.tokens.length ≤ s.current)
    (h2 : s.last_token_was_newline = true) (hp : s.pending_indents = 0)
    (hs : s.indent_stack = []) :
    scan E s = ({ type := E.TK_EOF }, s) := by
  rw [scan_eq]
  unfold scan_body
  rw [if_neg (by rw [h2]; simp), if_neg (by omega), if_neg (by omega), dif_pos h1,
    if_neg (not_not.2 hs)]

/-- After step 5 every further call is step 5 again. -/
theorem run_eof_forever (E : Env) (s : Scanner) (h : scan E s = ({ type := E.TK_EOF }, s))
    (k : Nat) :
    run E k s = (List.replicate k { type := E.TK_EOF }, s) := by
  induction k with
  | zero => rfl
  | succ k ih =>
    have hr : run E (k + 1) s = ((scan E s).1 :: (run E k (scan E s).2).1,
        (run E k (scan E s).2).2) := rfl
    rw [hr, h]
    simp only
    rw [ih]
    rfl

/-- C16. Scan with an empty position index: for every raw token stream, the calls of `scan`
from the initial state in structural mode return the raw tokens in order, then one NEWLINE
(on the initial line), then end-of-stream, and nothing else: no INDENT or DEDENT is
returned in between, and every further call returns end-of-stream again. -/
theorem scan_empty_index (E : Env) (tokens : List Token) (current_line : Nat) :
    (run E (tokens.length + 2) (Scanner.initial tokens [] [] false current_line)).1
      = tokens ++ [line_token E.NEWLINE current_line, { type := E.TK_EOF }] ∧
    ∀ k, (run E (tokens.length + 2 + k) (Scanner.initial tokens [] [] false current_line)).1
      = tokens ++ [line_token E.NEWLINE current_line, { type := E.TK_EOF }]
        ++ List.replicate k { type := E.TK_EOF } := by
  obtain ⟨h1, h2⟩ := run_raw_unindexed E tokens.length
    (Scanner.initial tokens [] [] false current_line) rfl rfl
    (by show 0 + tokens.length ≤ tokens.length; omega)
  have e1 : (run E tokens.length (Scanner.initial tokens [] [] false current_line)).1
      = tokens := by
    rw [h1]
    show List.take tokens.length (List.drop 0 tokens) = tokens
    simp
  have e2 : (run E tokens.length (Scanner.initial tokens [] [] false current_line)).2
      = { Scanner.initial tokens [] [] false current_line with current := tokens.length } := by
    rw [h2]
    simp only [Scanner.initial, Nat.zero_add, Scanner.mk.injEq, true_and, and_true]
    split <;> rfl
  have hn := scan_final_newline E
    { Scanner.initial tokens [] [] false current_line with current := tokens.length }
    (Nat.le_refl _) rfl
  have he := scan_eof E
    { Scanner.initial tokens [] [] false current_line with
      current := tokens.length, last_token_was_newline := true }
    (Nat.le_refl _) rfl rfl rfl
  have h2run : run E 2
      { Scanner.initial tokens [] [] false current_line with current := tokens.length }
      = ([line_token E.NEWLINE current_line, { type := E.TK_EOF }],
        { Scanner.initial tokens [] [] false current_line with
          current := tokens.length, last_token_was_newline := true }) := by
    show ((scan E _).1 :: (run E 1 (scan E _).2).1, (run E 1 (scan E _).2).2) = _
    rw [hn]
    show (_ :: (scan E _).1 :: (run E 0 (scan E _).2).1, (run E 0 (scan E _).2).2) = _
    rw [he]
    rfl
  have hmain : run E (tokens.length + 2) (Scanner.initial tokens [] [] false current_line)
      = (tokens ++ [line_token E.NEWLINE current_line, { type := E.TK_EOF }],
        { Scanner.initial tokens [] [] false current_line with
          current := tokens.length, last_token_was_newline := true }) := by
    rw [run_add, e1, e2, h2run]
  refine ⟨by rw [hmain], ?_⟩
  intro k
  rw [run_add, hmain]
  simp only
  rw [run_eof_forever E _ he k]

theorem scan_empty_index_witness :
    (run sampleEnv ([tokX, tokEq, tokOne].length + 2)
        (Scanner.initial [tokX, tokEq, tokOne] [] [] false 1)).1
      = [tokX, tokEq, tokOne] ++ [line_token sampleEnv.NEWLINE 1, { type := sampleEnv.TK_EOF }] :=
  (scan_empty_index sampleEnv [tokX, tokEq, tokOne] 1).1

/-! ## C17: flatten mode -/

theorem encode_tokens_snoc (E : Env) (ts : List Token) (t : Token) :
    encode_tokens E (ts ++ [t]) = encode_step E (encode_tokens E ts) t := by
  simp [encode_tokens, List.foldl_append]

theorem recorded_snoc (ts : List Token) (t : Token) (f : Token → Nat) (k v : Nat) :
    Recorded (ts ++ [t]) f k v ↔
      Recorded ts f k v ∨
        (k = ts.length ∧ ts.length > 0 ∧ t.start_line > last_line ts ∧ v = f t) := by
  unfold Recorded last_line
  rcases Nat.lt_trichotomy k ts.length with hk | hk | hk
  · have h1 : (ts ++ [t])[k]? = ts[k]? := List.getElem?_append_left hk
    have h2 : (ts ++ [t])[k - 1]? = ts[k - 1]? := List.getElem?_append_left (by omega)
    rw [h1, h2]
    constructor
    · intro h; exact Or.inl h
    · rintro (h | ⟨h, -⟩)
      · exact h
      · omega
  · subst hk
    have h1 : (ts ++ [t])[ts.length]? = some t := by simp
    have h0 : ts[ts.length]? = none := by simp
    rw [h1, h0]
    by_cases hz : ts.length = 0
    · constructor
      · rintro ⟨h, -⟩; omega
      · rintro (⟨h, -⟩ | ⟨-, h, -⟩) <;> omega
    · have h2 : (ts ++ [t])[ts.length - 1]? = ts[ts.length - 1]? :=
        List.getElem?_append_left (by omega)
      rw [h2]
      have hlt : ts.length - 1 < ts.length := by omega
      have h3 : ts[ts.length - 1]? = some (ts.get ⟨ts.length - 1, hlt⟩) :=
        List.getElem?_eq_getElem hlt
      rw [h3]
      constructor
      · rintro ⟨-, t2, p, e1, e2, e3, e4⟩
        cases e1; cases e2
        exact Or.inr ⟨rfl, by omega, e3, e4⟩
      · rintro (⟨-, t2, p, e1, -⟩ | ⟨-, -, e3, e4⟩)
        · cases e1
        · exact ⟨by omega, t, _, rfl, rfl, e3, e4⟩
  · have h1 : (ts ++ [t])[k]? = none := by
      apply List.getElem?_eq_none; simp; omega
    have h0 : ts[k]? = none := List.getElem?_eq_none (by omega)
    rw [h1, h0]
    constructor
    · rintro ⟨-, t2, p, e1, -⟩; cases e1
    · rintro (⟨-, t2, p, e1, -⟩ | ⟨h, -⟩)
      · cases e1
      · omega

theorem last_line_snoc (ts : List Token) (t : Token) : last_line (ts ++ [t]) = t.end_line := by
  unfold last_line
  simp

theorem recorded_map_snoc (ts : List Token) (t : Token) (f : Token → Nat) (m : HashMap Nat)
    (hm : ∀ k v, (k, v) ∈ m ↔ Recorded ts f k v) (hnd : (m.map Prod.fst).Nodup) :
    (∀ k v, (k, v) ∈ (if ts.length > 0 ∧ t.start_line > last_line ts then
        HashMap.insert m ts.length (f t) else m) ↔ Recorded (ts ++ [t]) f k v) ∧
    ((if ts.length > 0 ∧ t.start_line > last_line ts then
        HashMap.insert m ts.length (f t) else m).map Prod.fst).Nodup := by
  have hfresh : ts.length ∉ m.map Prod.fst := by
    intro hc
    obtain ⟨e, he, hk⟩ := List.mem_map.1 hc
    obtain ⟨-, t2, p, e1, -⟩ := (hm e.1 e.2).1 he
    rw [hk] at e1
    simp at e1
  by_cases hr : ts.length > 0 ∧ t.start_line > last_line ts
  · rw [if_pos hr, insert_of_not_mem m _ _ hfresh]
    constructor
    · intro k v
      rw [recorded_snoc, List.mem_append, hm]
      constructor
      · rintro (h | h)
        · exact Or.inl h
        · simp only [List.mem_singleton, Prod.mk.injEq] at h
          exact Or.inr ⟨h.1, hr.1, hr.2, h.2⟩
      · rintro (h | ⟨h1, -, -, h4⟩)
        · exact Or.inl h
        · exact Or.inr (by simp [h1, h4])
    · rw [List.map_append, List.nodup_append]
      refine ⟨hnd, by simp, ?_⟩
      intro a ha hb
      simp only [List.map_cons, List.map_nil, List.mem_singleton] at hb
      exact hfresh (hb ▸ ha)
  · rw [if_neg hr]
    refine ⟨?_, hnd⟩
    intro k v
    rw [recorded_snoc, hm]
    constructor
    · intro h; exact Or.inl h
    · rintro (h | ⟨-, h2, h3, -⟩)
      · exact h
      · exact absurd ⟨h2, h3⟩ hr

/-- What the loop of `parse_code_string` has in its two maps after `tokens`. -/
theorem encode_tokens_recorded (E : Env) (tokens : List Token) :
    (encode_tokens E tokens).last_token_line = last_line tokens ∧
    (∀ k v, (k, v) ∈ (encode_tokens E tokens).token_lines ↔
      Recorded tokens (fun t => t.start_line) k v) ∧
    (∀ k v, (k, v) ∈ (encode_tokens E tokens).token_columns ↔
      Recorded tokens (fun t => t.start_column) k v) ∧
    ((encode_tokens E tokens).token_lines.map Prod.fst).Nodup ∧
    ((encode_tokens E tokens).token_columns.map Prod.fst).Nodup := by
  induction tokens using List.reverseRecOn with
  | nil =>
    refine ⟨rfl, ?_, ?_, List.nodup_nil, List.nodup_nil⟩
    · intro k v
      constructor
      · intro h; cases h
      · rintro ⟨-, t, p, e1, -⟩; simp at e1
    · intro k v
      constructor
      · intro h; cases h
      · rintro ⟨-, t, p, e1, -⟩; simp at e1
  | append_singleton ts t ih =>
    obtain ⟨i1, i2, i3, i4, i5⟩ := ih
    obtain ⟨e1, e2, e3, e4⟩ := encode_step_positions E (encode_tokens E ts) t
    rw [encode_tokens_counter, i1] at e3 e4
    rw [encode_tokens_snoc, e2, e3, e4, last_line_snoc]
    obtain ⟨a1, a2⟩ := recorded_map_snoc ts t (fun t => t.start_line) _ i2 i4
    obtain ⟨b1, b2⟩ := recorded_map_snoc ts t (fun t => t.start_column) _ i3 i5
    exact ⟨rfl, a1, b1, a2, b2⟩

/-- C18. Population of the position index: before the continuation lines are removed, the
line map built by `parse_code_string` has an entry for the ordinal `k` exactly when `k >= 1`,
there is a token at `k`, and its start line is greater than the end line of the token before
it; the column map has an entry for the same ordinals; the entries store the start line and
the start column of token `k`; ordinal 0 never has an entry, and no ordinal has two. -/
theorem index_population (E : Env) (tokens : List Token) :
    (∀ k, HashMap.has (encode_tokens E tokens).token_lines k = true ↔
      1 ≤ k ∧ ∃ t p, tokens[k]? = some t ∧ tokens[k - 1]? = some p ∧
        t.start_line > p.end_line) ∧
    (∀ k, HashMap.has (encode_tokens E tokens).token_columns k
      = HashMap.has (encode_tokens E tokens).token_lines k) ∧
    (∀ k t, HashMap.has (encode_tokens E tokens).token_lines k = true →
      tokens[k]? = some t →
      HashMap.get (encode_tokens E tokens).token_lines k = t.start_line ∧
      HashMap.get (encode_tokens E tokens).token_columns k = t.start_column) ∧
    HashMap.has (encode_tokens E tokens).token_lines 0 = false ∧
    HashMap.has (encode_tokens E tokens).token_columns 0 = false ∧
    ((encode_tokens E tokens).token_lines.map Prod.fst).Nodup ∧
    ((encode_tokens E tokens).token_columns.map Prod.fst).Nodup := by
  obtain ⟨-, h2, h3, h4, h5⟩ := encode_tokens_recorded E tokens
  have hl : ∀ k, HashMap.has (encode_tokens E tokens).token_lines k = true ↔
      1 ≤ k ∧ ∃ t p, tokens[k]? = some t ∧ tokens[k - 1]? = some p ∧
        t.start_line > p.end_line := by
    intro k
    rw [has_eq_true_iff]
    constructor
    · intro h
      obtain ⟨e, he, hk⟩ := List.mem_map.1 h
      obtain ⟨a, t, p, e1, e2, e3, -⟩ := (h2 e.1 e.2).1 he
      rw [hk] at a e1 e2
      exact ⟨a, t, p, e1, e2, e3⟩
    · rintro ⟨a, t, p, e1, e2, e3⟩
      exact List.mem_map.2 ⟨(k, t.start_line), (h2 k _).2 ⟨a, t, p, e1, e2, e3, rfl⟩, rfl⟩
  have hc : ∀ k, HashMap.has (encode_tokens E tokens).token_columns k = true ↔
      1 ≤ k ∧ ∃ t p, tokens[k]? = some t ∧ tokens[k - 1]? = some p ∧
        t.start_line > p.end_line := by
    intro k
    rw [has_eq_true_iff]
    constructor
    · intro h
      obtain ⟨e, he, hk⟩ := List.mem_map.1 h
      obtain ⟨a, t, p, e1, e2, e3, -⟩ := (h3 e.1 e.2).1 he
      rw [hk] at a e1 e2
      exact ⟨a, t, p, e1, e2, e3⟩
    · rintro ⟨a, t, p, e1, e2, e3⟩
      exact List.mem_map.2 ⟨(k, t.start_column), (h3 k _).2 ⟨a, t, p, e1, e2, e3, rfl⟩, rfl⟩
  have hzl : HashMap.has (encode_tokens E tokens).token_lines 0 = false := by
    cases hh : HashMap.has (encode_tokens E tokens).token_lines 0
    · rfl
    · exact absurd ((hl 0).1 hh).1 (by decide)
  have hzc : HashMap.has (encode_tokens E tokens).token_columns 0 = false := by
    cases hh : HashMap.has (encode_tokens E tokens).token_columns 0
    · rfl
    · exact absurd ((hc 0).1 hh).1 (by decide)
  refine ⟨hl, ?_, ?_, hzl, hzc, h4, h5⟩
  · intro k
    cases hh : HashMap.has (encode_tokens E tokens).token_lines k
    · cases hh2 : HashMap.has (encode_tokens E tokens).token_columns k
      · rfl
      · rw [(hl k).2 ((hc k).1 hh2)] at hh
        cases hh
    · exact (hc k).2 ((hl k).1 hh)
  · intro k t hk ht
    obtain ⟨a, t2, p, e1, e2, e3⟩ := (hl k).1 hk
    rw [ht] at e1
    cases e1
    exact ⟨get_of_mem _ k _ h4 ((h2 k _).2 ⟨a, t, p, ht, e2, e3, rfl⟩),
      get_of_mem _ k _ h5 ((h3 k _).2 ⟨a, t, p, ht, e2, e3, rfl⟩)⟩

/-- C18 on the tokens `x`, `=`, `1` of line 7 followed by `y` on line 8: the maps hold the
one entry of ordinal 3, line 8 and column 5. -/
theorem index_population_witness :
    (encode_tokens sampleEnv [tokX, tokEq, tokOne, tokY]).token_lines = [(3, 8)] ∧
    (encode_tokens sampleEnv [tokX, tokEq, tokOne, tokY]).token_columns = [(3, 5)] ∧
    (HashMap.has (encode_tokens sampleEnv [tokX, tokEq, tokOne, tokY]).token_lines 3 = true ↔
      1 ≤ 3 ∧ ∃ t p, [tokX, tokEq, tokOne, tokY][3]? = some t ∧
        [tokX, tokEq, tokOne, tokY][3 - 1]? = some p ∧ t.start_line > p.end_line) :=
  ⟨by decide, by decide, (index_population sampleEnv [tokX, tokEq, tokOne, tokY]).1 3⟩

/-! ## C19: the discipline of the indent stack -/

theorem countP_from_antitone (l : HashMap Nat) (c d : Nat) (h : c ≤ d) :
    l.countP (fun e => decide (d ≤ e.1)) ≤ l.countP (fun e => decide (c ≤ e.1)) := by
  apply List.countP_mono_left
  intro e _ he
  simp only [decide_eq_true_eq] at he ⊢
  omega

theorem countP_from_strict (l : HashMap Nat) (c : Nat) (h : HashMap.has l c = true) :
    l.countP (fun e => decide (c + 1 ≤ e.1)) + 1 ≤ l.countP (fun e => decide (c ≤ e.1)) := by
  induction l with
  | nil => simp [HashMap.has] at h
  | cons a l ih =>
    rw [List.countP_cons, List.countP_cons]
    by_cases ha : a.1 = c
    · have := countP_from_antitone l c (c + 1) (Nat.le_succ c)
      have h1 : decide (c + 1 ≤ a.1) = false := by simp; omega
      have h2 : decide (c ≤ a.1) = true := by simp; omega
      rw [h1, h2]
      simp only [Bool.false_eq_true, ↓reduceIte]
      omega
    · have hl : HashMap.has l c = true := by
        simp only [HashMap.has, List.any_cons, Bool.or_eq_true, decide_eq_true_eq] at h
        rcases h with h | h
        · exact absurd h ha
        · simpa [HashMap.has] using h
      have := ih hl
      by_cases hb : c + 1 ≤ a.1
      · have h1 : decide (c + 1 ≤ a.1) = true := by simpa using hb
        have h2 : decide (c ≤ a.1) = true := by simp; omega
        rw [h1, h2]
        simp only [↓reduceIte]
        omega
      · have h1 : decide (c + 1 ≤ a.1) = false := by simpa using hb
        rw [h1]
        simp only [Bool.false_eq_true, ↓reduceIte]
        split <;> omega

theorem calls_left_eq (s : Scanner) :
    calls_left s = (s.tokens.length - s.current)
      + 3 * s.token_lines.countP
        (fun e => decide (s.current + (if s.last_token_was_newline then 1 else 0) ≤ e.1))
      + s.pending_indents.natAbs + s.indent_stack.length
      + (if s.tokens.length ≤ s.current ∧ s.last_token_was_newline = true then 0 else 1) := rfl

/-- Every call of `scan` either is step 5, which returns the end-of-stream token and leaves
the state as it is, or uses up one of the calls left. -/
theorem scan_calls_left (E : Env) (s : Scanner) :
    (scan E s = ({ type := E.TK_EOF }, s) ∧ s.tokens.length ≤ s.current ∧
        s.last_token_was_newline = true ∧ s.pending_indents = 0 ∧ s.indent_stack = []) ∨
      calls_left (scan E s).2 + 1 ≤ calls_left s := by
  rcases scan_cases E s with h | h | h | h | h | h | h | h
  · obtain ⟨h1, h2, e⟩ := h
    right; rw [e, calls_left_eq, calls_left_eq]
    dsimp only
    have := countP_from_antitone s.token_lines s.current (s.current + 1) (Nat.le_succ _)
    rw [h2]
    simp only [Bool.false_eq_true, ↓reduceIte, h1, and_true, and_false, Nat.add_zero]
    omega
  · obtain ⟨-, h2, e⟩ := h
    right; rw [e, calls_left_eq, calls_left_eq]
    dsimp only
    omega
  · obtain ⟨-, h2, e⟩ := h
    right; rw [e, calls_left_eq, calls_left_eq]
    dsimp only
    omega
  · obtain ⟨-, -, hp, hs, e⟩ := h
    right; rw [e, calls_left_eq, calls_left_eq]
    have hlen : 0 < s.indent_stack.length := List.length_pos.2 hs
    dsimp only
    rw [hp, List.length_nil]
    omega
  · obtain ⟨h1, h2, hp, hs, e⟩ := h
    left; exact ⟨e, h1, h2, hp, hs⟩
  · obtain ⟨hlt, hp, hnl, hh, -, e⟩ := h
    right; rw [e, calls_left_eq, calls_left_eq]
    have hr := natAbs_reindent (HashMap.index s.token_columns s.current).1 s.indent_stack
    have hc := countP_from_strict s.token_lines s.current hh
    obtain ⟨f1, f2, f3, f4, f5, f6, -⟩ := newline_state_fields s
    rw [f1, f2, f3, f4, f5, f6, hp, hnl]
    simp only [Bool.false_eq_true, ↓reduceIte, Int.natAbs_zero, Nat.add_zero, and_false,
      and_true]
    have n1 : ¬ s.tokens.length ≤ s.current := by omega
    rw [if_neg n1]
    omega
  · obtain ⟨hlt, hp, hnl, -, -, e⟩ := h
    right; rw [e, calls_left_eq, calls_left_eq]
    have := countP_from_antitone s.token_lines s.current (s.current + 1) (Nat.le_succ _)
    unfold scan_raw lookup_state
    dsimp only
    rw [hnl]
    simp only [Bool.false_eq_true, ↓reduceIte, Nat.add_zero, and_false]
    omega
  · obtain ⟨hlt, hp, -, e⟩ := h
    right; rw [e, calls_left_eq, calls_left_eq]
    have := countP_from_antitone s.token_lines s.current (s.current + 1) (Nat.le_succ _)
    unfold scan_raw
    dsimp only
    simp only [Bool.false_eq_true, ↓reduceIte, Nat.add_zero, and_false]
    have n1 : ¬ (s.tokens.length ≤ s.current ∧ s.last_token_was_newline = true) :=
      fun hc => absurd hc.1 (by omega)
    rw [if_neg n1]
    cases hl : s.last_token_was_newline
    · simp only [Bool.false_eq_true, ↓reduceIte, Nat.add_zero]
      omega
    · simp only [↓reduceIte]
      omega

/-- The end-of-stream token comes from step 5 alone when no raw token has that kind. -/
theorem scan_eof_only (E : Env) (hE : E.WellFormed) (s : Scanner)
    (hraw : ∀ t ∈ s.tokens, t.type ≠ E.TK_EOF) (h : (scan E s).1.type = E.TK_EOF) :
    scan E s = ({ type := E.TK_EOF }, s) ∧ s.tokens.length ≤ s.current ∧
      s.last_token_was_newline = true ∧ s.pending_indents = 0 ∧ s.indent_stack = [] := by
  obtain ⟨-, -, k1, -, k2, k3⟩ := structural_kinds_ne E hE
  rcases scan_cases E s with c | c | c | c | c | c | c | c
  · obtain ⟨-, -, e⟩ := c
    rw [e] at h; exact absurd h k1
  · obtain ⟨-, -, e⟩ := c
    rw [e] at h; exact absurd h k2
  · obtain ⟨-, -, e⟩ := c
    rw [e] at h; exact absurd h k3
  · obtain ⟨-, -, -, -, e⟩ := c
    rw [e] at h; exact absurd h k3
  · obtain ⟨h1, h2, hp, hs, e⟩ := c
    exact ⟨e, h1, h2, hp, hs⟩
  · obtain ⟨-, -, -, -, -, e⟩ := c
    rw [e] at h; exact absurd h k1
  · obtain ⟨hlt, -, -, -, -, e⟩ := c
    rw [e] at h
    exact absurd h (hraw _ (List.get_mem _ _ _))
  · obtain ⟨hlt, -, -, e⟩ := c
    rw [e] at h
    exact absurd h (hraw _ (List.get_mem _ _ _))

theorem scan_tokens_fixed (E : Env) (s : Scanner) :
    (scan E s).2.tokens = s.tokens ∧ (scan E s).2.token_lines = s.token_lines := by
  rcases scan_cases E s with c | c | c | c | c | c | c | c
  · rw [c.2.2]; exact ⟨rfl, rfl⟩
  · rw [c.2.2]; exact ⟨rfl, rfl⟩
  · rw [c.2.2]; exact ⟨rfl, rfl⟩
  · rw [c.2.2.2.2]; exact ⟨rfl, rfl⟩
  · rw [c.2.2.2.2]; exact ⟨rfl, rfl⟩
  · rw [c.2.2.2.2.2]; exact ⟨rfl, rfl⟩
  · obtain ⟨hlt, -, -, -, -, e⟩ := c
    rw [e]; exact ⟨rfl, rfl⟩
  · obtain ⟨hlt, -, -, e⟩ := c
    rw [e]; exact ⟨rfl, rfl⟩

theorem run_tokens_fixed (E : Env) (n : Nat) (s : Scanner) :
    (run E n s).2.tokens = s.tokens ∧ (run E n s).2.token_lines = s.token_lines := by
  induction n with
  | zero => exact ⟨rfl, rfl⟩
  | succ n ih =>
    obtain ⟨g1, g2⟩ := scan_tokens_fixed E (run E n s).2
    rw [run_succ]
    exact ⟨g1.trans ih.1, g2.trans ih.2⟩

theorem run_length (E : Env) (n : Nat) (s : Scanner) : (run E n s).1.length = n := by
  induction n with
  | zero => rfl
  | succ n ih =>
    rw [run_succ]
    simp [ih]

/-- Within `calls_left s` calls from `s` comes a first call that returns the end-of-stream
token. -/
theorem run_within_calls_left (E : Env) (w : Nat) :
    ∀ s : Scanner, calls_left s ≤ w →
      ∃ n, n ≤ w ∧ (∀ m < n, (scan E (run E m s).2).1.type ≠ E.TK_EOF) ∧
        (scan E (run E n s).2).1.type = E.TK_EOF := by
  induction w with
  | zero =>
    intro s hw
    rcases scan_calls_left E s with h | h
    · exact ⟨0, Nat.le_refl _, fun m hm => absurd hm (Nat.not_lt_zero _), by
        show (scan E s).1.type = E.TK_EOF
        rw [h.1]⟩
    · omega
  | succ w ih =>
    intro s hw
    by_cases heof : (scan E s).1.type = E.TK_EOF
    · exact ⟨0, Nat.zero_le _, fun m hm => absurd hm (Nat.not_lt_zero _), heof⟩
    · rcases scan_calls_left E s with h | h
      · exact absurd (by rw [h.1]) heof
      · obtain ⟨n, hn1, hn2, hn3⟩ := ih (scan E s).2 (by omega)
        refine ⟨n + 1, by omega, ?_, hn3⟩
        intro m hm
        cases m with
        | zero => exact heof
        | succ m => exact hn2 m (by omega)

theorem calls_left_initial (tokens : List Token) (token_lines token_columns : HashMap Nat)
    (multiline_mode : Bool) (current_line : Nat) :
    calls_left (Scanner.initial tokens token_lines token_columns multiline_mode current_line)
      ≤ tokens.length + 3 * token_lines.length + 1 := by
  show (tokens.length - 0) + 3 * token_lines.countP
      (fun e => decide (0 + (if false = true then 1 else 0) ≤ e.1))
    + (0 : Int).natAbs + ([] : List Nat).length
    + (if tokens.length ≤ 0 ∧ false = true then 0 else 1) ≤ _
  generalize hcp : List.countP _ token_lines = c
  have hc : c ≤ token_lines.length := by rw [← hcp]; exact List.countP_le_length _
  simp only [Int.natAbs_zero, List.length_nil, Nat.add_zero, Bool.false_eq_true, and_false,
    ↓reduceIte]
  omega

/-- C20 (as the code has it). Scanner termination: for a raw stream of `n` tokens none of
which has the kind end-of-stream and a position index with `m` entries, in either mode, the
calls of `scan` from the initial state return end-of-stream for the first time within
`n + 3 * m + 2` calls; every call returns one token; the recursive call of step 4 never
reaches a recursive call of its own; a call returns end-of-stream only in step 5 (cursor at
the end, `pending_indents` 0, empty stack), and every further call returns end-of-stream
again and leaves the state as it is. -/
theorem scan_termination (E : Env) (hE : E.WellFormed) (tokens : List Token)
    (token_lines token_columns : HashMap Nat) (multiline_mode : Bool) (current_line : Nat)
    (hraw : ∀ t ∈ tokens, t.type ≠ E.TK_EOF) (s0 : Scanner)
    (hs0 : s0 = Scanner.initial tokens token_lines token_columns multiline_mode current_line) :
    (∃ n, n + 1 ≤ tokens.length + 3 * token_lines.length + 2 ∧
      (∀ m < n, (scan E (run E m s0).2).1.type ≠ E.TK_EOF) ∧
      (scan E (run E n s0).2).1.type = E.TK_EOF) ∧
    (∀ n, (run E n s0).1.length = n) ∧
    (∀ (s : Scanner) (r : Scanner → Token × Scanner),
      scan E s = scan_body E (scan_body E r) s) ∧
    (∀ n, (scan E (run E n s0).2).1.type = E.TK_EOF →
      tokens.length ≤ (run E n s0).2.current ∧ (run E n s0).2.pending_indents = 0 ∧
      (run E n s0).2.indent_stack = [] ∧
      ∀ k, run E k (run E n s0).2
        = (List.replicate k { type := E.TK_EOF }, (run E n s0).2)) := by
  have hc : calls_left s0 ≤ tokens.length + 3 * token_lines.length + 1 := by
    rw [hs0]
    exact calls_left_initial tokens token_lines token_columns multiline_mode current_line
  have ht : s0.tokens = tokens := by rw [hs0]; rfl
  refine ⟨?_, fun n => run_length E n s0, ?_, ?_⟩
  · obtain ⟨n, h1, h2, h3⟩ := run_within_calls_left E _ s0 hc
    exact ⟨n, by omega, h2, h3⟩
  · intro s r
    show scan_body E (scan_body E (scan_fuel E 0)) s = _
    apply scan_body_congr
    intro s2 h2
    exact scan_body_of_empty_stack E _ _ s2 h2
  · intro n h
    have hr : ∀ t ∈ (run E n s0).2.tokens, t.type ≠ E.TK_EOF := by
      rw [(run_tokens_fixed E n s0).1, ht]
      exact hraw
    obtain ⟨e, h1, -, h3, h4⟩ := scan_eof_only E hE (run E n s0).2 hr h
    rw [(run_tokens_fixed E n s0).1, ht] at h1
    exact ⟨h1, h3, h4, fun k => run_eof_forever E _ e k⟩

/-- C20 on the tokens `x`, `y` with `y` indexed at line 8, column 5: the seventh call, the
last that the bound `2 + 3 * 1 + 2` allows, is the first to return end-of-stream. -/
theorem scan_termination_witness :
    sampleEnv.WellFormed ∧ (∀ t ∈ [tokX, tokY], t.type ≠ sampleEnv.TK_EOF) ∧
    (run sampleEnv 7 (Scanner.initial [tokX, tokY] [(1, 8)] [(1, 5)] false 1)).1.map
        (fun t => t.type) = [2, 80, 81, 2, 80, 82, 91] ∧
    (∀ n, (run sampleEnv n
      (Scanner.initial [tokX, tokY] [(1, 8)] [(1, 5)] false 1)).1.length = n) :=
  ⟨by decide, by decide, by decide,
    (scan_termination sampleEnv (by decide) [tokX, tokY] [(1, 8)] [(1, 5)] false 1
      (by decide) _ rfl).2.1⟩

/-- C20, the case the claim gets wrong: a raw token whose kind is end-of-stream is returned
by the first call, with the cursor before the end of the stream, and the call after it
returns a NEWLINE, not end-of-stream again. -/
theorem scan_termination_counterexample :
    (scan sampleEnv (Scanner.initial [tokRawEof] [] [] false 1)).1.type = sampleEnv.TK_EOF ∧
    (Scanner.initial [tokRawEof] [] [] false 1).current
      < (Scanner.initial [tokRawEof] [] [] false 1).tokens.length ∧
    (run sampleEnv 2 (Scanner.initial [tokRawEof] [] [] false 1)).1.map (fun t => t.type)
      = [91, 80] ∧
    sampleEnv.NEWLINE = 80 ∧ sampleEnv.TK_EOF = 91 := by
  decide

/-! ## C21: compressing after the encode and during it -/

/-- On an uncompressed container `compress` keeps the magic and the version, writes the
payload length in the size field and replaces the payload by its compressed form. -/
theorem compress_of_uncompressed (E : Env) (hE : E.WellFormed) (contents : PackedByteArray) :
    compress E ([71, 68, 83, 67] ++ u32le E.TOKENIZER_VERSION ++ u32le 0 ++ contents)
      = [71, 68, 83, 67] ++ u32le E.TOKENIZER_VERSION ++ u32le contents.length
        ++ E.compress_zstd contents := by
  obtain ⟨f1, f2, f3, -, f5, f6⟩ := envelope_fields E hE 0 contents
  have h12 : HEADER_SIZE = 12 := rfl
  have hlen : ¬ ([71, 68, 83, 67] ++ u32le E.TOKENIZER_VERSION ++ u32le 0 ++ contents).length
      < HEADER_SIZE := by
    rw [f6, h12]; omega
  have hmag : ¬ (decode_u8 ([71, 68, 83, 67] ++ u32le E.TOKENIZER_VERSION ++ u32le 0
        ++ contents) 0 ≠ 71
      ∨ decode_u8 ([71, 68, 83, 67] ++ u32le E.TOKENIZER_VERSION ++ u32le 0 ++ contents) 1 ≠ 68
      ∨ decode_u8 ([71, 68, 83, 67] ++ u32le E.TOKENIZER_VERSION ++ u32le 0 ++ contents) 2 ≠ 83
      ∨ decode_u8 ([71, 68, 83, 67] ++ u32le E.TOKENIZER_VERSION ++ u32le 0 ++ contents) 3
        ≠ 67) := by
    rw [magic_iff _ (by rw [f6]; omega)]
    exact not_not.2 f1
  have hw : u32le (decode_u32 ([71, 68, 83, 67] ++ u32le E.TOKENIZER_VERSION ++ u32le 0
      ++ contents) 0) = [71, 68, 83, 67] := by
    rw [u32le_decode_u32 _ 0 (by rw [f6]; omega), List.drop_zero, f1]
  rw [compress_fresh E _ hlen hmag f2 (by rw [f3]), hw, f2, f6, h12, f5]
  have e : 12 + contents.length - 12 = contents.length := by omega
  rw [e]

/-- C21. Compress-after equals compress-during: for every source, `compress` applied to
`compile_from_string(source, UNCOMPRESSED)` returns byte for byte what
`compile_from_string(source, COMPRESSED)` returns; when the source encodes, both are the
magic, the version, the payload length and the compression transform of the payload. -/
theorem compress_after_equals_during (E : Env) (hE : E.WellFormed) (source : String) :
    compress E (compile_from_string E source CompressionMode.UNCOMPRESSED)
      = compile_from_string E source CompressionMode.COMPRESSED ∧
    (∀ contents, source.isEmpty = false →
      payload E (scanned_tokens E source) (E.get_continuation_lines source) = some contents →
      compile_from_string E source CompressionMode.UNCOMPRESSED
        = [71, 68, 83, 67] ++ u32le E.TOKENIZER_VERSION ++ u32le 0 ++ contents ∧
      compile_from_string E source CompressionMode.COMPRESSED
        = [71, 68, 83, 67] ++ u32le E.TOKENIZER_VERSION ++ u32le contents.length
          ++ E.compress_zstd contents) := by
  have hnil : compress E [] = [] := by
    unfold compress
    rw [if_pos (by decide)]
  constructor
  · cases he : source.isEmpty
    · have hU : compile_from_string E source CompressionMode.UNCOMPRESSED
          = parse_code_string E source CompressMode.COMPRESS_NONE :=
        compile_eq_parse E source _ he
      have hC : compile_from_string E source CompressionMode.COMPRESSED
          = parse_code_string E source CompressMode.COMPRESS_ZSTD :=
        compile_eq_parse E source _ he
      rw [hU, hC]
      cases hp : payload E (scanned_tokens E source) (E.get_continuation_lines source) with
      | none =>
        have e1 : ∀ mode, parse_code_string E source mode = [] := by
          intro mode
          unfold parse_code_string
          rw [hp]
        rw [e1, e1, hnil]
      | some contents =>
        obtain ⟨h1, h2⟩ := parse_code_string_of_payload E source contents hp
        rw [h1, h2]
        exact compress_of_uncompressed E hE contents
    · have e1 : ∀ mode, compile_from_string E source mode = [] := by
        intro mode
        unfold compile_from_string
        rw [if_pos he]
      rw [e1, e1, hnil]
  · intro contents he hp
    have hU : compile_from_string E source CompressionMode.UNCOMPRESSED
        = parse_code_string E source CompressMode.COMPRESS_NONE :=
      compile_eq_parse E source _ he
    have hC : compile_from_string E source CompressionMode.COMPRESSED
        = parse_code_string E source CompressMode.COMPRESS_ZSTD :=
      compile_eq_parse E source _ he
    rw [hU, hC]
    exact parse_code_string_of_payload E source contents hp

/-- C21 on the sample line `x = 1`: the source encodes to a container, and compressing the
uncompressed container gives the bytes of the compressed encode. -/
theorem compress_after_equals_during_witness :
    sampleEnv.WellFormed ∧
    compile_from_string sampleEnv "x = 1" CompressionMode.UNCOMPRESSED ≠ [] ∧
    compile_from_string sampleEnv "x = 1" CompressionMode.COMPRESSED ≠ [] ∧
    compress sampleEnv (compile_from_string sampleEnv "x = 1" CompressionMode.UNCOMPRESSED)
      = compile_from_string sampleEnv "x = 1" CompressionMode.COMPRESSED :=
  ⟨by decide, by decide, by decide,
    (compress_after_equals_during sampleEnv (by decide) "x = 1").1⟩

/-! ## C8: a payload that wraps the size field -/

end Gdbc
